import Mathlib

/-
Shallow embedding of the rule-inference lattice-search core (the GTRI
package): combined rule-pattern labels, the morphism algebra, the lattice
node / maximal-common-subrule computation, the embedding extension
deduplication, the rule-lattice search driver and minimal-subrule
extraction.  Graphs, automorphism groups and subgraph matchers provided by
the external oracle libraries (mod, networkx) are modelled as explicit
data (vertex lists, generator lists) or as function parameters; everything
written in the repository itself is translated directly.
-/

namespace GTRI

/-! ## Combined labels (rule_graph.py: _is_combined, _split_label,
_combine_labels, _compare_labels)

Python labels are strings; an absent label (`None`) and the empty string
are both falsy, which we model with `Option String` and `truthy`. -/

/-- Python `_is_combined(label)`: the label contains a semicolon. -/
def isCombined (label : String) : Bool := label.data.contains ';'

/-- Python `str.split(';')` on the character list of a label. -/
def splitChars : List Char → List (List Char)
  | [] => [[]]
  | c :: cs =>
    if c = ';' then [] :: splitChars cs
    else
      match splitChars cs with
      | [] => [[c]]
      | p :: ps => (c :: p) :: ps

/-- Python truthiness conversion `part if part else None` used by
`_split_label` on each split part. -/
def optPart (l : List Char) : Option String :=
  if l.isEmpty then none else some (String.mk l)

/-- Python `_split_label(label)`: left part is `labels[0]` if non-empty,
right part is `labels[1]` if present and non-empty. -/
def splitLabel (label : String) : Option String × Option String :=
  ((match splitChars label.data with | [] => none | p :: _ => optPart p),
   (match splitChars label.data with | _ :: q :: _ => optPart q | _ => none))

/-- Python truthiness of an optional string: `None` and `""` are falsy. -/
def truthy : Option String → Bool
  | none => false
  | some s => !s.isEmpty

/-- Length measure of an optional label, for the recursion of
`compareLabels`. -/
def strLenO : Option String → Nat
  | none => 0
  | some s => s.length

/-- Python `_combine_labels(left, right)`: empty halves are normalised to
`""`; equal halves collapse to a single (context) label. -/
def combineLabels (left right : Option String) : String :=
  let ls := left.getD ""
  let rs := right.getD ""
  if ls ≠ rs then ls ++ ";" ++ rs else ls

theorem splitChars_ne_nil (l : List Char) : splitChars l ≠ [] := by
  cases l with
  | nil => simp [splitChars]
  | cons c cs =>
    simp only [splitChars]
    by_cases h : c = ';'
    · simp [h]
    · simp only [h, if_false]
      cases hs : splitChars cs with
      | nil => simp
      | cons p ps => simp

theorem mem_splitChars_length_le (l : List Char) :
    ∀ p ∈ splitChars l, p.length ≤ l.length := by
  induction l with
  | nil => intro p hp; simp [splitChars] at hp; simp [hp]
  | cons c cs ih =>
    intro p hp
    by_cases h : c = ';'
    · simp [splitChars, h] at hp
      rcases hp with hp | hp
      · simp [hp]
      · exact Nat.le_succ_of_le (ih p hp)
    · cases hs : splitChars cs with
      | nil => exact absurd hs (splitChars_ne_nil cs)
      | cons q qs =>
        simp [splitChars, h, hs] at hp
        rcases hp with hp | hp
        · subst hp
          have hq : q ∈ splitChars cs := by rw [hs]; exact List.mem_cons_self _ _
          simpa using Nat.succ_le_succ (ih q hq)
        · have hp2 : p ∈ splitChars cs := by rw [hs]; exact List.mem_cons_of_mem _ hp
          exact Nat.le_succ_of_le (ih p hp2)

theorem mem_splitChars_length_lt (l : List Char) (hsem : ';' ∈ l) :
    ∀ p ∈ splitChars l, p.length < l.length := by
  induction l with
  | nil => simp at hsem
  | cons c cs ih =>
    intro p hp
    by_cases h : c = ';'
    · simp [splitChars, h] at hp
      rcases hp with hp | hp
      · simp [hp]
      · exact Nat.lt_succ_of_le (mem_splitChars_length_le cs p hp)
    · have hsem' : ';' ∈ cs := by
        rcases List.mem_cons.1 hsem with h1 | h1
        · exact absurd h1.symm h
        · exact h1
      cases hs : splitChars cs with
      | nil => exact absurd hs (splitChars_ne_nil cs)
      | cons q qs =>
        simp [splitChars, h, hs] at hp
        rcases hp with hp | hp
        · subst hp
          have hq : q ∈ splitChars cs := by rw [hs]; exact List.mem_cons_self _ _
          simpa using Nat.succ_lt_succ (ih hsem' q hq)
        · have hp2 : p ∈ splitChars cs := by rw [hs]; exact List.mem_cons_of_mem _ hp
          exact Nat.lt_succ_of_le (Nat.le_of_lt (ih hsem' p hp2))

theorem strLenO_optPart_le (l : List Char) : strLenO (optPart l) ≤ l.length := by
  unfold optPart
  by_cases h : l.isEmpty
  · simp [h, strLenO]
  · simp [h, strLenO, String.length]

theorem splitLabel_fst_lt (s : String) (h : isCombined s = true) :
    strLenO (splitLabel s).1 < s.length := by
  unfold splitLabel
  have hsem : ';' ∈ s.data := by
    simpa [isCombined, List.contains] using h
  cases hs : splitChars s.data with
  | nil => exact absurd hs (splitChars_ne_nil s.data)
  | cons p ps =>
    have hp : p ∈ splitChars s.data := by rw [hs]; exact List.mem_cons_self _ _
    have := mem_splitChars_length_lt s.data hsem p hp
    have hopt := strLenO_optPart_le p
    simp only [hs]
    calc strLenO (optPart p) ≤ p.length := hopt
      _ < s.data.length := this

theorem splitLabel_snd_lt (s : String) (h : isCombined s = true) :
    strLenO (splitLabel s).2 < s.length := by
  unfold splitLabel
  have hsem : ';' ∈ s.data := by
    simpa [isCombined, List.contains] using h
  have hpos : 0 < s.data.length := List.length_pos_of_mem hsem
  cases hs : splitChars s.data with
  | nil => exact absurd hs (splitChars_ne_nil s.data)
  | cons p ps =>
    cases ps with
    | nil => simpa [hs, strLenO] using hpos
    | cons q qs =>
      have hq : q ∈ splitChars s.data := by
        rw [hs]; exact List.mem_cons_of_mem _ (List.mem_cons_self _ _)
      have := mem_splitChars_length_lt s.data hsem q hq
      have hopt := strLenO_optPart_le q
      simp only [hs]
      calc strLenO (optPart q) ≤ q.length := hopt
        _ < s.data.length := this

theorem truthy_some_getD (o : Option String) (h : truthy o = true) :
    (o.getD "").length = strLenO o := by
  cases o with
  | none => exact absurd h (by simp [truthy])
  | some s => simp [strLenO]

/-- The recursion of `_compare_labels` with an explicit depth bound.  The
split halves of a combined label are strictly shorter than the label, so
the total label length bounds the recursion depth; `compareLabels` below
instantiates the bound and `compareLabels_eq` recovers the source's exact
recurrence. -/
def compareLabelsFuel : Nat → Option String → Option String → Bool
  | 0, _, _ => false
  | f + 1, sup, sub =>
    if truthy sub && truthy sup && isCombined (sub.getD "") && isCombined (sup.getD "") then
      compareLabelsFuel f (splitLabel (sup.getD "")).1 (splitLabel (sub.getD "")).1 &&
        compareLabelsFuel f (splitLabel (sup.getD "")).2 (splitLabel (sub.getD "")).2
    else if truthy sup = false then !truthy sub
    else if sub == some "*" then true
    else sub == sup

/-- Python `_compare_labels(supergraph_label, subgraph_label)`: the
compatibility relation used by `embed`.  Combined labels are compared
half-by-half recursively; an empty super-half only matches an empty
sub-half; a sub-half `"*"` matches any (non-empty) super-half; otherwise
the halves must be equal. -/
def compareLabels (sup sub : Option String) : Bool :=
  compareLabelsFuel (strLenO sup + strLenO sub + 1) sup sub

/-! ## Morphism algebra (morphism.py)

A `Morphism` is the `_vertex_map` dictionary as an association list of
(range vertex, image vertex) pairs; vertices are the integer vertex ids of
the owning graphs.  Equality, hashing and the total order all go through
`fingerprint`, the sorted pair sequence, exactly as in the source.
Composition (`__add__`) requires the left operand's image to lie inside
the right operand's domain (a stated precondition of the source, not a
checked error); out-of-domain lookups are modelled as the identity, and
every theorem that needs compositions to be defined carries the
corresponding compatibility hypothesis. -/

/-- A morphism vertex map as an association list (Python dict items). -/
abbrev Morphism : Type := List (Nat × Nat)

/-- Dictionary lookup `m[v]` (identity outside the domain; see above). -/
def mapply (m : Morphism) (v : Nat) : Nat :=
  match m.find? (fun p => p.1 == v) with
  | some p => p.2
  | none => v

/-- Python `Morphism.__add__`: compose, mapping each range vertex through
`m1` then `m2`. -/
def madd (m1 m2 : Morphism) : Morphism :=
  m1.map (fun p => (p.1, mapply m2 p.2))

/-- Strict lexicographic order on vertex pairs (Python tuple `<`). -/
def pairLtB (a b : Nat × Nat) : Bool :=
  decide (a.1 < b.1) || (a.1 == b.1 && decide (a.2 < b.2))

/-- Non-strict lexicographic order on vertex pairs. -/
def pairLeB (a b : Nat × Nat) : Bool := pairLtB a b || a == b

/-- Insertion step of the sort behind `fingerprint`. -/
def insertPair (x : Nat × Nat) : List (Nat × Nat) → List (Nat × Nat)
  | [] => [x]
  | y :: ys => if pairLeB x y then x :: y :: ys else y :: insertPair x ys

/-- Python `sorted(vertex_map.items())`: the `_fingerprint` of a
morphism. -/
def fingerprint (m : Morphism) : List (Nat × Nat) := m.foldr insertPair []

/-- Strict lexicographic order on pair sequences (Python tuple `<`). -/
def plLtB : List (Nat × Nat) → List (Nat × Nat) → Bool
  | _, [] => false
  | [], _ :: _ => true
  | a :: as1, b :: bs => pairLtB a b || (a == b && plLtB as1 bs)

/-- Python `Morphism.__lt__`: compare fingerprints. -/
def mltB (m1 m2 : Morphism) : Bool := plLtB (fingerprint m1) (fingerprint m2)

/-- Python `Morphism.__eq__`: compare fingerprints. -/
def meqB (m1 m2 : Morphism) : Bool := fingerprint m1 == fingerprint m2

/-- Python `Morphism.__le__`: compare fingerprints. -/
def mleB (m1 m2 : Morphism) : Bool := meqB m1 m2 || mltB m1 m2

/-! ## Canonical graphs and morphism canonicalisation

`CanonicalGraph` (canonicalisation.py) wraps an oracle graph; the only
data `Morphism.canonicalise` reads from it are the vertex list and the
automorphism generators returned by the external `mod` library's `aut()`
call, so the model keeps exactly those. -/

/-- The oracle-facing data of a canonical graph: its vertices and the
generators of its automorphism group (as vertex self-mappings). -/
structure CanonicalGraph where
  vertices : List Nat
  autGens : List (Nat → Nat)

/-- Python `Morphism._identity(graph)`. -/
def midentity (g : CanonicalGraph) : Morphism := g.vertices.map (fun v => (v, v))

/-- Python `Morphism._from_automorphism(graph, automorphism)`. -/
def fromAutomorphism (g : CanonicalGraph) (a : Nat → Nat) : Morphism :=
  g.vertices.map (fun v => (v, a v))

/-- Python `Morphism._from_automorphism_generators(graph)`: the listed
generators lifted to morphisms, followed by the identity. -/
def fromAutomorphismGenerators (g : CanonicalGraph) : List Morphism :=
  g.autGens.map (fromAutomorphism g) ++ [midentity g]

/-- Python `Morphism.canonicalise(range, image)`: keep the least candidate
`range_automorphism + self + image_automorphism`, starting from `self`. -/
def canonicalise (m : Morphism) (rng img : CanonicalGraph) : Morphism :=
  (fromAutomorphismGenerators rng).foldl (fun best r =>
    (fromAutomorphismGenerators img).foldl (fun best2 i =>
      if mltB (madd (madd r m) i) best2 then madd (madd r m) i else best2) best) m

/-- The full candidate list scanned by `canonicalise`, in scan order. -/
def canonCandidates (m : Morphism) (rng img : CanonicalGraph) : List Morphism :=
  (fromAutomorphismGenerators rng).flatMap (fun r =>
    (fromAutomorphismGenerators img).map (fun i => madd (madd r m) i))

/-- Running minimum of a morphism list (the loop skeleton of
`canonicalise`). -/
def foldMin (init : Morphism) (l : List Morphism) : Morphism :=
  l.foldl (fun best c => if mltB c best then c else best) init

/-! ## Lattice nodes (rule_lattice.py: LatticeNode)

`rule_lattice.py` is generic in the embeddings it manipulates: it only
calls `embedding.pattern`, `embedding.host_transition` and
`embedding.extensions()`, and relies on the value equality / total order
of patterns (`RuleGraph`, by canonical fingerprint) and transitions.  The
model therefore takes the embedding type `E`, the pattern type `P` and
the transition type `T` as parameters together with those three
accessors and the transition order `tle`; embedding.py instantiates them
below.  A `LatticeNode` is its `_embeddings` list.  Python iterates some
of these collections in unspecified `set` order; the model fixes the
deterministic first-occurrence order, which none of the verified
properties depend on. -/

section LatticeModel

variable {E P T : Type} [DecidableEq E] [DecidableEq P] [DecidableEq T]

/-- Python `LatticeNode._pattern`: the shared pattern of the embeddings if
there is exactly one distinct pattern, otherwise undefined (`None`). -/
def npattern (pat : E → P) (n : List E) : Option P :=
  match (n.map pat).dedup with
  | [p] => some p
  | _ => none

/-- Insertion step of the sort used for `coverage`. -/
def insertLe {α : Type} (le : α → α → Bool) (a : α) : List α → List α
  | [] => [a]
  | b :: bs => if le a b then a :: b :: bs else b :: insertLe le a bs

/-- `sorted(...)` with respect to a boolean order. -/
def sortWith {α : Type} (le : α → α → Bool) (l : List α) : List α :=
  l.foldr (insertLe le) []

/-- Python `LatticeNode.coverage`: the sorted tuple of the distinct host
transitions of the node's embeddings. -/
def coverage (host : E → T) (tle : T → T → Bool) (n : List E) : List T :=
  sortWith tle ((n.map host).dedup)

/-- One step of the extension grouping of `LatticeNode.successors`: file
the extension embedding `x` under its pattern (dict keyed by pattern
value equality, entry sets deduplicated by embedding equality). -/
def addExtension (pat : E → P) (groups : List (P × List E)) (x : E) :
    List (P × List E) :=
  match groups with
  | [] => [(pat x, [x])]
  | (p, xs) :: rest =>
    if pat x = p then (p, if x ∈ xs then xs else xs ++ [x]) :: rest
    else (p, xs) :: addExtension pat rest x

/-- Python `LatticeNode.successors()`: nothing for a node with undefined
pattern; otherwise one child node per distinct extension pattern, holding
all embeddings that produced that pattern. -/
def successors (pat : E → P) (ext : E → List E) (n : List E) : List (List E) :=
  match npattern pat n with
  | none => []
  | some _ => ((n.flatMap ext).foldl (addExtension pat) []).map (fun g => g.2)

/-- Python `LatticeNode.get_maximum_common_subrule()`: recurse into the
first successor whose coverage equals the current node's coverage, stop
at the current node when none does.  The Python recursion has no fuel;
its termination comes from patterns growing inside fixed host rules, so
the model adds an explicit fuel argument (exhausted fuel returns the
current node, which keeps every coverage-preservation property intact). -/
def getMaximumCommonSubrule (pat : E → P) (host : E → T) (ext : E → List E)
    (tle : T → T → Bool) : Nat → List E → List E
  | 0, n => n
  | f + 1, n =>
    match (successors pat ext n).find?
        (fun c => decide (coverage host tle c = coverage host tle n)) with
    | some c => getMaximumCommonSubrule pat host ext tle f c
    | none => n

/-- Python `LatticeNode.__eq__`: nodes compare by their (possibly
undefined) patterns only. -/
def nodeEq (pat : E → P) (n1 n2 : List E) : Bool :=
  decide (npattern pat n1 = npattern pat n2)

/-- Python `LatticeNode.__hash__`: `37 * hash(self._pattern)`, with the
hash of an optional pattern supplied as an oracle parameter. -/
def nodeHash (pat : E → P) (hashp : Option P → Int) (n : List E) : Int :=
  37 * hashp (npattern pat n)

end LatticeModel

/-! ## Embeddings (embedding.py)

`Embedding` keeps a pattern, its host transition and the morphism from
pattern vertices into the host's maximal rule.  The move generators
`_label_specifications` / `_edge_additions` build new (pattern, morphism)
pairs through the external graph library, so the model abstracts the
generator as a function `extGen` producing those pairs, and models the
deduplication `_build_embeddings` concretely; `isos p q` stands for
`p.isomorphisms(q)` (rule_graph.py, delegated to networkx's matcher). -/

/-- Python `Embedding`: pattern, host transition, morphism. -/
structure Emb (P T : Type) where
  pattern : P
  host : T
  morphism : Morphism
deriving DecidableEq

section EmbeddingModel

variable {P T : Type} [DecidableEq P] [DecidableEq T]

/-- `Set[Morphism].add`: add a morphism unless an equal one (by
fingerprint) is already present. -/
def insertMorphismMeq (ms : List Morphism) (phi : Morphism) : List Morphism :=
  if ms.any (fun psi => meqB psi phi) then ms else ms ++ [phi]

/-- One step of `Embedding._build_embeddings`: file the produced
(pattern, morphism) pair into the pattern-keyed dictionary.  A repeated
pattern contributes the compositions of every isomorphism onto the stored
(first-seen) pattern with the new morphism. -/
def insertExtension (isos : P → P → List Morphism)
    (groups : List (P × List Morphism)) (q : P) (phi : Morphism) :
    List (P × List Morphism) :=
  match groups with
  | [] => [(q, [phi])]
  | (orig, ms) :: rest =>
    if q = orig then
      (orig, (isos q orig).foldl (fun s i => insertMorphismMeq s (madd i phi)) ms) :: rest
    else (orig, ms) :: insertExtension isos rest q phi

/-- Python `Embedding._build_embeddings(extension_generator)`: group the
generated pairs by pattern, merging repeated patterns through their
isomorphisms, then emit one embedding per stored morphism, all with the
original embedding's host transition. -/
def buildEmbeddings (isos : P → P → List Morphism) (e : Emb P T)
    (gen : List (P × Morphism)) : List (Emb P T) :=
  (gen.foldl (fun acc pm => insertExtension isos acc pm.1 pm.2) []).flatMap
    (fun pr => pr.2.map (fun phi => Emb.mk pr.1 e.host phi))

/-- Python `Embedding.extensions()`: build embeddings from the extension
generator (label specifications, then edge additions while the pattern has
fewer edges than the host rule; the generator contents are abstracted as
`extGen`, which every verified property is independent of). -/
def extensions (isos : P → P → List Morphism)
    (extGen : Emb P T → List (P × Morphism)) (e : Emb P T) : List (Emb P T) :=
  buildEmbeddings isos e (extGen e)

/-- The entry stored for pattern `p` in the pattern-keyed dictionary of
`_build_embeddings`. -/
def lookupGroup (gs : List (P × List Morphism)) (p : P) : Option (List Morphism) :=
  (gs.find? (fun g => decide (g.1 = p))).map (fun g => g.2)

/-- The isomorphism-composed morphisms contributed for pattern `p` by the
generator pairs after its first occurrence: one `iota + phi` per
later pair `(p, phi)` and isomorphism `iota`. -/
def orbitTargets (isos : P → P → List Morphism) (p : P)
    (post : List (P × Morphism)) : List Morphism :=
  (post.filter (fun pm => decide (pm.1 = p))).flatMap
    (fun pm => (isos p p).map (fun i => madd i pm.2))

end EmbeddingModel

/-! ## Rule lattice search driver (rule_lattice.py: CandidateRule,
RuleLattice)

`can_embed` (transition.py) asks the external matcher whether a pattern
embeds into a transition's maximal rule, so it is a parameter
`canEmbed : T → Option P → Bool` (the pattern argument is the possibly
undefined node pattern).  Dictionaries keyed by `LatticeNode` use the
node equality `nodeEq` (pattern equality), as in the source. -/

/-- Python `CandidateRule`: coverage (distinct host transitions of the
node), distortion (spurious transitions), and the node's pattern. -/
structure CandidateRule (P T : Type) where
  coverage : List T
  distortion : List T
  rule : Option P
deriving DecidableEq

/-- Python `RuleLattice` state: roots, parent-to-children adjacency,
candidate map, work queue and the set of seen nodes. -/
structure RuleLatticeState (E P T : Type) where
  roots : List (List E)
  nodes : List (List E × List (List E))
  candidates : List (List E × CandidateRule P T)
  nodeQueue : List (List E)
  seenNodes : List (List E)
deriving DecidableEq

section DriverModel

variable {E P T : Type} [DecidableEq E] [DecidableEq P] [DecidableEq T]

/-- Lookup in a `LatticeNode`-keyed dictionary (key equality is
`nodeEq`). -/
def findByNode {α : Type} (pat : E → P) (l : List (List E × α)) (n : List E) :
    Option (List E × α) :=
  l.find? (fun kv => nodeEq pat kv.1 n)

/-- `self._nodes[parent].add(child)`: record a parent-to-child edge (set
semantics under node equality; missing parent key leaves the map
unchanged — the Python `KeyError` is unreachable in driver runs). -/
def addChildEdge (pat : E → P) (adj : List (List E × List (List E)))
    (parent child : List E) : List (List E × List (List E)) :=
  match adj with
  | [] => []
  | (k, ch) :: rest =>
    if nodeEq pat k parent then
      (k, if ch.any (fun c => nodeEq pat c child) then ch else ch ++ [child]) :: rest
    else (k, ch) :: addChildEdge pat rest parent child

/-- Python `RuleLattice._add_node(node, parent)`: skip seen nodes; take
the node's maximal common subrule `M`; if `M` is already a candidate just
record the parent edge; otherwise record the edge and register a new
`CandidateRule` whose distortion is the parent candidate's distortion
filtered by embeddability of `M`'s pattern, queueing `M` when that
distortion is non-empty.  (A parent without a candidate would be a Python
`KeyError`; the model returns the state unchanged on that unreachable
branch.) -/
def addNode (pat : E → P) (host : E → T) (ext : E → List E)
    (tle : T → T → Bool) (canEmbed : T → Option P → Bool) (fuel : Nat)
    (st : RuleLatticeState E P T) (node parent : List E) :
    RuleLatticeState E P T :=
  if st.seenNodes.any (fun s => nodeEq pat s node) then st
  else
    let seen2 := st.seenNodes ++ [node]
    let M := getMaximumCommonSubrule pat host ext tle fuel node
    match findByNode pat st.candidates M with
    | some _ =>
      { st with seenNodes := seen2, nodes := addChildEdge pat st.nodes parent M }
    | none =>
      match findByNode pat st.candidates parent with
      | none => { st with seenNodes := seen2 }
      | some pc =>
        let dist := pc.2.distortion.filter (fun t => canEmbed t (npattern pat M))
        { st with
          seenNodes := seen2,
          nodes := addChildEdge pat st.nodes parent M ++ [(M, [])],
          candidates := st.candidates ++ [(M, ⟨(M.map host).dedup, dist, npattern pat M⟩)],
          nodeQueue := if dist.isEmpty then st.nodeQueue else st.nodeQueue ++ [M] }

/-- Python `RuleLattice.resolve_node()`: pop the queue front and add each
of its successors. -/
def resolveNode (pat : E → P) (host : E → T) (ext : E → List E)
    (tle : T → T → Bool) (canEmbed : T → Option P → Bool) (fuel : Nat)
    (st : RuleLatticeState E P T) : RuleLatticeState E P T :=
  match st.nodeQueue with
  | [] => st
  | active :: rest =>
    (successors pat ext active).foldl
      (fun s c => addNode pat host ext tle canEmbed fuel s c active)
      { st with nodeQueue := rest }

/-- Python `RuleLattice.__init__(root, spurious_transitions)`. -/
def initLattice (pat : E → P) (host : E → T) (root : List E)
    (spurious : List T) : RuleLatticeState E P T :=
  { roots := [root],
    nodes := [(root, [])],
    candidates := [(root, ⟨(root.map host).dedup, spurious, npattern pat root⟩)],
    nodeQueue := if spurious.isEmpty then [] else [root],
    seenNodes := [root] }

end DriverModel

/-! ## Rule builder (rule_builder.py) and minimal-subrule extraction
(rule_graph.py: RuleGraph.get_minimal_subrule)

A `RuleGraph` is modelled by its combined-label graph `CGraph` (the data
of `_rule_to_nx_graph` / `graph_to_nx_graph(use_indices=True)`): vertices
with integer ids and string labels, undirected edges with labels.  The
builder keeps the three side dictionaries `left`, `context`, `right`
keyed by vertex ids and normalised edge pairs (`EdgeTuple`).  The
external round-trip `to_mod_rule` / `from_rule` preserves ids and labels
and is modelled by reading the combined graph straight off the builder;
the connected-component handling of `_nx_graph_to_mod_graph` is modelled
explicitly below. -/

/-- A rule-side dictionary key: a vertex id or a normalised edge pair. -/
inductive BElem where
  | vtx (id : Nat)
  | edg (a b : Nat)
deriving DecidableEq

/-- Python `EdgeTuple`: the sorted endpoint pair. -/
def mkEdgeTuple (s t : Nat) : BElem := BElem.edg (min s t) (max s t)

/-- Python `RuleSideGraph._elements`: an insertion-ordered dictionary. -/
abbrev SideGraph : Type := List (BElem × String)

/-- Python `RuleSideGraph.has_element`. -/
def sgHas (sg : SideGraph) (x : BElem) : Bool := sg.any (fun p => p.1 == x)

/-- Python `RuleSideGraph.label` (callers only read present elements). -/
def sgLabel (sg : SideGraph) (x : BElem) : String :=
  ((sg.find? (fun p => p.1 == x)).map (fun p => p.2)).getD ""

/-- Python `RuleSideGraph.add_element` (dict assignment: update in place
or append). -/
def sgAdd (sg : SideGraph) (x : BElem) (l : String) : SideGraph :=
  if sgHas sg x then sg.map (fun p => if p.1 == x then (x, l) else p)
  else sg ++ [(x, l)]

/-- Python `RuleSideGraph.remove_element`. -/
def sgRemove (sg : SideGraph) (x : BElem) : SideGraph :=
  sg.filter (fun p => !(p.1 == x))

/-- Python `RuleBuilder`: the three side dictionaries. -/
structure Builder where
  left : SideGraph
  context : SideGraph
  right : SideGraph
deriving DecidableEq

/-- Python `RuleBuilder._add_side_element(element, label, side,
opposite_side)`, returning the updated (side, opposite, context). -/
def addSideElement (side opposite ctx : SideGraph) (x : BElem) (l : String) :
    SideGraph × SideGraph × SideGraph :=
  if sgHas ctx x then
    if sgLabel ctx x == l then (side, opposite, ctx)
    else (sgAdd side x l, sgAdd opposite x (sgLabel ctx x), sgRemove ctx x)
  else if sgHas opposite x && (sgLabel opposite x == l) then
    (if sgHas side x then sgRemove side x else side, sgRemove opposite x, sgAdd ctx x l)
  else (sgAdd side x l, opposite, ctx)

/-- Python `RuleBuilder._add_left_element`. -/
def addLeftElement (b : Builder) (x : BElem) (l : String) : Builder :=
  match addSideElement b.left b.right b.context x l with
  | (s, o, c) => { left := s, right := o, context := c }

/-- Python `RuleBuilder._add_right_element`. -/
def addRightElement (b : Builder) (x : BElem) (l : String) : Builder :=
  match addSideElement b.right b.left b.context x l with
  | (s, o, c) => { right := s, left := o, context := c }

/-- Python `RuleBuilder._add_context_element`. -/
def addContextElement (b : Builder) (x : BElem) (l : String) : Builder :=
  { left := if sgHas b.left x then sgRemove b.left x else b.left,
    right := if sgHas b.right x then sgRemove b.right x else b.right,
    context := sgAdd b.context x l }

/-- The endpoint ids of an edge element, in `EdgeTuple` order. -/
def edgeVertexIds (x : BElem) : List Nat :=
  match x with
  | BElem.vtx i => [i]
  | BElem.edg a b => [a, b]

/-- Python `RuleBuilder._add_edge_vertices(edge, target_graph,
alternative_graphs)`: add a wildcard vertex for each endpoint missing
from the target graph and from some alternative graph. -/
def addEdgeVertices (target : SideGraph) (alts : List SideGraph) (e : BElem) :
    SideGraph :=
  (edgeVertexIds e).foldl (fun tg v =>
    if !sgHas tg (BElem.vtx v) &&
        (alts.isEmpty || alts.any (fun g => !sgHas g (BElem.vtx v))) then
      sgAdd tg (BElem.vtx v) "*"
    else tg) target

/-- The vertex ids of one side dictionary. -/
def sgVertexIds (sg : SideGraph) : List Nat :=
  sg.filterMap (fun p => match p.1 with | BElem.vtx i => some i | BElem.edg _ _ => none)

/-- Python `RuleBuilder.vertices` (a set; modelled by its distinct id
list). -/
def builderVertexIds (b : Builder) : List Nat :=
  (sgVertexIds b.left ++ sgVertexIds b.context ++ sgVertexIds b.right).dedup

/-- Python `len(builder.vertices)`. -/
def numVertices (b : Builder) : Nat := (builderVertexIds b).length

/-- Python `RuleBuilder.add_left_vertex`. -/
def addLeftVertex (b : Builder) (i : Nat) (l : String) : Builder :=
  addLeftElement b (BElem.vtx i) l

/-- Python `RuleBuilder.add_context_vertex`. -/
def addContextVertex (b : Builder) (i : Nat) (l : String) : Builder :=
  addContextElement b (BElem.vtx i) l

/-- Python `RuleBuilder.add_right_vertex`. -/
def addRightVertex (b : Builder) (i : Nat) (l : String) : Builder :=
  addRightElement b (BElem.vtx i) l

/-- Python `RuleBuilder.add_left_edge`. -/
def addLeftEdge (b : Builder) (s t : Nat) (l : String) : Builder :=
  let e := mkEdgeTuple s t
  let b2 : Builder := { b with left := addEdgeVertices b.left [b.context] e }
  addLeftElement b2 e l

/-- Python `RuleBuilder.add_context_edge`. -/
def addContextEdge (b : Builder) (s t : Nat) (l : String) : Builder :=
  let e := mkEdgeTuple s t
  let b2 : Builder := { b with context := addEdgeVertices b.context [b.left, b.right] e }
  addContextElement b2 e l

/-- Python `RuleBuilder.add_right_edge`. -/
def addRightEdge (b : Builder) (s t : Nat) (l : String) : Builder :=
  let e := mkEdgeTuple s t
  let b2 : Builder := { b with right := addEdgeVertices b.right [b.context] e }
  addRightElement b2 e l

/-- The combined-label graph of a `RuleGraph`: integer-id vertices and
undirected edges with combined labels. -/
structure CGraph where
  vertices : List (Nat × String)
  edges : List (Nat × Nat × String)
deriving DecidableEq

/-- Vertex-id to new-id map entries used by `get_minimal_subrule`. -/
def mapLookup (m : List (Nat × Nat)) (k : Nat) : Option Nat :=
  (m.find? (fun p => p.1 == k)).map (fun p => p.2)

/-- The vertex loop body of `get_minimal_subrule`: a relabeled vertex is
re-indexed and added with a wildcard left half and its original right
half. -/
def minimalVertexStep (st : Builder × List (Nat × Nat)) (v : Nat × String) :
    Builder × List (Nat × Nat) :=
  if isCombined v.2 then
    let l := (splitLabel v.2).1
    let r := (splitLabel v.2).2
    let sid := numVertices st.1
    let vmap := st.2 ++ [(v.1, sid)]
    let b1 := if truthy l then addLeftVertex st.1 sid "*" else st.1
    let b2 := if truthy r then addRightVertex b1 sid (r.getD "") else b1
    (b2, vmap)
  else st

/-- The endpoint handling of the edge loop of `get_minimal_subrule`: an
endpoint not yet re-indexed becomes a fresh wildcard context vertex. -/
def minimalEdgeEndpoint (st : Builder × List (Nat × Nat)) (v : Nat) :
    Builder × List (Nat × Nat) :=
  match mapLookup st.2 v with
  | some _ => st
  | none =>
    let sid := numVertices st.1
    (addContextVertex st.1 sid "*", st.2 ++ [(v, sid)])

/-- The edge loop body of `get_minimal_subrule`: a relabeled edge is
re-indexed (creating context endpoints as needed) and added with a
wildcard left half and its original right half.  The re-indexed ids are
present by construction; the `getD 0` default mirrors the Python
dictionary lookup that cannot fail there. -/
def minimalEdgeStep (st : Builder × List (Nat × Nat)) (e : Nat × Nat × String) :
    Builder × List (Nat × Nat) :=
  if isCombined e.2.2 then
    let st1 := minimalEdgeEndpoint st e.1
    let st2 := minimalEdgeEndpoint st1 e.2.1
    let l := (splitLabel e.2.2).1
    let r := (splitLabel e.2.2).2
    let sa := (mapLookup st2.2 e.1).getD 0
    let sb := (mapLookup st2.2 e.2.1).getD 0
    let b1 := if truthy l then addLeftEdge st2.1 sa sb "*" else st2.1
    let b2 := if truthy r then addRightEdge b1 sa sb (r.getD "") else b1
    (b2, st2.2)
  else st

/-- The builder and vertex-id map accumulated by
`get_minimal_subrule`. -/
def minimalBuilder (P : CGraph) : Builder × List (Nat × Nat) :=
  P.edges.foldl minimalEdgeStep
    (P.vertices.foldl minimalVertexStep ({ left := [], context := [], right := [] }, []))

/-- First-occurrence deduplication (deterministic stand-in for Python
set/dict iteration). -/
def dedupF {α : Type} [DecidableEq α] : List α → List α
  | [] => []
  | a :: as1 => a :: (dedupF as1).filter (fun x => decide (x ≠ a))

/-- The label a rule side (including shared context) gives an element:
Python `_get_rule_element_label` through the mod rule's side graphs. -/
def sideLookup (sg ctx : SideGraph) (x : BElem) : Option String :=
  if sgHas sg x then some (sgLabel sg x)
  else if sgHas ctx x then some (sgLabel ctx x)
  else none

/-- The element keys of a builder, left section first (GML order). -/
def builderElems (b : Builder) : List BElem :=
  dedupF ((b.left ++ b.context ++ b.right).map (fun p => p.1))

/-- The combined-label graph of the built rule: Python
`_rule_to_nx_graph(builder.to_mod_rule())`, combining each element's left
and right labels with `_combine_element_labels`. -/
def builderToCombined (b : Builder) : CGraph :=
  { vertices := (builderElems b).filterMap (fun x =>
      match x with
      | BElem.vtx i =>
        some (i, combineLabels (sideLookup b.left b.context x) (sideLookup b.right b.context x))
      | BElem.edg _ _ => none),
    edges := (builderElems b).filterMap (fun x =>
      match x with
      | BElem.vtx _ => none
      | BElem.edg a c =>
        some (a, c, combineLabels (sideLookup b.left b.context x) (sideLookup b.right b.context x))) }

/-- Neighbours of a vertex in a combined graph. -/
def cgAdjacent (g : CGraph) (v : Nat) : List Nat :=
  g.edges.foldr (fun e acc =>
    if e.1 == v then e.2.1 :: acc else if e.2.1 == v then e.1 :: acc else acc) []

/-- One breadth step of the reachable set. -/
def reachStep (g : CGraph) (s : List Nat) : List Nat :=
  dedupF (s ++ s.flatMap (cgAdjacent g))

/-- Iterated reachability. -/
def reachIter (g : CGraph) : Nat → List Nat → List Nat
  | 0, s => s
  | n + 1, s => reachIter g n (reachStep g s)

/-- The connected component of a vertex, as a sorted id list. -/
def componentOf (g : CGraph) (v : Nat) : List Nat :=
  sortWith Nat.ble (reachIter g g.vertices.length [v])

/-- networkx `connected_components`, as the distinct component id
lists. -/
def componentsC (g : CGraph) : List (List Nat) :=
  dedupF (g.vertices.map (fun p => componentOf g p.1))

/-- The label of a vertex in a combined graph. -/
def cgVertexLabel (g : CGraph) (v : Nat) : String :=
  ((g.vertices.find? (fun p => p.1 == v)).map (fun p => p.2)).getD ""

/-- Python `_find_modified_nodes`: a node whose label, or one of whose
incident edge labels, is combined. -/
def modifiedNode (g : CGraph) (v : Nat) : Bool :=
  isCombined (cgVertexLabel g v) ||
    g.edges.any (fun e => (e.1 == v || e.2.1 == v) && isCombined e.2.2)

/-- The multi-component branch of `_nx_graph_to_mod_graph`: connect the
modified nodes of each component to the previously collected principal
nodes with `no_edge` edges; fail when a component has no modified
node. -/
def principalAugment (g : CGraph) : Option CGraph :=
  ((componentsC g).foldl (fun acc comp =>
      match acc with
      | none => none
      | some (principal, newEdges) =>
        let fresh := comp.filter (modifiedNode g)
        if fresh.isEmpty then none
        else some (principal ++ fresh,
          newEdges ++ fresh.flatMap (fun m => principal.map (fun p => (p, m, "no_edge"))))
    ) (some (([] : List Nat), ([] : List (Nat × Nat × String))))).map
    (fun pr => { g with edges := g.edges ++ pr.2 })

/-- Python `_nx_graph_to_mod_graph` (the oracle canonicalisation wrapper
preserves the graph): the graph itself when connected, the augmented
graph or a failure otherwise. -/
def nxGraphToModGraph (g : CGraph) : Option CGraph :=
  if (componentsC g).length > 1 then principalAugment g else some g

/-- Python `RuleGraph.get_minimal_subrule()`: the built sub-pattern and
the morphism sending each of its vertices back to the original vertex it
was derived from. -/
def getMinimalSubrule (P : CGraph) : Option (CGraph × Morphism) :=
  let bm := minimalBuilder P
  (nxGraphToModGraph (builderToCombined bm.1)).map
    (fun sub => (sub, bm.2.map (fun p => (p.2, p.1))))

/-! ## Order lemmas for the morphism total order -/

theorem pairLtB_trans {a b c : Nat × Nat} (h1 : pairLtB a b = true)
    (h2 : pairLtB b c = true) : pairLtB a c = true := by
  simp only [pairLtB, Bool.or_eq_true, Bool.and_eq_true, decide_eq_true_eq,
    beq_iff_eq] at h1 h2 ⊢
  omega

theorem pairLtB_connex {a b : Nat × Nat} (h1 : pairLtB a b = false)
    (h2 : pairLtB b a = false) : a = b := by
  simp only [pairLtB, Bool.or_eq_false_iff, Bool.and_eq_false_iff,
    decide_eq_false_iff_not, beq_eq_false_iff_ne, ne_eq, Nat.not_lt] at h1 h2
  have hab : a.1 = b.1 := by omega
  have hcd : a.2 = b.2 := by
    rcases h1.2 with h | h
    · exact absurd hab h
    · rcases h2.2 with h' | h'
      · exact absurd hab.symm h'
      · omega
  exact Prod.ext hab hcd

theorem plLtB_trans : ∀ {x y z : List (Nat × Nat)}, plLtB x y = true →
    plLtB y z = true → plLtB x z = true := by
  intro x
  induction x with
  | nil =>
    intro y z hxy hyz
    cases z with
    | nil =>
      cases y with
      | nil => simp [plLtB] at hxy
      | cons b bs => simp [plLtB] at hyz
    | cons c cs => simp [plLtB]
  | cons a as1 ih =>
    intro y z hxy hyz
    cases y with
    | nil => simp [plLtB] at hxy
    | cons b bs =>
      cases z with
      | nil => simp [plLtB] at hyz
      | cons c cs =>
        simp only [plLtB, Bool.or_eq_true, Bool.and_eq_true, beq_iff_eq] at hxy hyz ⊢
        rcases hxy with h1 | ⟨hab, h1⟩
        · rcases hyz with h2 | ⟨hbc, h2⟩
          · exact Or.inl (pairLtB_trans h1 h2)
          · subst hbc; exact Or.inl h1
        · subst hab
          rcases hyz with h2 | ⟨hbc, h2⟩
          · exact Or.inl h2
          · subst hbc; exact Or.inr ⟨rfl, ih h1 h2⟩

theorem plLtB_connex : ∀ {x y : List (Nat × Nat)}, plLtB x y = false →
    plLtB y x = false → x = y := by
  intro x
  induction x with
  | nil =>
    intro y hxy _
    cases y with
    | nil => rfl
    | cons b bs => simp [plLtB] at hxy
  | cons a as1 ih =>
    intro y hxy hyx
    cases y with
    | nil => simp [plLtB] at hyx
    | cons b bs =>
      simp only [plLtB, Bool.or_eq_false_iff, Bool.and_eq_false_iff,
        beq_eq_false_iff_ne, ne_eq] at hxy hyx
      have hab : a = b := pairLtB_connex hxy.1 hyx.1
      subst hab
      have htail : as1 = bs := by
        rcases hxy.2 with h | h
        · exact absurd rfl h
        · rcases hyx.2 with h' | h'
          · exact absurd rfl h'
          · exact ih h h'
      rw [htail]

theorem plLtB_irrefl (u : List (Nat × Nat)) : plLtB u u = false := by
  induction u with
  | nil => rfl
  | cons a as1 ihu =>
    simp only [plLtB, Bool.or_eq_false_iff, Bool.and_eq_false_iff]
    refine ⟨?_, Or.inr ihu⟩
    simp only [pairLtB, Bool.or_eq_false_iff, Bool.and_eq_false_iff,
      decide_eq_false_iff_not, Nat.not_lt]
    omega

theorem mltB_irrefl (m : Morphism) : mltB m m = false := plLtB_irrefl _

theorem mltB_not_lt_le {m1 m2 : Morphism} (h : mltB m2 m1 = false) :
    mleB m1 m2 = true := by
  unfold mltB at h
  unfold mleB meqB mltB
  by_cases h2 : plLtB (fingerprint m1) (fingerprint m2) = true
  · simp [h2]
  · have := plLtB_connex (Bool.eq_false_iff.2 (fun hc => h2 hc)) h
    simp [this]

theorem foldMin_cons (init d : Morphism) (ds : List Morphism) :
    foldMin init (d :: ds) = foldMin (if mltB d init then d else init) ds := by
  unfold foldMin
  simp only [List.foldl_cons]

theorem foldMin_mem (l : List Morphism) (init : Morphism) :
    foldMin init l = init ∨ foldMin init l ∈ l := by
  induction l generalizing init with
  | nil => exact Or.inl rfl
  | cons d ds ih =>
    rw [foldMin_cons]
    by_cases h : mltB d init = true
    · simp only [h, if_true]
      rcases ih d with h1 | h1
      · exact Or.inr (by rw [h1]; exact List.mem_cons_self _ _)
      · exact Or.inr (List.mem_cons_of_mem _ h1)
    · simp only [Bool.eq_false_iff.2 (fun hc => h hc), if_false]
      rcases ih init with h1 | h1
      · exact Or.inl h1
      · exact Or.inr (List.mem_cons_of_mem _ h1)

theorem foldMin_not_lt (l : List Morphism) :
    ∀ (init c : Morphism), (c = init ∨ c ∈ l) →
      mltB c (foldMin init l) = false := by
  induction l with
  | nil =>
    intro init c hc
    rcases hc with h | h
    · rw [h]; exact mltB_irrefl init
    · simp at h
  | cons d ds ih =>
    intro init c hc
    rw [foldMin_cons]
    by_cases hd : mltB d init = true
    · simp only [hd, if_true]
      rcases hc with h | h
      · -- c = init; d < init; if init < result then d < result, contradicting ih at d
        rw [h]
        by_contra hx
        have hx' : mltB init (foldMin d ds) = true := by
          cases hf : mltB init (foldMin d ds)
          · exact absurd hf hx
          · rfl
        have hdr : mltB d (foldMin d ds) = true := plLtB_trans hd hx'
        rw [ih d d (Or.inl rfl)] at hdr
        cases hdr
      · rcases List.mem_cons.1 h with h1 | h1
        · rw [h1]; exact ih d d (Or.inl rfl)
        · exact ih d c (Or.inr h1)
    · have hd' : mltB d init = false := Bool.eq_false_iff.2 (fun hc2 => hd hc2)
      simp only [hd', if_false]
      rcases hc with h | h
      · exact ih init c (Or.inl h)
      · rcases List.mem_cons.1 h with h1 | h1
        · -- c = d; ¬ d < init; if d < result then init < result, contradicting ih at init
          rw [h1]
          by_contra hx
          have hx' : mltB d (foldMin init ds) = true := by
            cases hf : mltB d (foldMin init ds)
            · exact absurd hf hx
            · rfl
          have hir := ih init init (Or.inl rfl)
          by_cases hic : plLtB (fingerprint init) (fingerprint d) = true
          · have : mltB init (foldMin init ds) = true := plLtB_trans hic hx'
            rw [hir] at this
            cases this
          · have heq := plLtB_connex
              (Bool.eq_false_iff.2 (fun hc2 => hic hc2)) hd'
            unfold mltB at hx' hir
            rw [← heq, hir] at hx'
            cases hx'
        · exact ih init c (Or.inr h1)

theorem foldMin_le (l : List Morphism) (init c : Morphism)
    (hc : c = init ∨ c ∈ l) : mleB (foldMin init l) c = true :=
  mltB_not_lt_le (foldMin_not_lt l init c hc)

theorem foldl_nested_min (is : List Morphism) (m : Morphism) :
    ∀ (rs : List Morphism) (init : Morphism),
      rs.foldl (fun best r =>
        is.foldl (fun best2 i =>
          if mltB (madd (madd r m) i) best2 then madd (madd r m) i else best2) best) init
      = foldMin init (rs.flatMap (fun r => is.map (fun i => madd (madd r m) i))) := by
  intro rs
  induction rs with
  | nil => intro init; simp [foldMin]
  | cons r rest ih =>
    intro init
    simp only [List.flatMap_cons, List.foldl_cons]
    unfold foldMin
    rw [List.foldl_append, List.foldl_map]
    have hih := ih (is.foldl (fun best2 i =>
      if mltB (madd (madd r m) i) best2 then madd (madd r m) i else best2) init)
    unfold foldMin at hih
    exact hih

/-- `canonicalise` is the running minimum over its candidate list. -/
theorem canonicalise_eq_foldMin (m : Morphism) (rng img : CanonicalGraph) :
    canonicalise m rng img = foldMin m (canonCandidates m rng img) := by
  unfold canonicalise canonCandidates
  exact foldl_nested_min (fromAutomorphismGenerators img) m
    (fromAutomorphismGenerators rng) m

theorem midentity_mem_generators (g : CanonicalGraph) :
    midentity g ∈ fromAutomorphismGenerators g := by
  unfold fromAutomorphismGenerators
  exact List.mem_append_right _ (List.mem_singleton.2 rfl)

/-- When the identity compositions leave `m` unchanged (the domain
compatibility precondition of §4.1), `m` itself is one of the scanned
candidates. -/
theorem self_mem_canonCandidates (m : Morphism) (rng img : CanonicalGraph)
    (hcompat : madd (madd (midentity rng) m) (midentity img) = m) :
    m ∈ canonCandidates m rng img := by
  unfold canonCandidates
  exact List.mem_flatMap.2 ⟨midentity rng, midentity_mem_generators rng,
    List.mem_map.2 ⟨midentity img, midentity_mem_generators img, hcompat⟩⟩

/-- Claim C3: for a morphism `m` whose domain and image are compatible
with the range and image graphs (so that composing with the two
identities returns `m`), `m.canonicalise(range, image)` is an element of
the candidate set `{ r + m + i }` over the automorphism generators plus
identities of both graphs, is less than or equal (in the fingerprint
order) to every element of that set, and in particular is less than or
equal to `m` itself. -/
theorem claim_C3_canonicalise_least (m : Morphism) (rng img : CanonicalGraph)
    (hcompat : madd (madd (midentity rng) m) (midentity img) = m) :
    (∃ c ∈ canonCandidates m rng img, canonicalise m rng img = c) ∧
    (∀ c ∈ canonCandidates m rng img, mleB (canonicalise m rng img) c = true) ∧
    mleB (canonicalise m rng img) m = true := by
  rw [canonicalise_eq_foldMin]
  refine ⟨?_, ?_, ?_⟩
  · rcases foldMin_mem (canonCandidates m rng img) m with h | h
    · exact ⟨m, self_mem_canonCandidates m rng img hcompat, h⟩
    · exact ⟨foldMin m (canonCandidates m rng img), h, rfl⟩
  · intro c hc
    exact foldMin_le _ _ _ (Or.inr hc)
  · exact foldMin_le _ _ _ (Or.inl rfl)

/-- Claim C3 witness: the theorem applied to the swap morphism on the
two-vertex graph with trivial generator lists. -/
theorem claim_C3_witness :
    (∃ c ∈ canonCandidates [(0, 1), (1, 0)] ⟨[0, 1], []⟩ ⟨[0, 1], []⟩,
        canonicalise [(0, 1), (1, 0)] ⟨[0, 1], []⟩ ⟨[0, 1], []⟩ = c) ∧
    (∀ c ∈ canonCandidates [(0, 1), (1, 0)] ⟨[0, 1], []⟩ ⟨[0, 1], []⟩,
        mleB (canonicalise [(0, 1), (1, 0)] ⟨[0, 1], []⟩ ⟨[0, 1], []⟩) c = true) ∧
    mleB (canonicalise [(0, 1), (1, 0)] ⟨[0, 1], []⟩ ⟨[0, 1], []⟩) [(0, 1), (1, 0)] = true :=
  claim_C3_canonicalise_least [(0, 1), (1, 0)] ⟨[0, 1], []⟩ ⟨[0, 1], []⟩ (by decide)

/-- Claim C4 counterexample: on a range graph whose automorphism group is
generated by a single order-3 rotation (the oracle returns generators,
not the whole group), canonicalising `g + m` for the identity morphism
`m` and the rotation generator `g` gives `g`, while canonicalising `m`
gives `m`: the results differ, because the scanned candidate set
`{ r + (g + m) + i }` over generators-plus-identity is not the same set
as `{ r + m + i }` when the generator list is not closed under
composition. -/
theorem claim_C4_counterexample :
    meqB
      (canonicalise
        (madd (fromAutomorphism ⟨[0, 1, 2], [fun v => (v + 1) % 3]⟩ (fun v => (v + 1) % 3))
          [(0, 0), (1, 1), (2, 2)])
        ⟨[0, 1, 2], [fun v => (v + 1) % 3]⟩ ⟨[0, 1, 2], []⟩)
      (canonicalise [(0, 0), (1, 1), (2, 2)]
        ⟨[0, 1, 2], [fun v => (v + 1) % 3]⟩ ⟨[0, 1, 2], []⟩) = false := by
  decide

/-- Claim C4 amended: canonicalisation is invariant under precomposition
with a range automorphism generator `g` whenever composing `g` onto the
generators-plus-identity list permutes the induced candidate partials
(in particular whenever the listed generators are closed under
composition with `g`), and both `m` and `g + m` satisfy the domain
compatibility precondition. -/
theorem claim_C4_amended (m g : Morphism) (rng img : CanonicalGraph)
    (hperm : ((fromAutomorphismGenerators rng).map (fun r => madd r (madd g m))).Perm
      ((fromAutomorphismGenerators rng).map (fun r => madd r m)))
    (hm : madd (madd (midentity rng) m) (midentity img) = m)
    (hgm : madd (madd (midentity rng) (madd g m)) (midentity img) = madd g m) :
    meqB (canonicalise (madd g m) rng img) (canonicalise m rng img) = true := by
  have hflat : ∀ (x : Morphism),
      canonCandidates x rng img =
        ((fromAutomorphismGenerators rng).map (fun r => madd r x)).flatMap
          (fun p => (fromAutomorphismGenerators img).map (fun i => madd p i)) := by
    intro x
    unfold canonCandidates
    induction fromAutomorphismGenerators rng with
    | nil => simp
    | cons r rs ih => simp only [List.flatMap_cons, List.map_cons, ih]
  have hcperm : (canonCandidates (madd g m) rng img).Perm (canonCandidates m rng img) := by
    rw [hflat (madd g m), hflat m]
    exact hperm.flatMap_right _
  have h1 : canonicalise (madd g m) rng img ∈ canonCandidates (madd g m) rng img := by
    rw [canonicalise_eq_foldMin]
    rcases foldMin_mem (canonCandidates (madd g m) rng img) (madd g m) with h | h
    · rw [h]; exact self_mem_canonCandidates _ rng img hgm
    · exact h
  have h2 : canonicalise m rng img ∈ canonCandidates m rng img := by
    rw [canonicalise_eq_foldMin]
    rcases foldMin_mem (canonCandidates m rng img) m with h | h
    · rw [h]; exact self_mem_canonCandidates _ rng img hm
    · exact h
  have h12 : mltB (canonicalise m rng img) (canonicalise (madd g m) rng img) = false := by
    rw [canonicalise_eq_foldMin (madd g m)]
    exact foldMin_not_lt _ _ _ (Or.inr (hcperm.symm.subset h2))
  have h21 : mltB (canonicalise (madd g m) rng img) (canonicalise m rng img) = false := by
    rw [canonicalise_eq_foldMin m]
    exact foldMin_not_lt _ _ _ (Or.inr (hcperm.subset h1))
  unfold mltB at h12 h21
  have heq := plLtB_connex h21 h12
  simp [meqB, heq]

/-- Claim C4 amended witness: the two-vertex graph whose only generator
is the swap, which is closed under composition with itself up to
permutation of the candidate list. -/
theorem claim_C4_amended_witness :
    meqB
      (canonicalise
        (madd (fromAutomorphism ⟨[0, 1], [fun v => 1 - v]⟩ (fun v => 1 - v)) [(0, 0), (1, 1)])
        ⟨[0, 1], [fun v => 1 - v]⟩ ⟨[0, 1], []⟩)
      (canonicalise [(0, 0), (1, 1)] ⟨[0, 1], [fun v => 1 - v]⟩ ⟨[0, 1], []⟩) = true :=
  claim_C4_amended [(0, 0), (1, 1)]
    (fromAutomorphism ⟨[0, 1], [fun v => 1 - v]⟩ (fun v => 1 - v))
    ⟨[0, 1], [fun v => 1 - v]⟩ ⟨[0, 1], []⟩ (by decide) (by decide) (by decide)

/-! ## The label compatibility recurrence and claim C7 -/

theorem isEmpty_mk_cons (c : Char) (cs : List Char) :
    (String.mk (c :: cs)).isEmpty = false := by
  simp only [String.isEmpty, String.endPos, String.utf8ByteSize, String.utf8ByteSize.go]
  have hpos := Char.utf8Size_pos c
  rw [beq_eq_false_iff_ne]
  intro hc
  have : String.utf8ByteSize.go cs + c.utf8Size = 0 := congrArg String.Pos.byteIdx hc
  omega

theorem truthy_some_of_data (s : String) (h : s.data ≠ []) :
    truthy (some s) = true := by
  cases s with
  | mk d =>
    cases d with
    | nil => exact absurd rfl h
    | cons c cs =>
      show (!(String.mk (c :: cs)).isEmpty) = true
      rw [isEmpty_mk_cons]
      rfl

theorem compareLabelsFuel_congr :
    ∀ (f g : Nat) (sup sub : Option String),
      strLenO sup + strLenO sub < f → strLenO sup + strLenO sub < g →
      compareLabelsFuel f sup sub = compareLabelsFuel g sup sub := by
  intro f
  induction f using Nat.strong_induction_on with
  | _ f ih =>
    intro g sup sub hf hg
    cases f with
    | zero => omega
    | succ f2 =>
      cases g with
      | zero => omega
      | succ g2 =>
        simp only [compareLabelsFuel]
        by_cases hcond : (truthy sub && truthy sup &&
            isCombined (sub.getD "") && isCombined (sup.getD "")) = true
        · rw [if_pos hcond, if_pos hcond]
          have hcond2 := hcond
          simp only [Bool.and_eq_true] at hcond2
          obtain ⟨⟨⟨hsub, hsup⟩, hcsub⟩, hcsup⟩ := hcond2
          have b1 := splitLabel_fst_lt (sup.getD "") hcsup
          have b2 := splitLabel_fst_lt (sub.getD "") hcsub
          have b3 := splitLabel_snd_lt (sup.getD "") hcsup
          have b4 := splitLabel_snd_lt (sub.getD "") hcsub
          rw [truthy_some_getD sup hsup] at b1 b3
          rw [truthy_some_getD sub hsub] at b2 b4
          have e1 := ih f2 (Nat.lt_succ_self f2) g2
            (splitLabel (sup.getD "")).1 (splitLabel (sub.getD "")).1
            (by omega) (by omega)
          have e2 := ih f2 (Nat.lt_succ_self f2) g2
            (splitLabel (sup.getD "")).2 (splitLabel (sub.getD "")).2
            (by omega) (by omega)
          rw [e1, e2]
        · rw [if_neg hcond, if_neg hcond]

/-- The model satisfies exactly the recurrence of the source's
`_compare_labels`. -/
theorem compareLabels_eq (sup sub : Option String) :
    compareLabels sup sub =
      (if truthy sub && truthy sup && isCombined (sub.getD "") && isCombined (sup.getD "") then
        compareLabels (splitLabel (sup.getD "")).1 (splitLabel (sub.getD "")).1 &&
          compareLabels (splitLabel (sup.getD "")).2 (splitLabel (sub.getD "")).2
      else if truthy sup = false then !truthy sub
      else if sub == some "*" then true
      else sub == sup) := by
  unfold compareLabels
  simp only [compareLabelsFuel]
  by_cases hcond : (truthy sub && truthy sup &&
      isCombined (sub.getD "") && isCombined (sup.getD "")) = true
  · rw [if_pos hcond, if_pos hcond]
    have hcond2 := hcond
    simp only [Bool.and_eq_true] at hcond2
    obtain ⟨⟨⟨hsub, hsup⟩, hcsub⟩, hcsup⟩ := hcond2
    have b1 := splitLabel_fst_lt (sup.getD "") hcsup
    have b2 := splitLabel_fst_lt (sub.getD "") hcsub
    have b3 := splitLabel_snd_lt (sup.getD "") hcsup
    have b4 := splitLabel_snd_lt (sub.getD "") hcsub
    rw [truthy_some_getD sup hsup] at b1 b3
    rw [truthy_some_getD sub hsub] at b2 b4
    have e1 := compareLabelsFuel_congr (strLenO sup + strLenO sub)
      (strLenO (splitLabel (sup.getD "")).1 + strLenO (splitLabel (sub.getD "")).1 + 1)
      (splitLabel (sup.getD "")).1 (splitLabel (sub.getD "")).1 (by omega) (by omega)
    have e2 := compareLabelsFuel_congr (strLenO sup + strLenO sub)
      (strLenO (splitLabel (sup.getD "")).2 + strLenO (splitLabel (sub.getD "")).2 + 1)
      (splitLabel (sup.getD "")).2 (splitLabel (sub.getD "")).2 (by omega) (by omega)
    rw [e1, e2]
    rfl
  · rw [if_neg hcond, if_neg hcond]

theorem splitChars_no_semi (l : List Char) (h : ';' ∉ l) :
    splitChars l = [l] := by
  induction l with
  | nil => rfl
  | cons c cs ih =>
    have hc : ¬ c = ';' := fun hc => h (hc ▸ List.mem_cons_self c cs)
    have hcs : ';' ∉ cs := fun hm => h (List.mem_cons_of_mem c hm)
    simp only [splitChars, hc, if_false, ih hcs]

theorem splitChars_append (l1 l2 : List Char) (h : ';' ∉ l1) :
    splitChars (l1 ++ ';' :: l2) = l1 :: splitChars l2 := by
  induction l1 with
  | nil => simp [splitChars]
  | cons c cs ih =>
    have hc : ¬ c = ';' := fun hc => h (hc ▸ List.mem_cons_self c cs)
    have hcs : ';' ∉ cs := fun hm => h (List.mem_cons_of_mem c hm)
    simp only [List.cons_append, splitChars, hc, if_false, List.append_eq, ih hcs]

theorem isCombined_true (s : String) (h : ';' ∈ s.data) : isCombined s = true := by
  cases hi : isCombined s
  · exact absurd h (by simpa [isCombined, List.contains] using hi)
  · rfl

theorem isCombined_false (s : String) (h : ';' ∉ s.data) : isCombined s = false := by
  cases hi : isCombined s
  · rfl
  · exact absurd (by simpa [isCombined, List.contains] using hi) h

theorem mk_data (s : String) : String.mk s.data = s := rfl

theorem optPart_of_ne (l : List Char) (h : l ≠ []) :
    optPart l = some (String.mk l) := by
  unfold optPart
  rw [if_neg]
  simp only [List.isEmpty_iff]
  exact h

theorem splitLabel_sup (X : String) (hXs : ';' ∉ X.data) (hX : X.data ≠ []) :
    splitLabel (X ++ ";") = (some X, none) := by
  have hd1 : (X ++ ";").data = X.data ++ ';' :: [] := by simp
  unfold splitLabel
  rw [hd1, splitChars_append X.data [] hXs]
  show (optPart X.data, optPart []) = (some X, none)
  rw [optPart_of_ne X.data hX, mk_data]
  rfl

theorem splitLabel_sub (X Y : String) (hXs : ';' ∉ X.data) (hYs : ';' ∉ Y.data)
    (hX : X.data ≠ []) :
    splitLabel (X ++ ";" ++ Y) = (some X, optPart Y.data) := by
  have hd2 : (X ++ ";" ++ Y).data = X.data ++ ';' :: Y.data := by simp
  unfold splitLabel
  rw [hd2, splitChars_append X.data Y.data hXs, splitChars_no_semi Y.data hYs]
  show (optPart X.data, optPart Y.data) = (some X, optPart Y.data)
  rw [optPart_of_ne X.data hX, mk_data]

theorem compareLabels_refl_flat (X : String) (hXs : ';' ∉ X.data)
    (hX : X.data ≠ []) : compareLabels (some X) (some X) = true := by
  rw [compareLabels_eq]
  have ht := truthy_some_of_data X hX
  have hc : isCombined X = false := isCombined_false X hXs
  rw [if_neg (by simp [ht, hc])]
  rw [if_neg (by simp [ht])]
  by_cases hx : X = "*"
  · rw [if_pos (by simp [hx])]
  · rw [if_neg (by simp [hx])]
    simp

theorem compareLabels_none_some (Y : String) :
    compareLabels none (some Y) = decide (Y.data = []) := by
  rw [compareLabels_eq]
  rw [if_neg (by simp [truthy])]
  rw [if_pos (by simp [truthy])]
  cases hY : Y.data with
  | nil =>
    have : Y = "" := by cases Y with | mk d => simp at hY; rw [hY]
    rw [this]
    rfl
  | cons c cs =>
    have : truthy (some Y) = true :=
      truthy_some_of_data Y (by rw [hY]; exact List.cons_ne_nil c cs)
    rw [this]
    simp [hY]

theorem compareLabels_none_none : compareLabels none none = true := by rfl

/-- Claim C7 counterexample: the super-pattern half label `"X;"` is NOT
compatible with the sub-pattern label `"X;*"`: the right-half comparison
reaches the empty-super check (`if not supergraph_label: return not
subgraph_label`) before the wildcard check, so the wildcard `"*"` does
not match an empty super half — the claim asserts this pair succeeds. -/
theorem claim_C7_counterexample :
    compareLabels (some "X;") (some "X;*") = false := by decide

/-- Claim C7 amended: comparing the super-pattern combined label `"X;"`
(empty right half) against the sub-pattern combined label `"X;Y"`
succeeds on the left half and succeeds overall exactly when the
sub-pattern's right half `Y` is itself empty: a wildcard `"*"` right half
fails like any other non-empty `Y`, because the empty-super check
precedes the wildcard check. -/
theorem claim_C7_amended (X Y : String) (hX : X.data ≠ [])
    (hXs : ';' ∉ X.data) (hYs : ';' ∉ Y.data) :
    compareLabels (some (X ++ ";")) (some (X ++ ";" ++ Y)) = decide (Y.data = []) ∧
    compareLabels (some X) (some X) = true ∧
    compareLabels none (some Y) = decide (Y.data = []) := by
  refine ⟨?_, compareLabels_refl_flat X hXs hX, compareLabels_none_some Y⟩
  rw [compareLabels_eq]
  have hdsup : (X ++ ";").data ≠ [] := by simp
  have hdsub : (X ++ ";" ++ Y).data ≠ [] := by simp
  have htsup := truthy_some_of_data (X ++ ";") hdsup
  have htsub := truthy_some_of_data (X ++ ";" ++ Y) hdsub
  have hcsup : isCombined (X ++ ";") = true :=
    isCombined_true _ (by simp)
  have hcsub : isCombined (X ++ ";" ++ Y) = true :=
    isCombined_true _ (by simp)
  rw [if_pos (by simp [htsup, htsub, hcsup, hcsub])]
  simp only [Option.getD_some]
  rw [splitLabel_sup X hXs hX, splitLabel_sub X Y hXs hYs hX]
  show (compareLabels (some X) (some X) && compareLabels none (optPart Y.data)) =
    decide (Y.data = [])
  rw [compareLabels_refl_flat X hXs hX, Bool.true_and]
  cases hY : Y.data with
  | nil =>
    have hop : optPart [] = none := rfl
    rw [hop, compareLabels_none_none]
    simp
  | cons c cs =>
    rw [optPart_of_ne (c :: cs) (List.cons_ne_nil c cs)]
    rw [compareLabels_none_some]

/-- Claim C7 amended witness: at `X := "X"`, `Y := "Y"` the comparison
fails, and the sub-claims hold. -/
theorem claim_C7_amended_witness :
    compareLabels (some ("X" ++ ";")) (some ("X" ++ ";" ++ "Y")) = decide (("Y" : String).data = []) ∧
    compareLabels (some "X") (some "X") = true ∧
    compareLabels none (some "Y") = decide (("Y" : String).data = []) :=
  claim_C7_amended "X" "Y" (by decide) (by decide) (by decide)

/-! ## Lattice node properties -/

theorem mem_insertLe {α : Type} (le : α → α → Bool) (a x : α) (l : List α) :
    x ∈ insertLe le a l ↔ x = a ∨ x ∈ l := by
  induction l with
  | nil => simp [insertLe]
  | cons b bs ih =>
    unfold insertLe
    by_cases h : le a b = true
    · simp [h]
    · rw [if_neg h]
      simp only [List.mem_cons, ih]
      tauto

theorem mem_sortWith {α : Type} (le : α → α → Bool) (x : α) (l : List α) :
    x ∈ sortWith le l ↔ x ∈ l := by
  induction l with
  | nil => simp [sortWith]
  | cons b bs ih =>
    unfold sortWith at ih ⊢
    simp only [List.foldr_cons, mem_insertLe, ih, List.mem_cons]

theorem mem_coverage {E T : Type} [DecidableEq T] (host : E → T)
    (tle : T → T → Bool) (n : List E) (t : T) :
    t ∈ coverage host tle n ↔ t ∈ n.map host := by
  unfold coverage
  rw [mem_sortWith, List.mem_dedup]

/-- Claim C1: the node returned by `get_maximum_common_subrule` has
exactly the same coverage as the starting node, for any fuel: the
recursion only ever descends into successors whose coverage equals the
current node's coverage and otherwise returns the current node. -/
theorem claim_C1_gmcs_preserves_coverage {E P T : Type} [DecidableEq E]
    [DecidableEq P] [DecidableEq T] (pat : E → P) (host : E → T)
    (ext : E → List E) (tle : T → T → Bool) (fuel : Nat) (n : List E) :
    coverage host tle (getMaximumCommonSubrule pat host ext tle fuel n) =
      coverage host tle n := by
  induction fuel generalizing n with
  | zero => rfl
  | succ f ih =>
    unfold getMaximumCommonSubrule
    cases hf : (successors pat ext n).find?
        (fun c => decide (coverage host tle c = coverage host tle n)) with
    | none => rfl
    | some c =>
      have hc := List.find?_some hf
      simp only [decide_eq_true_eq] at hc
      rw [ih c, hc]

/-- Claim C8: a node returned by a completed `get_maximum_common_subrule`
run (one that stopped because no successor preserves coverage, rather
than by fuel exhaustion — which is what every terminating Python run
does) is a fixed point: running the computation on it again, with any
fuel, returns it unchanged. -/
theorem claim_C8_gmcs_idempotent {E P T : Type} [DecidableEq E]
    [DecidableEq P] [DecidableEq T] (pat : E → P) (host : E → T)
    (ext : E → List E) (tle : T → T → Bool) (fuel fuel2 : Nat) (n : List E)
    (hstable : (successors pat ext (getMaximumCommonSubrule pat host ext tle fuel n)).find?
      (fun c => decide (coverage host tle c =
        coverage host tle (getMaximumCommonSubrule pat host ext tle fuel n))) = none) :
    getMaximumCommonSubrule pat host ext tle fuel2
        (getMaximumCommonSubrule pat host ext tle fuel n) =
      getMaximumCommonSubrule pat host ext tle fuel n := by
  set M := getMaximumCommonSubrule pat host ext tle fuel n with hM
  cases fuel2 with
  | zero => rfl
  | succ f =>
    show getMaximumCommonSubrule pat host ext tle (f + 1) M = M
    conv_lhs => unfold getMaximumCommonSubrule
    rw [hstable]

/-- Claim C8 witness: a one-embedding node with no extensions is already
stable, and re-running the computation on the result returns it. -/
theorem claim_C8_witness :
    getMaximumCommonSubrule (fun e : Nat => e) (fun e => e) (fun _ => []) Nat.ble 2
        (getMaximumCommonSubrule (fun e : Nat => e) (fun e => e) (fun _ => []) Nat.ble 3 [0]) =
      getMaximumCommonSubrule (fun e : Nat => e) (fun e => e) (fun _ => []) Nat.ble 3 [0] :=
  claim_C8_gmcs_idempotent (fun e : Nat => e) (fun e => e) (fun _ => []) Nat.ble 3 2 [0]
    (by decide)

theorem npattern_none_of_two {E P : Type} [DecidableEq E] [DecidableEq P]
    (pat : E → P) (n : List E) (h : 2 ≤ ((n.map pat).dedup).length) :
    npattern pat n = none := by
  unfold npattern
  cases hd : (n.map pat).dedup with
  | nil => rfl
  | cons a tail =>
    cases tail with
    | nil => rw [hd] at h; simp at h
    | cons b tail2 => rfl

/-- Claim C10: two lattice nodes whose embedding lists each contain at
least two distinct patterns (so both nodes have an undefined pattern)
compare equal and hash equal, however different their embeddings are;
and in general node equality and the node hash depend only on the
(possibly undefined) pattern. -/
theorem claim_C10_nodeEq_pattern_only {E P : Type} [DecidableEq E]
    [DecidableEq P] (pat : E → P) (hashp : Option P → Int) (n1 n2 : List E)
    (h1 : 2 ≤ ((n1.map pat).dedup).length)
    (h2 : 2 ≤ ((n2.map pat).dedup).length) :
    nodeEq pat n1 n2 = true ∧ nodeHash pat hashp n1 = nodeHash pat hashp n2 ∧
    (∀ m1 m2 : List E, npattern pat m1 = npattern pat m2 →
      nodeEq pat m1 m2 = true ∧ nodeHash pat hashp m1 = nodeHash pat hashp m2) := by
  have e1 := npattern_none_of_two pat n1 h1
  have e2 := npattern_none_of_two pat n2 h2
  refine ⟨?_, ?_, ?_⟩
  · simp [nodeEq, e1, e2]
  · simp [nodeHash, e1, e2]
  · intro m1 m2 hm
    exact ⟨by simp [nodeEq, hm], by simp [nodeHash, hm]⟩

/-- Claim C10 witness: two mixed nodes over different embeddings with
different pattern pairs compare equal with equal hashes. -/
theorem claim_C10_witness :
    nodeEq (fun e : Nat => e) [1, 2] [3, 4, 5] = true ∧
    nodeHash (fun e : Nat => e) (fun p => match p with | none => 0 | some q => q) [1, 2] =
      nodeHash (fun e : Nat => e) (fun p => match p with | none => 0 | some q => q) [3, 4, 5] ∧
    (∀ m1 m2 : List Nat, npattern (fun e : Nat => e) m1 = npattern (fun e : Nat => e) m2 →
      nodeEq (fun e : Nat => e) m1 m2 = true ∧
      nodeHash (fun e : Nat => e) (fun p => match p with | none => 0 | some q => q) m1 =
        nodeHash (fun e : Nat => e) (fun p => match p with | none => 0 | some q => q) m2) :=
  claim_C10_nodeEq_pattern_only (fun e : Nat => e)
    (fun p => match p with | none => 0 | some q => q) [1, 2] [3, 4, 5]
    (by decide) (by decide)

/-! ## Embedding extension properties -/

theorem host_of_mem_buildEmbeddings {P T : Type} [DecidableEq P]
    [DecidableEq T] (isos : P → P → List Morphism) (e : Emb P T)
    (gen : List (P × Morphism)) :
    ∀ e2 ∈ buildEmbeddings isos e gen, e2.host = e.host := by
  intro e2 he2
  unfold buildEmbeddings at he2
  rcases List.mem_flatMap.1 he2 with ⟨pr, _, hmem⟩
  rcases List.mem_map.1 hmem with ⟨phi, _, heq⟩
  rw [← heq]

/-- Claim C9: every embedding yielded by `extensions()` keeps the host
transition of the embedding it extends (for any extension generator and
isomorphism oracle), and consequently a node assembled from extensions
of a node's embeddings covers no host transition the original node did
not cover. -/
theorem claim_C9_extensions_preserve_host {P T : Type} [DecidableEq P]
    [DecidableEq T] (isos : P → P → List Morphism)
    (extGen : Emb P T → List (P × Morphism)) (tle : T → T → Bool)
    (e : Emb P T) :
    (∀ e2 ∈ extensions isos extGen e, e2.host = e.host) ∧
    (∀ n c : List (Emb P T),
      (∀ e2 ∈ c, ∃ e1 ∈ n, e2 ∈ extensions isos extGen e1) →
      ∀ t ∈ coverage (fun x : Emb P T => x.host) tle c,
        t ∈ coverage (fun x : Emb P T => x.host) tle n) := by
  constructor
  · intro e2 he2
    exact host_of_mem_buildEmbeddings isos e (extGen e) e2 he2
  · intro n c hsub t ht
    rw [mem_coverage] at ht ⊢
    rcases List.mem_map.1 ht with ⟨e2, he2, hhost⟩
    rcases hsub e2 he2 with ⟨e1, he1, hext⟩
    have := host_of_mem_buildEmbeddings isos e1 (extGen e1) e2 hext
    exact List.mem_map.2 ⟨e1, he1, by rw [← hhost, this]⟩

/-- Claim C9 witness: a concrete extension table produces an embedding
with the original host, and the node-level coverage containment holds on
those nodes. -/
theorem claim_C9_witness :
    ((Emb.mk 5 7 [(0, 0)] : Emb Nat Nat) ∈
      extensions (fun _ _ => []) (fun _ => [(5, [(0, 0)])]) (Emb.mk 9 7 [(0, 1)])) ∧
    (Emb.mk 5 7 [(0, 0)] : Emb Nat Nat).host = (Emb.mk 9 7 [(0, 1)] : Emb Nat Nat).host :=
  ⟨by decide,
    (claim_C9_extensions_preserve_host (fun _ _ => []) (fun _ => [(5, [(0, 0)])])
      Nat.ble (Emb.mk 9 7 [(0, 1)])).1 (Emb.mk 5 7 [(0, 0)]) (by decide)⟩

/-! ## The extension-deduplication orbit (claim C6) -/

section EmbeddingLemmas

variable {P T : Type} [DecidableEq P] [DecidableEq T]

theorem meqB_refl (phi : Morphism) : meqB phi phi = true := by simp [meqB]

theorem insertMorphismMeq_keep (ms : List Morphism) (phi psi : Morphism)
    (h : psi ∈ ms) : psi ∈ insertMorphismMeq ms phi := by
  unfold insertMorphismMeq
  split
  · exact h
  · exact List.mem_append_left _ h

theorem mem_insertMorphismMeq (ms : List Morphism) (phi psi : Morphism)
    (h : psi ∈ insertMorphismMeq ms phi) : psi ∈ ms ∨ psi = phi := by
  unfold insertMorphismMeq at h
  split at h
  · exact Or.inl h
  · rcases List.mem_append.1 h with h1 | h1
    · exact Or.inl h1
    · exact Or.inr (List.mem_singleton.1 h1)

theorem insertMorphismMeq_meq_exists (ms : List Morphism) (phi : Morphism) :
    ∃ psi ∈ insertMorphismMeq ms phi, meqB psi phi = true := by
  unfold insertMorphismMeq
  by_cases hany : ms.any (fun psi => meqB psi phi) = true
  · rw [if_pos hany]
    rcases List.any_eq_true.1 hany with ⟨psi, hmem, hme⟩
    exact ⟨psi, hmem, hme⟩
  · rw [if_neg hany]
    exact ⟨phi, List.mem_append_right _ (List.mem_singleton.2 rfl), meqB_refl phi⟩

theorem orbitFold_props (f : Morphism → Morphism) :
    ∀ (l : List Morphism) (ms : List Morphism),
      (∀ psi ∈ ms, psi ∈ l.foldl (fun s i => insertMorphismMeq s (f i)) ms) ∧
      (∀ psi ∈ l.foldl (fun s i => insertMorphismMeq s (f i)) ms,
        psi ∈ ms ∨ ∃ i ∈ l, psi = f i) ∧
      (∀ i ∈ l, ∃ psi ∈ l.foldl (fun s i => insertMorphismMeq s (f i)) ms,
        meqB psi (f i) = true) := by
  intro l
  induction l with
  | nil =>
    intro ms
    refine ⟨fun psi h => h, fun psi h => Or.inl h, ?_⟩
    intro i hi
    simp at hi
  | cons i0 rest ih =>
    intro ms
    simp only [List.foldl_cons]
    obtain ⟨ihk, ihs, ihc⟩ := ih (insertMorphismMeq ms (f i0))
    refine ⟨?_, ?_, ?_⟩
    · intro psi h
      exact ihk psi (insertMorphismMeq_keep ms (f i0) psi h)
    · intro psi h
      rcases ihs psi h with h1 | ⟨i, hi, hie⟩
      · rcases mem_insertMorphismMeq ms (f i0) psi h1 with h2 | h2
        · exact Or.inl h2
        · exact Or.inr ⟨i0, List.mem_cons_self _ _, h2⟩
      · exact Or.inr ⟨i, List.mem_cons_of_mem _ hi, hie⟩
    · intro i hi
      rcases List.mem_cons.1 hi with h1 | h1
      · rcases insertMorphismMeq_meq_exists ms (f i0) with ⟨psi, hpsi, hme⟩
        exact ⟨psi, ihk psi hpsi, by rw [h1]; exact hme⟩
      · exact ihc i h1

theorem lookupGroup_insertExtension (isos : P → P → List Morphism)
    (gs : List (P × List Morphism)) (q : P) (phi : Morphism) (p : P) :
    lookupGroup (insertExtension isos gs q phi) p =
      if q = p then
        match lookupGroup gs p with
        | none => some [phi]
        | some ms => some ((isos q q).foldl (fun s i => insertMorphismMeq s (madd i phi)) ms)
      else lookupGroup gs p := by
  induction gs with
  | nil =>
    by_cases hqp : q = p
    · simp [insertExtension, lookupGroup, hqp]
    · simp [insertExtension, lookupGroup, hqp]
  | cons g rest ih =>
    obtain ⟨orig, ms⟩ := g
    unfold insertExtension
    by_cases hqo : q = orig
    · rw [if_pos hqo]
      by_cases hqp : q = p
      · have hop : orig = p := hqo ▸ hqp
        rw [if_pos hqp]
        simp only [lookupGroup, List.find?_cons, decide_eq_true hop, Option.map_some']
        rw [← hqo]
      · have hop : ¬ orig = p := fun hc => hqp (hqo ▸ hc)
        rw [if_neg hqp]
        simp only [lookupGroup, List.find?_cons, decide_eq_false hop]
    · rw [if_neg hqo]
      by_cases hop : orig = p
      · have hqp : ¬ q = p := fun hc => hqo (hc.trans hop.symm)
        rw [if_neg hqp]
        simp only [lookupGroup, List.find?_cons, decide_eq_true hop, Option.map_some']
      · simp only [lookupGroup, List.find?_cons, decide_eq_false hop]
        exact ih

theorem lookupGroup_fold_not_mem (isos : P → P → List Morphism)
    (items : List (P × Morphism)) :
    ∀ (gs : List (P × List Morphism)) (p : P),
      (∀ pm ∈ items, pm.1 ≠ p) →
      lookupGroup (items.foldl (fun acc pm => insertExtension isos acc pm.1 pm.2) gs) p =
        lookupGroup gs p := by
  induction items with
  | nil => intro gs p _; rfl
  | cons pm rest ih =>
    intro gs p h
    simp only [List.foldl_cons]
    rw [ih _ p (fun x hx => h x (List.mem_cons_of_mem _ hx))]
    rw [lookupGroup_insertExtension]
    rw [if_neg (h pm (List.mem_cons_self _ _))]

theorem orbitTargets_cons_eq (isos : P → P → List Morphism) (p : P)
    (pm : P × Morphism) (rest : List (P × Morphism)) (h : pm.1 = p) :
    orbitTargets isos p (pm :: rest) =
      (isos p p).map (fun i => madd i pm.2) ++ orbitTargets isos p rest := by
  unfold orbitTargets
  rw [List.filter_cons_of_pos (by simp [h]), List.flatMap_cons]

theorem orbitTargets_cons_ne (isos : P → P → List Morphism) (p : P)
    (pm : P × Morphism) (rest : List (P × Morphism)) (h : ¬ pm.1 = p) :
    orbitTargets isos p (pm :: rest) = orbitTargets isos p rest := by
  unfold orbitTargets
  rw [List.filter_cons_of_neg (by simp [h])]

theorem lookupGroup_fold_post (isos : P → P → List Morphism) :
    ∀ (post : List (P × Morphism)) (gs : List (P × List Morphism)) (p : P)
      (ms : List Morphism), lookupGroup gs p = some ms →
      ∃ ms2, lookupGroup (post.foldl
          (fun acc pm => insertExtension isos acc pm.1 pm.2) gs) p = some ms2 ∧
        (∀ psi ∈ ms, psi ∈ ms2) ∧
        (∀ psi ∈ ms2, psi ∈ ms ∨ psi ∈ orbitTargets isos p post) ∧
        (∀ t ∈ orbitTargets isos p post, ∃ psi ∈ ms2, meqB psi t = true) := by
  intro post
  induction post with
  | nil =>
    intro gs p ms h
    refine ⟨ms, h, fun psi hp => hp, fun psi hp => Or.inl hp, ?_⟩
    intro t ht
    simp [orbitTargets] at ht
  | cons pm rest ih =>
    intro gs p ms h
    simp only [List.foldl_cons]
    by_cases hpm : pm.1 = p
    · have hlk : lookupGroup (insertExtension isos gs pm.1 pm.2) p =
          some ((isos p p).foldl (fun s i => insertMorphismMeq s (madd i pm.2)) ms) := by
        rw [lookupGroup_insertExtension, if_pos hpm, h, hpm]
      obtain ⟨fk, fs, fc⟩ := orbitFold_props (fun i => madd i pm.2) (isos p p) ms
      obtain ⟨ms2, hms2, k2, s2, c2⟩ := ih _ p _ hlk
      refine ⟨ms2, hms2, ?_, ?_, ?_⟩
      · intro psi hp
        exact k2 psi (fk psi hp)
      · intro psi hp
        rcases s2 psi hp with h1 | h1
        · rcases fs psi h1 with h2 | ⟨i, hi, hie⟩
          · exact Or.inl h2
          · refine Or.inr ?_
            rw [orbitTargets_cons_eq isos p pm rest hpm]
            exact List.mem_append_left _ (List.mem_map.2 ⟨i, hi, hie.symm⟩)
        · refine Or.inr ?_
          rw [orbitTargets_cons_eq isos p pm rest hpm]
          exact List.mem_append_right _ h1
      · intro t ht
        rw [orbitTargets_cons_eq isos p pm rest hpm] at ht
        rcases List.mem_append.1 ht with h1 | h1
        · rcases List.mem_map.1 h1 with ⟨i, hi, hie⟩
          rcases fc i hi with ⟨psi, hpsi, hme⟩
          exact ⟨psi, k2 psi hpsi, by rw [← hie]; exact hme⟩
        · exact c2 t h1
    · have hlk : lookupGroup (insertExtension isos gs pm.1 pm.2) p = some ms := by
        rw [lookupGroup_insertExtension, if_neg hpm, h]
      obtain ⟨ms2, hms2, k2, s2, c2⟩ := ih _ p _ hlk
      refine ⟨ms2, hms2, k2, ?_, ?_⟩
      · intro psi hp
        rcases s2 psi hp with h1 | h1
        · exact Or.inl h1
        · rw [orbitTargets_cons_ne isos p pm rest hpm]
          exact Or.inr h1
      · intro t ht
        rw [orbitTargets_cons_ne isos p pm rest hpm] at ht
        exact c2 t ht

theorem keys_insertExtension_subset (isos : P → P → List Morphism)
    (q : P) (phi : Morphism) :
    ∀ (gs : List (P × List Morphism)),
      ((insertExtension isos gs q phi).map Prod.fst) ⊆ gs.map Prod.fst ++ [q] := by
  intro gs
  induction gs with
  | nil => simp [insertExtension]
  | cons g rest ih =>
    obtain ⟨orig, ms⟩ := g
    unfold insertExtension
    by_cases hqo : q = orig
    · rw [if_pos hqo]
      simp only [List.map_cons]
      intro x hx
      exact List.mem_append_left _ hx
    · rw [if_neg hqo]
      simp only [List.map_cons]
      intro x hx
      rcases List.mem_cons.1 hx with h1 | h1
      · exact List.mem_append_left _ (by simp [h1])
      · rcases List.mem_append.1 (ih h1) with h2 | h2
        · exact List.mem_append_left _ (List.mem_cons_of_mem _ h2)
        · exact List.mem_append_right _ h2

theorem keys_insertExtension_nodup (isos : P → P → List Morphism)
    (q : P) (phi : Morphism) :
    ∀ (gs : List (P × List Morphism)),
      ((gs.map Prod.fst).Nodup) →
      ((insertExtension isos gs q phi).map Prod.fst).Nodup := by
  intro gs
  induction gs with
  | nil =>
    intro _
    simp [insertExtension]
  | cons g rest ih =>
    obtain ⟨orig, ms⟩ := g
    intro hnd
    simp only [List.map_cons, List.nodup_cons] at hnd
    unfold insertExtension
    by_cases hqo : q = orig
    · rw [if_pos hqo]
      simp only [List.map_cons, List.nodup_cons]
      exact hnd
    · rw [if_neg hqo]
      simp only [List.map_cons, List.nodup_cons]
      refine ⟨?_, ih hnd.2⟩
      intro hc
      have := keys_insertExtension_subset isos q phi rest hc
      rcases List.mem_append.1 this with h1 | h1
      · exact hnd.1 h1
      · exact hqo (List.mem_singleton.1 h1).symm

theorem keys_foldGroups_nodup (isos : P → P → List Morphism) :
    ∀ (gen : List (P × Morphism)) (gs : List (P × List Morphism)),
      (gs.map Prod.fst).Nodup →
      (((gen.foldl (fun acc pm => insertExtension isos acc pm.1 pm.2) gs)).map Prod.fst).Nodup := by
  intro gen
  induction gen with
  | nil => intro gs h; exact h
  | cons pm rest ih =>
    intro gs h
    simp only [List.foldl_cons]
    exact ih _ (keys_insertExtension_nodup isos pm.1 pm.2 gs h)

theorem lookupGroup_of_mem_nodup (gs : List (P × List Morphism)) (p : P)
    (ms : List Morphism) (hnd : (gs.map Prod.fst).Nodup) (hmem : (p, ms) ∈ gs) :
    lookupGroup gs p = some ms := by
  induction gs with
  | nil => simp at hmem
  | cons g rest ih =>
    simp only [List.map_cons, List.nodup_cons] at hnd
    rcases List.mem_cons.1 hmem with h1 | h1
    · rw [← h1]
      simp [lookupGroup, List.find?_cons]
    · have hgp : ¬ g.1 = p := by
        intro hc
        exact hnd.1 (hc ▸ List.mem_map.2 ⟨(p, ms), h1, rfl⟩)
      simp only [lookupGroup, List.find?_cons, decide_eq_false hgp]
      have := ih hnd.2 h1
      simpa [lookupGroup] using this

/-- Claim C6: in `_build_embeddings`, write the generated (pattern,
morphism) pairs as `pre ++ (p, phi0) :: post` with `(p, phi0)` the first
pair producing pattern `p`.  Then (i) for every later pair `(p, phi)` and
every isomorphism `iota` between the repeated pattern and the stored one,
the output contains an embedding with pattern `p`, the original host, and
a morphism equal (by fingerprint, as in the Python morphism set) to
`iota + phi`; (ii) the first morphism `phi0` is itself in the output; and
(iii) nothing else is: every output embedding with pattern `p` carries
either `phi0` or one of the composed morphisms — the full orbit, not one
representative per extension step. -/
theorem claim_C6_build_embeddings_orbit {P T : Type} [DecidableEq P]
    [DecidableEq T] (isos : P → P → List Morphism) (e : Emb P T)
    (pre post : List (P × Morphism)) (p : P) (phi0 : Morphism)
    (hpre : p ∉ pre.map Prod.fst) (phi iota : Morphism)
    (hphi : (p, phi) ∈ post) (hiota : iota ∈ isos p p) :
    (∃ e2 ∈ buildEmbeddings isos e (pre ++ (p, phi0) :: post),
      e2.pattern = p ∧ e2.host = e.host ∧ meqB e2.morphism (madd iota phi) = true) ∧
    (∃ e2 ∈ buildEmbeddings isos e (pre ++ (p, phi0) :: post),
      e2.pattern = p ∧ e2.host = e.host ∧ e2.morphism = phi0) ∧
    (∀ e2 ∈ buildEmbeddings isos e (pre ++ (p, phi0) :: post), e2.pattern = p →
      e2.morphism = phi0 ∨ e2.morphism ∈ orbitTargets isos p post) := by
  have hdecomp : (pre ++ (p, phi0) :: post).foldl
      (fun acc pm => insertExtension isos acc pm.1 pm.2) [] =
      post.foldl (fun acc pm => insertExtension isos acc pm.1 pm.2)
        (insertExtension isos
          (pre.foldl (fun acc pm => insertExtension isos acc pm.1 pm.2) []) p phi0) := by
    rw [List.foldl_append, List.foldl_cons]
  have hg1 : lookupGroup (pre.foldl
      (fun acc pm => insertExtension isos acc pm.1 pm.2) []) p = none := by
    rw [lookupGroup_fold_not_mem isos pre [] p]
    · rfl
    · intro pm hpm hc
      exact hpre (hc ▸ List.mem_map.2 ⟨pm, hpm, rfl⟩)
  have hg2 : lookupGroup (insertExtension isos
      (pre.foldl (fun acc pm => insertExtension isos acc pm.1 pm.2) []) p phi0) p =
      some [phi0] := by
    rw [lookupGroup_insertExtension, if_pos rfl, hg1]
  obtain ⟨ms2, hms2, keep2, sound2, comp2⟩ :=
    lookupGroup_fold_post isos post _ p [phi0] hg2
  have hms2' : lookupGroup ((pre ++ (p, phi0) :: post).foldl
      (fun acc pm => insertExtension isos acc pm.1 pm.2) []) p = some ms2 := by
    rw [hdecomp]; exact hms2
  have hnodup := keys_foldGroups_nodup isos (pre ++ (p, phi0) :: post) []
    (by exact List.nodup_nil)
  -- the entry found by the lookup
  have hentry : ∃ g0 ∈ (pre ++ (p, phi0) :: post).foldl
      (fun acc pm => insertExtension isos acc pm.1 pm.2) [], g0.1 = p ∧ g0.2 = ms2 := by
    unfold lookupGroup at hms2'
    cases hf : ((pre ++ (p, phi0) :: post).foldl
        (fun acc pm => insertExtension isos acc pm.1 pm.2) []).find?
        (fun g => decide (g.1 = p)) with
    | none => rw [hf] at hms2'; simp at hms2'
    | some g0 =>
      rw [hf] at hms2'
      simp only [Option.map_some', Option.some.injEq] at hms2'
      have hp := List.find?_some hf
      simp only [decide_eq_true_eq] at hp
      exact ⟨g0, List.mem_of_find?_eq_some hf, hp, hms2'⟩
  obtain ⟨g0, hg0mem, hg0p, hg0ms⟩ := hentry
  have hout : ∀ psi ∈ ms2, Emb.mk p e.host psi ∈
      buildEmbeddings isos e (pre ++ (p, phi0) :: post) := by
    intro psi hpsi
    unfold buildEmbeddings
    refine List.mem_flatMap.2 ⟨g0, hg0mem, ?_⟩
    refine List.mem_map.2 ⟨psi, by rw [hg0ms]; exact hpsi, by rw [hg0p]⟩
  refine ⟨?_, ?_, ?_⟩
  · have ht : madd iota phi ∈ orbitTargets isos p post := by
      unfold orbitTargets
      refine List.mem_flatMap.2 ⟨(p, phi), List.mem_filter.2 ⟨hphi, by simp⟩, ?_⟩
      exact List.mem_map.2 ⟨iota, hiota, rfl⟩
    rcases comp2 (madd iota phi) ht with ⟨psi, hpsi, hme⟩
    exact ⟨Emb.mk p e.host psi, hout psi hpsi, rfl, rfl, hme⟩
  · have h0 : phi0 ∈ ms2 := keep2 phi0 (List.mem_singleton.2 rfl)
    exact ⟨Emb.mk p e.host phi0, hout phi0 h0, rfl, rfl, rfl⟩
  · intro e2 he2 hpat
    unfold buildEmbeddings at he2
    rcases List.mem_flatMap.1 he2 with ⟨g1, hg1mem, hg1out⟩
    rcases List.mem_map.1 hg1out with ⟨psi, hpsimem, hemk⟩
    have hg1p : g1.1 = p := by rw [← hpat, ← hemk]
    have hlk1 : lookupGroup ((pre ++ (p, phi0) :: post).foldl
        (fun acc pm => insertExtension isos acc pm.1 pm.2) []) p = some g1.2 := by
      refine lookupGroup_of_mem_nodup _ p g1.2 hnodup ?_
      have heta : (p, g1.2) = g1 := by rw [← hg1p]
      rw [heta]
      exact hg1mem
    have hmseq : g1.2 = ms2 := by
      rw [hlk1] at hms2'
      exact Option.some.inj hms2'
    have hpsims2 : psi ∈ ms2 := hmseq ▸ hpsimem
    have hmor : e2.morphism = psi := by rw [← hemk]
    rcases sound2 psi hpsims2 with h1 | h1
    · exact Or.inl (by rw [hmor]; exact List.mem_singleton.1 h1)
    · exact Or.inr (by rw [hmor]; exact h1)

/-- Claim C6 witness: a concrete generator list with one repeated
pattern; the composed morphism for the swap isomorphism is produced, the
first morphism is kept, and the orbit is exhaustive. -/
theorem claim_C6_witness :
    (∃ e2 ∈ buildEmbeddings (P := Nat) (T := Nat)
        (fun _ _ => [[(0, 0), (1, 1)], [(0, 1), (1, 0)]]) (Emb.mk 0 50 [])
        ([(8, [(0, 5)])] ++ (7, [(0, 2), (1, 3)]) :: [(9, []), (7, [(0, 4), (1, 5)])]),
      e2.pattern = 7 ∧ e2.host = 50 ∧
        meqB e2.morphism (madd [(0, 1), (1, 0)] [(0, 4), (1, 5)]) = true) ∧
    (∃ e2 ∈ buildEmbeddings (P := Nat) (T := Nat)
        (fun _ _ => [[(0, 0), (1, 1)], [(0, 1), (1, 0)]]) (Emb.mk 0 50 [])
        ([(8, [(0, 5)])] ++ (7, [(0, 2), (1, 3)]) :: [(9, []), (7, [(0, 4), (1, 5)])]),
      e2.pattern = 7 ∧ e2.host = 50 ∧ e2.morphism = [(0, 2), (1, 3)]) ∧
    (∀ e2 ∈ buildEmbeddings (P := Nat) (T := Nat)
        (fun _ _ => [[(0, 0), (1, 1)], [(0, 1), (1, 0)]]) (Emb.mk 0 50 [])
        ([(8, [(0, 5)])] ++ (7, [(0, 2), (1, 3)]) :: [(9, []), (7, [(0, 4), (1, 5)])]),
      e2.pattern = 7 →
        e2.morphism = [(0, 2), (1, 3)] ∨
          e2.morphism ∈ orbitTargets (fun _ _ => [[(0, 0), (1, 1)], [(0, 1), (1, 0)]]) 7
            [(9, []), (7, [(0, 4), (1, 5)])]) := by
  have h := claim_C6_build_embeddings_orbit (P := Nat) (T := Nat)
    (fun _ _ => [[(0, 0), (1, 1)], [(0, 1), (1, 0)]]) (Emb.mk 0 50 [])
    [(8, [(0, 5)])] [(9, []), (7, [(0, 4), (1, 5)])] 7 [(0, 2), (1, 3)]
    (by decide) [(0, 4), (1, 5)] [(0, 1), (1, 0)] (by decide) (by decide)
  exact ⟨⟨h.1.choose, h.1.choose_spec.1, h.1.choose_spec.2.1,
    h.1.choose_spec.2.2.1, h.1.choose_spec.2.2.2⟩, h.2.1, h.2.2⟩

end EmbeddingLemmas

/-! ## Rule-lattice driver registration (claim C2) -/

section DriverLemmas

variable {E P T : Type} [DecidableEq E] [DecidableEq P] [DecidableEq T]

theorem findByNode_append_self {α : Type} (pat : E → P)
    (l : List (List E × α)) (n : List E) (v : α)
    (h : findByNode pat l n = none) :
    findByNode pat (l ++ [(n, v)]) n = some (n, v) := by
  unfold findByNode at h ⊢
  rw [List.find?_append, h]
  rw [Option.none_or]
  rw [List.find?_cons_of_pos]
  simp [nodeEq]

/-- Claim C2 amended: whenever `_add_node` registers a NEW candidate for
the maximal common subrule `M` of an unseen node under `parent`, the
registered distortion list is exactly the parent candidate's distortion
filtered by embeddability of `M`'s pattern — and is therefore a subset of
the registration parent's distortion.  (The original claim extends the
subset relation to every parent-child edge of the built lattice; that
fails for the edges `_add_node` adds to already-registered candidates,
see the counterexample.) -/
theorem claim_C2_registration_distortion (pat : E → P) (host : E → T)
    (ext : E → List E) (tle : T → T → Bool) (canEmbed : T → Option P → Bool)
    (fuel : Nat) (st : RuleLatticeState E P T) (node parent : List E)
    (hseen : st.seenNodes.any (fun s => nodeEq pat s node) = false)
    (hnew : findByNode pat st.candidates
      (getMaximumCommonSubrule pat host ext tle fuel node) = none)
    (pr : List E × CandidateRule P T)
    (hpc : findByNode pat st.candidates parent = some pr) :
    (findByNode pat (addNode pat host ext tle canEmbed fuel st node parent).candidates
        (getMaximumCommonSubrule pat host ext tle fuel node) =
      some (getMaximumCommonSubrule pat host ext tle fuel node,
        ⟨((getMaximumCommonSubrule pat host ext tle fuel node).map host).dedup,
          pr.2.distortion.filter (fun t => canEmbed t
            (npattern pat (getMaximumCommonSubrule pat host ext tle fuel node))),
          npattern pat (getMaximumCommonSubrule pat host ext tle fuel node)⟩)) ∧
    (∀ t ∈ pr.2.distortion.filter (fun t => canEmbed t
        (npattern pat (getMaximumCommonSubrule pat host ext tle fuel node))),
      t ∈ pr.2.distortion) := by
  have hstep : (addNode pat host ext tle canEmbed fuel st node parent).candidates =
      st.candidates ++ [(getMaximumCommonSubrule pat host ext tle fuel node,
        ⟨((getMaximumCommonSubrule pat host ext tle fuel node).map host).dedup,
          pr.2.distortion.filter (fun t => canEmbed t
            (npattern pat (getMaximumCommonSubrule pat host ext tle fuel node))),
          npattern pat (getMaximumCommonSubrule pat host ext tle fuel node)⟩)] := by
    unfold addNode
    rw [if_neg (by rw [hseen]; exact Bool.false_ne_true)]
    simp only [hnew, hpc]
  constructor
  · rw [hstep]
    exact findByNode_append_self pat st.candidates _ _ hnew
  · intro t ht
    exact (List.mem_filter.1 ht).1

/-- The concrete driver instance for the claim C2 counterexample:
embeddings are numbers, with pattern, host-transition and extension
tables; `c2CanEmbed` records which spurious transition embeds which
pattern.  The scenario is realisable by actual rule graphs: patterns 11
and 12 specialise the root pattern 10 on different reference transitions,
pattern 13 is reachable from both (lattice convergence), and
`canEmbed 200 13 = true` while `canEmbed 200 12 = false` reflects the
label-compatibility asymmetry proved in the claim C7 theorems (a pattern
half `"a;*"` matches a host `"a;b"`, but after specialisation the pattern
may match hosts its generalisation does not, since a wildcard does not
match an empty half). -/
def c2Pat : Nat → Nat := fun e =>
  if e = 0 then 10 else if e = 5 then 10 else if e = 9 then 10 else
  if e = 1 then 11 else if e = 6 then 11 else
  if e = 2 then 12 else if e = 7 then 12 else
  if e = 3 then 13 else if e = 8 then 13 else
  if e = 4 then 14 else 0

/-- Host-transition table of the counterexample instance. -/
def c2Host : Nat → Nat := fun e =>
  if e = 0 then 100 else if e = 5 then 101 else if e = 9 then 102 else
  if e = 6 then 101 else if e = 7 then 102 else 100

/-- Extension table of the counterexample instance. -/
def c2Ext : Nat → List Nat := fun e =>
  if e = 0 then [1, 2] else if e = 5 then [6] else if e = 9 then [7] else
  if e = 1 then [3] else if e = 2 then [4] else if e = 4 then [8] else []

/-- Embeddability table of the counterexample instance. -/
def c2CanEmbed : Nat → Option Nat → Bool := fun t p =>
  (t == 200 && (p == some 11 || p == some 13)) || (t == 201 && p == some 12)

/-- The lattice state after the counterexample run drains its queue:
root `[0, 5, 9]`, spurious transitions `[200, 201]`, four resolutions. -/
def c2Final : RuleLatticeState Nat Nat Nat :=
  resolveNode c2Pat c2Host c2Ext Nat.ble c2CanEmbed 5
    (resolveNode c2Pat c2Host c2Ext Nat.ble c2CanEmbed 5
      (resolveNode c2Pat c2Host c2Ext Nat.ble c2CanEmbed 5
        (resolveNode c2Pat c2Host c2Ext Nat.ble c2CanEmbed 5
          (initLattice c2Pat c2Host [0, 5, 9] [200, 201]))))

/-- Claim C2 counterexample: in the built lattice `c2Final`, the node
with pattern 12 (the candidate registered from `[2, 7]`) has the
pattern-13 node among its children — an edge added by `_add_node` when a
successor's maximal common subrule collided with the candidate already
registered under the OTHER branch — and the child candidate's distortion
`[200]` is not a subset of that parent's distortion `[201]`: the
claimed subset relation along every root-to-node path fails. -/
theorem claim_C2_counterexample :
    ((findByNode c2Pat c2Final.nodes [2, 7]).map (fun kv => kv.2) = some [[8]]) ∧
    ((findByNode c2Pat c2Final.candidates [8]).map (fun kv => kv.2.distortion) =
      some [200]) ∧
    ((findByNode c2Pat c2Final.candidates [2, 7]).map (fun kv => kv.2.distortion) =
      some [201]) ∧
    (200 ∉ ([201] : List Nat)) := by decide

/-- Claim C2 amended witness: registering the first child of the root in
the counterexample instance stores exactly the filtered distortion. -/
theorem claim_C2_amended_witness :
    (findByNode c2Pat (addNode c2Pat c2Host c2Ext Nat.ble c2CanEmbed 5
        (initLattice c2Pat c2Host [0, 5, 9] [200, 201]) [1, 6] [0, 5, 9]).candidates
        (getMaximumCommonSubrule c2Pat c2Host c2Ext Nat.ble 5 [1, 6]) =
      some (getMaximumCommonSubrule c2Pat c2Host c2Ext Nat.ble 5 [1, 6],
        ⟨((getMaximumCommonSubrule c2Pat c2Host c2Ext Nat.ble 5 [1, 6]).map c2Host).dedup,
          [200, 201].filter (fun t => c2CanEmbed t
            (npattern c2Pat (getMaximumCommonSubrule c2Pat c2Host c2Ext Nat.ble 5 [1, 6]))),
          npattern c2Pat (getMaximumCommonSubrule c2Pat c2Host c2Ext Nat.ble 5 [1, 6])⟩)) ∧
    (∀ t ∈ [200, 201].filter (fun t => c2CanEmbed t
        (npattern c2Pat (getMaximumCommonSubrule c2Pat c2Host c2Ext Nat.ble 5 [1, 6]))),
      t ∈ [200, 201]) :=
  claim_C2_registration_distortion c2Pat c2Host c2Ext Nat.ble c2CanEmbed 5
    (initLattice c2Pat c2Host [0, 5, 9] [200, 201]) [1, 6] [0, 5, 9]
    (by decide) (by decide)
    ([0, 5, 9], ⟨[100, 101, 102], [200, 201], some 10⟩) (by decide)

end DriverLemmas

/-! ## Minimal subrule extraction (claim C5)

Target predicates for the characterisation of `get_minimal_subrule`, and
the invariant carried through its two loops. -/

/-- The vertex `v` of `P` carries a combined (relabeled) label. -/
def relabeledVertex (P : CGraph) (v : Nat) : Prop :=
  ∃ lab, (v, lab) ∈ P.vertices ∧ isCombined lab = true

/-- The vertex id `v` is an endpoint of a relabeled edge among `done`. -/
def endpointIn (done : List (Nat × Nat × String)) (v : Nat) : Prop :=
  ∃ e ∈ done, isCombined e.2.2 = true ∧ (e.1 = v ∨ e.2.1 = v)

/-- The builder element `x` is the re-indexed edge of `e` under the
vertex-id map `vm`. -/
def mappedEdge (vm : List (Nat × Nat)) (e : Nat × Nat × String) (x : BElem) : Prop :=
  ∃ sa sb, (e.1, sa) ∈ vm ∧ (e.2.1, sb) ∈ vm ∧ x = mkEdgeTuple sa sb

/-- The vertex id `i` is a vertex key of some side of the builder. -/
def vtxKey (b : Builder) (i : Nat) : Prop :=
  sgHas b.left (BElem.vtx i) = true ∨ sgHas b.context (BElem.vtx i) = true ∨
    sgHas b.right (BElem.vtx i) = true

/-- The bookkeeping invariant of the `get_minimal_subrule` loops that
does not mention which elements have been processed: the new ids are
`0, …, vm.length - 1` in assignment order over distinct originals, the
builder's vertex keys are exactly the assigned ids, each re-indexed
relabeled vertex sits in the left/right sides according to its label
halves, each re-indexed context endpoint sits in the context side, the
context side holds no edges, every left-side label is the wildcard, and
every right-side label is non-empty and never the wildcard. -/
structure CoreInv (P : CGraph) (b : Builder) (vm : List (Nat × Nat)) : Prop where
  sids : vm.map Prod.snd = List.range vm.length
  keysnd : (vm.map Prod.fst).Nodup
  ids : ∀ i, vtxKey b i ↔ i < vm.length
  rside : ∀ v s lab, (v, s) ∈ vm → (v, lab) ∈ P.vertices → isCombined lab = true →
    sgHas b.left (BElem.vtx s) = truthy (splitLabel lab).1 ∧
    sgHas b.right (BElem.vtx s) = truthy (splitLabel lab).2 ∧
    sgHas b.context (BElem.vtx s) = false
  cside : ∀ v s, (v, s) ∈ vm → ¬ relabeledVertex P v →
    sgHas b.context (BElem.vtx s) = true ∧
    sgHas b.left (BElem.vtx s) = false ∧ sgHas b.right (BElem.vtx s) = false
  ectx : ∀ a c, sgHas b.context (BElem.edg a c) = false
  lstar : ∀ p ∈ b.left, p.2 = "*"
  rgood : ∀ p ∈ b.right, p.2 ≠ "*" ∧ p.2.data ≠ []

/-- The edge-key part of the invariant: the edge elements present in the
left (resp. right) side are exactly the re-indexed relabeled edges
processed so far whose left (resp. right) half is present. -/
structure EdgeInv (P : CGraph) (done : List (Nat × Nat × String)) (b : Builder)
    (vm : List (Nat × Nat)) : Prop where
  eleft : ∀ a c, sgHas b.left (BElem.edg a c) = true ↔
    ∃ e ∈ done, isCombined e.2.2 = true ∧ truthy (splitLabel e.2.2).1 = true ∧
      mappedEdge vm e (BElem.edg a c)
  eright : ∀ a c, sgHas b.right (BElem.edg a c) = true ↔
    ∃ e ∈ done, isCombined e.2.2 = true ∧ truthy (splitLabel e.2.2).2 = true ∧
      mappedEdge vm e (BElem.edg a c)

section MinimalSubruleLemmas

theorem sgHas_append (sg : SideGraph) (x y : BElem) (l : String) :
    sgHas (sg ++ [(x, l)]) y = (sgHas sg y || x == y) := by
  unfold sgHas
  rw [List.any_append]
  simp

theorem sgAdd_fresh (sg : SideGraph) (x : BElem) (l : String)
    (h : sgHas sg x = false) : sgAdd sg x l = sg ++ [(x, l)] := by
  unfold sgAdd
  rw [if_neg (by rw [h]; exact Bool.false_ne_true)]

theorem addSideElement_fresh (side opposite ctx : SideGraph) (x : BElem)
    (l : String) (hc : sgHas ctx x = false)
    (ho : (sgHas opposite x && (sgLabel opposite x == l)) = false) :
    addSideElement side opposite ctx x l = (sgAdd side x l, opposite, ctx) := by
  unfold addSideElement
  rw [if_neg (by rw [hc]; exact Bool.false_ne_true)]
  rw [if_neg (by rw [ho]; exact Bool.false_ne_true)]

theorem addEdgeVertices_noop (target ctx : SideGraph) (e : BElem)
    (h : ∀ v ∈ edgeVertexIds e, sgHas target (BElem.vtx v) = true ∨
      sgHas ctx (BElem.vtx v) = true) :
    addEdgeVertices target [ctx] e = target := by
  unfold addEdgeVertices
  revert h
  generalize edgeVertexIds e = l
  induction l with
  | nil => intro _; rfl
  | cons v vs ih =>
    intro h
    rw [List.foldl_cons]
    have hcond : (!sgHas target (BElem.vtx v) &&
        (([ctx] : List SideGraph).isEmpty || [ctx].any (fun g => !sgHas g (BElem.vtx v)))) = false := by
      rcases h v (List.mem_cons_self _ _) with h1 | h1 <;> simp [h1]
    rw [if_neg (by rw [hcond]; exact Bool.false_ne_true)]
    exact ih (fun w hw => h w (List.mem_cons_of_mem _ hw))

theorem mem_sgVertexIds (sg : SideGraph) (i : Nat) :
    i ∈ sgVertexIds sg ↔ sgHas sg (BElem.vtx i) = true := by
  unfold sgVertexIds sgHas
  rw [List.mem_filterMap, List.any_eq_true]
  constructor
  · rintro ⟨p, hp, hmatch⟩
    refine ⟨p, hp, ?_⟩
    cases hx : p.1 with
    | vtx j => rw [hx] at hmatch; simp at hmatch; simp [hx, hmatch]
    | edg a c => rw [hx] at hmatch; simp at hmatch
  · rintro ⟨p, hp, hbeq⟩
    refine ⟨p, hp, ?_⟩
    have : p.1 = BElem.vtx i := by
      have := of_decide_eq_true (by simpa using hbeq)
      exact this
    rw [this]

theorem mem_builderVertexIds (b : Builder) (i : Nat) :
    i ∈ builderVertexIds b ↔ vtxKey b i := by
  unfold builderVertexIds vtxKey
  rw [List.mem_dedup, List.mem_append, List.mem_append,
    mem_sgVertexIds, mem_sgVertexIds, mem_sgVertexIds]
  tauto

theorem numVertices_eq (b : Builder) (k : Nat) (h : ∀ i, vtxKey b i ↔ i < k) :
    numVertices b = k := by
  unfold numVertices
  have hnd : (builderVertexIds b).Nodup := by
    unfold builderVertexIds
    exact List.nodup_dedup _
  have hfin : (builderVertexIds b).toFinset = Finset.range k := by
    apply Finset.ext
    intro i
    rw [List.mem_toFinset, mem_builderVertexIds, Finset.mem_range]
    exact h i
  calc (builderVertexIds b).length = (builderVertexIds b).toFinset.card :=
        (List.toFinset_card_of_nodup hnd).symm
    _ = (Finset.range k).card := by rw [hfin]
    _ = k := Finset.card_range k

theorem fst_eq_of_nodup {L : List (Nat × String)} (hnd : (L.map Prod.fst).Nodup)
    {v : Nat} {l1 l2 : String} (h1 : (v, l1) ∈ L) (h2 : (v, l2) ∈ L) : l1 = l2 := by
  induction L with
  | nil => simp at h1
  | cons p rest ih =>
    simp only [List.map_cons, List.nodup_cons] at hnd
    rcases List.mem_cons.1 h1 with ha | ha <;> rcases List.mem_cons.1 h2 with hb | hb
    · exact congrArg Prod.snd (ha.trans hb.symm)
    · exact absurd (List.mem_map.2 ⟨(v, l2), hb, by rw [← ha]⟩) hnd.1
    · exact absurd (List.mem_map.2 ⟨(v, l1), ha, by rw [← hb]⟩) hnd.1
    · exact ih hnd.2 ha hb

theorem snd_lt_of_mem_vm {vm : List (Nat × Nat)}
    (hs : vm.map Prod.snd = List.range vm.length) {v s : Nat}
    (h : (v, s) ∈ vm) : s < vm.length := by
  have hmem : s ∈ vm.map Prod.snd := List.mem_map.2 ⟨(v, s), h, rfl⟩
  rw [hs] at hmem
  exact List.mem_range.1 hmem

theorem snd_unique_aux {vm : List (Nat × Nat)} (hnd : (vm.map Prod.snd).Nodup)
    {v w s : Nat} (h1 : (v, s) ∈ vm) (h2 : (w, s) ∈ vm) : v = w := by
  induction vm with
  | nil => simp at h1
  | cons p rest ih =>
    simp only [List.map_cons, List.nodup_cons] at hnd
    rcases List.mem_cons.1 h1 with ha | ha <;> rcases List.mem_cons.1 h2 with hb | hb
    · exact congrArg Prod.fst (ha.trans hb.symm)
    · exact absurd (List.mem_map.2 ⟨(w, s), hb, by rw [← ha]⟩) hnd.1
    · exact absurd (List.mem_map.2 ⟨(v, s), ha, by rw [← hb]⟩) hnd.1
    · exact ih hnd.2 ha hb

theorem snd_unique_of_vm {vm : List (Nat × Nat)}
    (hs : vm.map Prod.snd = List.range vm.length) {v w s : Nat}
    (h1 : (v, s) ∈ vm) (h2 : (w, s) ∈ vm) : v = w :=
  snd_unique_aux (by rw [hs]; exact List.nodup_range _) h1 h2

theorem bool_false_of_not {b : Bool} (h : ¬ b = true) : b = false := by
  cases b
  · rfl
  · exact absurd rfl h

theorem getD_ne_star (o : Option String) (hstar : o ≠ some "*")
    (ht : truthy o = true) : o.getD "" ≠ "*" := by
  cases o with
  | none => cases ht
  | some y =>
    intro hc
    simp only [Option.getD_some] at hc
    exact hstar (by rw [hc])

theorem getD_data_ne_nil (o : Option String) (ht : truthy o = true) :
    (o.getD "").data ≠ [] := by
  cases o with
  | none => cases ht
  | some y =>
    simp only [Option.getD_some]
    intro hd
    have hy : y = "" := by
      rw [← mk_data y, hd]
    rw [hy] at ht
    cases ht

theorem sgHas_append_ne (sg : SideGraph) (x y : BElem) (l : String)
    (h : ¬ x = y) : sgHas (sg ++ [(x, l)]) y = sgHas sg y := by
  rw [sgHas_append]
  have : (x == y) = false := by simpa using h
  rw [this, Bool.or_false]

theorem sgHas_append_self (sg : SideGraph) (x : BElem) (l : String) :
    sgHas (sg ++ [(x, l)]) x = true := by
  rw [sgHas_append]
  simp

theorem sgLabel_append_self (sg : SideGraph) (x : BElem) (l : String)
    (h : sgHas sg x = false) : sgLabel (sg ++ [(x, l)]) x = l := by
  unfold sgLabel
  have hf : sg.find? (fun p => p.1 == x) = none := by
    rw [List.find?_eq_none]
    intro p hp hc
    have : sgHas sg x = true := List.any_eq_true.2 ⟨p, hp, hc⟩
    rw [h] at this
    cases this
  rw [List.find?_append, hf, Option.none_or]
  simp

theorem not_vtxKey_components (b : Builder) (i : Nat) (h : ¬ vtxKey b i) :
    sgHas b.left (BElem.vtx i) = false ∧ sgHas b.context (BElem.vtx i) = false ∧
      sgHas b.right (BElem.vtx i) = false := by
  unfold vtxKey at h
  push_neg at h
  exact ⟨bool_false_of_not h.1, bool_false_of_not h.2.1, bool_false_of_not h.2.2⟩

theorem mapLookup_mem {vm : List (Nat × Nat)} {v s : Nat}
    (h : mapLookup vm v = some s) : (v, s) ∈ vm := by
  unfold mapLookup at h
  cases hf : vm.find? (fun p => p.1 == v) with
  | none => rw [hf] at h; cases h
  | some p =>
    rw [hf] at h
    simp only [Option.map_some', Option.some.injEq] at h
    have hp := List.find?_some hf
    have hkey : p.1 = v := by simpa using hp
    have hmem := List.mem_of_find?_eq_some hf
    have : p = (v, s) := by
      cases p
      simp only at hkey h
      rw [hkey, h]
    rw [← this]
    exact hmem

theorem mapLookup_none_iff {vm : List (Nat × Nat)} {v : Nat} :
    mapLookup vm v = none ↔ ∀ s, (v, s) ∉ vm := by
  unfold mapLookup
  constructor
  · intro h s hmem
    cases hf : vm.find? (fun p => p.1 == v) with
    | none =>
      rw [List.find?_eq_none] at hf
      exact hf (v, s) hmem (by simp)
    | some p => rw [hf] at h; cases h
  · intro h
    cases hf : vm.find? (fun p => p.1 == v) with
    | none => rfl
    | some p =>
      have hp := List.find?_some hf
      have hkey : p.1 = v := by simpa using hp
      have hmem := List.mem_of_find?_eq_some hf
      exact absurd (by rw [← hkey]; exact hmem) (h p.2)

theorem mem_mapLookup {vm : List (Nat × Nat)} {v s : Nat}
    (hnd : (vm.map Prod.fst).Nodup) (h : (v, s) ∈ vm) :
    mapLookup vm v = some s := by
  induction vm with
  | nil => simp at h
  | cons p rest ih =>
    simp only [List.map_cons, List.nodup_cons] at hnd
    rcases List.mem_cons.1 h with ha | ha
    · rw [← ha]
      unfold mapLookup
      rw [List.find?_cons_of_pos _ (by simp)]
      rfl
    · have hkey : ¬ p.1 = v := by
        intro hc
        exact hnd.1 (hc ▸ List.mem_map.2 ⟨(v, s), ha, rfl⟩)
      unfold mapLookup
      rw [List.find?_cons_of_neg _ (by simpa using hkey)]
      exact ih hnd.2 ha

theorem addLeftVertex_fresh (b : Builder) (k : Nat) (l : String)
    (hL : sgHas b.left (BElem.vtx k) = false)
    (hC : sgHas b.context (BElem.vtx k) = false)
    (hR : sgHas b.right (BElem.vtx k) = false) :
    addLeftVertex b k l =
      { left := b.left ++ [(BElem.vtx k, l)], context := b.context,
        right := b.right } := by
  unfold addLeftVertex addLeftElement
  rw [addSideElement_fresh _ _ _ _ _ hC (by rw [hR]; rfl), sgAdd_fresh _ _ _ hL]

theorem addRightVertex_fresh (b : Builder) (k : Nat) (l : String)
    (hR : sgHas b.right (BElem.vtx k) = false)
    (hC : sgHas b.context (BElem.vtx k) = false)
    (ho : (sgHas b.left (BElem.vtx k) && (sgLabel b.left (BElem.vtx k) == l)) = false) :
    addRightVertex b k l =
      { left := b.left, context := b.context,
        right := b.right ++ [(BElem.vtx k, l)] } := by
  unfold addRightVertex addRightElement
  rw [addSideElement_fresh _ _ _ _ _ hC ho, sgAdd_fresh _ _ _ hR]

theorem addContextVertex_fresh (b : Builder) (k : Nat) (l : String)
    (hL : sgHas b.left (BElem.vtx k) = false)
    (hC : sgHas b.context (BElem.vtx k) = false)
    (hR : sgHas b.right (BElem.vtx k) = false) :
    addContextVertex b k l =
      { left := b.left, context := b.context ++ [(BElem.vtx k, l)],
        right := b.right } := by
  unfold addContextVertex addContextElement
  rw [if_neg (by rw [hL]; exact Bool.false_ne_true),
    if_neg (by rw [hR]; exact Bool.false_ne_true), sgAdd_fresh _ _ _ hC]

theorem minimalVertexStep_spec (P : CGraph) (b : Builder)
    (vm : List (Nat × Nat)) (v0 : Nat × String) (hcore : CoreInv P b vm)
    (hcomb : isCombined v0.2 = true)
    (hstar : (splitLabel v0.2).2 ≠ some "*") :
    minimalVertexStep (b, vm) v0 =
      ({ left := if truthy (splitLabel v0.2).1 = true then
             b.left ++ [(BElem.vtx vm.length, "*")] else b.left,
         context := b.context,
         right := if truthy (splitLabel v0.2).2 = true then
             b.right ++ [(BElem.vtx vm.length, ((splitLabel v0.2).2).getD "")]
           else b.right },
       vm ++ [(v0.1, vm.length)]) := by
  have hnum : numVertices b = vm.length := numVertices_eq b vm.length hcore.ids
  have hnk : ¬ vtxKey b vm.length := by
    intro h
    exact absurd ((hcore.ids _).1 h) (lt_irrefl _)
  obtain ⟨hL, hC, hR⟩ := not_vtxKey_components b vm.length hnk
  unfold minimalVertexStep
  rw [if_pos hcomb]
  simp only [hnum]
  by_cases hl : truthy (splitLabel v0.2).1 = true <;>
    by_cases hr : truthy (splitLabel v0.2).2 = true
  · rw [if_pos hl, if_pos hr, addLeftVertex_fresh b _ _ hL hC hR]
    have hstar2 : (sgLabel (b.left ++ [(BElem.vtx vm.length, "*")])
        (BElem.vtx vm.length) == ((splitLabel v0.2).2).getD "") = false := by
      rw [sgLabel_append_self _ _ _ hL]
      cases hv : (splitLabel v0.2).2 with
      | none => rw [hv] at hr; cases hr
      | some y =>
        rw [hv] at hstar
        have hy : ¬ ("*" : String) = y := by
          intro hc
          exact hstar (by rw [← hc])
        simpa using hy
    rw [addRightVertex_fresh _ _ _ (by exact hR) (by exact hC)
      (by rw [hstar2]; exact Bool.and_false _)]
    rw [if_pos hl, if_pos hr]
  · rw [if_pos hl, if_neg hr, addLeftVertex_fresh b _ _ hL hC hR]
    rw [if_pos hl, if_neg hr]
  · rw [if_neg hl, if_pos hr,
      addRightVertex_fresh b _ _ hR hC (by rw [hL]; rfl)]
    rw [if_neg hl, if_pos hr]
  · rw [if_neg hl, if_neg hr]
    rw [if_neg hl, if_neg hr]

theorem sgHasIte_vtx (sg : SideGraph) (k : Nat) (l : String) (c : Bool)
    (hfresh : sgHas sg (BElem.vtx k) = false) :
    ∀ i, sgHas (if c = true then sg ++ [(BElem.vtx k, l)] else sg) (BElem.vtx i) =
      (if i = k then c else sgHas sg (BElem.vtx i)) := by
  intro i
  by_cases hc : c = true
  · rw [if_pos hc]
    by_cases hi : i = k
    · subst hi
      rw [if_pos rfl, sgHas_append_self, hc]
    · rw [if_neg hi, sgHas_append_ne _ _ _ _
        (by intro h; injection h with h2; exact hi h2.symm)]
  · rw [if_neg hc]
    by_cases hi : i = k
    · subst hi
      rw [if_pos rfl, hfresh, bool_false_of_not hc]
    · rw [if_neg hi]

theorem sgHasIte_edg (sg : SideGraph) (k : Nat) (l : String) (c : Bool) :
    ∀ a d, sgHas (if c = true then sg ++ [(BElem.vtx k, l)] else sg) (BElem.edg a d) =
      sgHas sg (BElem.edg a d) := by
  intro a d
  by_cases hc : c = true
  · rw [if_pos hc, sgHas_append_ne _ _ _ _ (by intro h; cases h)]
  · rw [if_neg hc]

theorem minimalVertexStep_inv (P : CGraph)
    (hvnd : (P.vertices.map Prod.fst).Nodup)
    (b : Builder) (vm : List (Nat × Nat)) (v0 : Nat × String)
    (hmem0 : v0 ∈ P.vertices) (hcomb : isCombined v0.2 = true)
    (hstar0 : (splitLabel v0.2).2 ≠ some "*")
    (hhalf0 : truthy (splitLabel v0.2).1 = true ∨ truthy (splitLabel v0.2).2 = true)
    (hcore : CoreInv P b vm) (hedge : EdgeInv P [] b vm)
    (hnotin : ∀ s, (v0.1, s) ∉ vm) :
    CoreInv P (minimalVertexStep (b, vm) v0).1 (minimalVertexStep (b, vm) v0).2 ∧
    EdgeInv P [] (minimalVertexStep (b, vm) v0).1 (minimalVertexStep (b, vm) v0).2 ∧
    (∀ v, (∃ s, (v, s) ∈ (minimalVertexStep (b, vm) v0).2) ↔
      ((∃ s, (v, s) ∈ vm) ∨ v = v0.1)) := by
  have hmem0' : (v0.1, v0.2) ∈ P.vertices := hmem0
  have hnk : ¬ vtxKey b vm.length := fun h => absurd ((hcore.ids _).1 h) (lt_irrefl _)
  obtain ⟨hL, hC, hR⟩ := not_vtxKey_components b vm.length hnk
  have hBL := sgHasIte_vtx b.left vm.length "*" (truthy (splitLabel v0.2).1) hL
  have hBR := sgHasIte_vtx b.right vm.length (((splitLabel v0.2).2).getD "")
    (truthy (splitLabel v0.2).2) hR
  have hBLe := sgHasIte_edg b.left vm.length "*" (truthy (splitLabel v0.2).1)
  have hBRe := sgHasIte_edg b.right vm.length (((splitLabel v0.2).2).getD "")
    (truthy (splitLabel v0.2).2)
  rw [minimalVertexStep_spec P b vm v0 hcore hcomb hstar0]
  refine ⟨?_, ?_, ?_⟩
  · constructor
    · simp [hcore.sids, List.range_succ]
    · simp only [List.map_append, List.map_cons, List.map_nil]
      rw [List.nodup_append]
      refine ⟨hcore.keysnd, by simp, ?_⟩
      intro a ha hb
      have hb' : a = v0.1 := by simpa using hb
      subst hb'
      obtain ⟨p, hmem, hfst⟩ := List.mem_map.1 ha
      have hpm : (v0.1, p.2) ∈ vm := by rw [← hfst]; exact hmem
      exact hnotin p.2 hpm
    · intro i
      unfold vtxKey
      simp only [hBL, hBR, List.length_append, List.length_cons, List.length_nil]
      by_cases hi : i = vm.length
      · subst hi
        rw [if_pos rfl, if_pos rfl, hC]
        constructor
        · intro _; omega
        · intro _
          rcases hhalf0 with h | h
          · exact Or.inl h
          · exact Or.inr (Or.inr h)
      · rw [if_neg hi, if_neg hi]
        have hids := hcore.ids i
        unfold vtxKey at hids
        rw [hids]
        omega
    · intro v s lab hmemvm hmemP hlabc
      simp only [hBL, hBR]
      rcases List.mem_append.1 hmemvm with hold | hnew
      · have hslt := snd_lt_of_mem_vm hcore.sids hold
        have hsne : ¬ s = vm.length := by omega
        rw [if_neg hsne, if_neg hsne]
        exact hcore.rside v s lab hold hmemP hlabc
      · have heq := List.mem_singleton.1 hnew
        have hv : v = v0.1 := congrArg Prod.fst heq
        have hs : s = vm.length := congrArg Prod.snd heq
        subst hv
        subst hs
        rw [if_pos rfl, if_pos rfl]
        have hlab : lab = v0.2 := fst_eq_of_nodup hvnd hmemP hmem0'
        rw [hlab]
        exact ⟨rfl, rfl, hC⟩
    · intro v s hmemvm hnrel
      simp only [hBL, hBR]
      rcases List.mem_append.1 hmemvm with hold | hnew
      · have hslt := snd_lt_of_mem_vm hcore.sids hold
        have hsne : ¬ s = vm.length := by omega
        rw [if_neg hsne, if_neg hsne]
        exact hcore.cside v s hold hnrel
      · have heq := List.mem_singleton.1 hnew
        have hv : v = v0.1 := congrArg Prod.fst heq
        exact absurd (show relabeledVertex P v from
          ⟨v0.2, by rw [hv]; exact hmem0', hcomb⟩) hnrel
    · intro a c
      exact hcore.ectx a c
    · intro p hp
      have hp2 : p ∈ (if truthy (splitLabel v0.2).1 = true then
          b.left ++ [(BElem.vtx vm.length, "*")] else b.left) := hp
      by_cases hl : truthy (splitLabel v0.2).1 = true
      · rw [if_pos hl] at hp2
        rcases List.mem_append.1 hp2 with h | h
        · exact hcore.lstar p h
        · rw [List.mem_singleton.1 h]
      · rw [if_neg hl] at hp2
        exact hcore.lstar p hp2
    · intro p hp
      have hp2 : p ∈ (if truthy (splitLabel v0.2).2 = true then
          b.right ++ [(BElem.vtx vm.length, ((splitLabel v0.2).2).getD "")]
        else b.right) := hp
      by_cases hr : truthy (splitLabel v0.2).2 = true
      · rw [if_pos hr] at hp2
        rcases List.mem_append.1 hp2 with h | h
        · exact hcore.rgood p h
        · rw [List.mem_singleton.1 h]
          exact ⟨getD_ne_star _ hstar0 hr, getD_data_ne_nil _ hr⟩
      · rw [if_neg hr] at hp2
        exact hcore.rgood p hp2
  · constructor
    · intro a c
      simp only [hBLe]
      constructor
      · intro h
        obtain ⟨e, he, _⟩ := (hedge.eleft a c).1 h
        exact absurd he (List.not_mem_nil e)
      · rintro ⟨e, he, _⟩
        exact absurd he (List.not_mem_nil e)
    · intro a c
      simp only [hBRe]
      constructor
      · intro h
        obtain ⟨e, he, _⟩ := (hedge.eright a c).1 h
        exact absurd he (List.not_mem_nil e)
      · rintro ⟨e, he, _⟩
        exact absurd he (List.not_mem_nil e)
  · intro v
    constructor
    · rintro ⟨s, hs⟩
      rcases List.mem_append.1 hs with hold | hnew
      · exact Or.inl ⟨s, hold⟩
      · exact Or.inr (congrArg Prod.fst (List.mem_singleton.1 hnew))
    · rintro (⟨s, hs⟩ | hv)
      · exact ⟨s, List.mem_append_left _ hs⟩
      · exact ⟨vm.length, List.mem_append_right _
          (by rw [hv]; exact List.mem_singleton.2 rfl)⟩

theorem minimalVertexFold_inv (P : CGraph)
    (hvnd : (P.vertices.map Prod.fst).Nodup)
    (hhalf : ∀ v ∈ P.vertices, isCombined v.2 = true →
      truthy (splitLabel v.2).1 = true ∨ truthy (splitLabel v.2).2 = true)
    (hstar : ∀ v ∈ P.vertices, isCombined v.2 = true →
      (splitLabel v.2).2 ≠ some "*") :
    ∀ (vs vsDone : List (Nat × String)) (b : Builder) (vm : List (Nat × Nat)),
      P.vertices = vsDone ++ vs → CoreInv P b vm → EdgeInv P [] b vm →
      (∀ v, (∃ s, (v, s) ∈ vm) ↔
        ∃ lab, (v, lab) ∈ vsDone ∧ isCombined lab = true) →
      CoreInv P (vs.foldl minimalVertexStep (b, vm)).1
          (vs.foldl minimalVertexStep (b, vm)).2 ∧
        EdgeInv P [] (vs.foldl minimalVertexStep (b, vm)).1
          (vs.foldl minimalVertexStep (b, vm)).2 ∧
        (∀ v, (∃ s, (v, s) ∈ (vs.foldl minimalVertexStep (b, vm)).2) ↔
          ∃ lab, (v, lab) ∈ vsDone ++ vs ∧ isCombined lab = true) := by
  intro vs
  induction vs with
  | nil =>
    intro vsDone b vm _ hcore hedge horig
    refine ⟨hcore, hedge, ?_⟩
    intro v
    simpa using horig v
  | cons v0 vs ih =>
    intro vsDone b vm hsplit hcore hedge horig
    rw [List.foldl_cons]
    have hsplit2 : P.vertices = (vsDone ++ [v0]) ++ vs := by
      rw [hsplit, List.append_assoc]
      rfl
    by_cases hcomb : isCombined v0.2 = true
    · have hmem0 : v0 ∈ P.vertices := by
        rw [hsplit]
        exact List.mem_append_right _ (List.mem_cons_self _ _)
      have hnotin : ∀ s, (v0.1, s) ∉ vm := by
        intro s hs
        obtain ⟨lab, hmemD, _⟩ := (horig v0.1).1 ⟨s, hs⟩
        have hfst : v0.1 ∈ vsDone.map Prod.fst :=
          List.mem_map.2 ⟨(v0.1, lab), hmemD, rfl⟩
        have hnd := hvnd
        rw [hsplit, List.map_append] at hnd
        exact (List.nodup_append.1 hnd).2.2 hfst
          (by rw [List.map_cons]; exact List.mem_cons_self _ _)
      obtain ⟨hcore1, hedge1, horig1⟩ :=
        minimalVertexStep_inv P hvnd b vm v0 hmem0 hcomb (hstar v0 hmem0 hcomb)
          (hhalf v0 hmem0 hcomb) hcore hedge hnotin
      have horig2 : ∀ v, (∃ s, (v, s) ∈ (minimalVertexStep (b, vm) v0).2) ↔
          ∃ lab, (v, lab) ∈ vsDone ++ [v0] ∧ isCombined lab = true := by
        intro v
        rw [horig1 v]
        constructor
        · rintro (⟨s, hs⟩ | hv)
          · obtain ⟨lab, hmemD, hc⟩ := (horig v).1 ⟨s, hs⟩
            exact ⟨lab, List.mem_append_left _ hmemD, hc⟩
          · exact ⟨v0.2, List.mem_append_right _
              (by rw [hv]; exact List.mem_singleton.2 rfl), hcomb⟩
        · rintro ⟨lab, hmemD, hc⟩
          rcases List.mem_append.1 hmemD with hm | hm
          · exact Or.inl ((horig v).2 ⟨lab, hm, hc⟩)
          · exact Or.inr (congrArg Prod.fst (List.mem_singleton.1 hm))
      have hres := ih (vsDone ++ [v0]) (minimalVertexStep (b, vm) v0).1
        (minimalVertexStep (b, vm) v0).2 hsplit2 hcore1 hedge1 horig2
      refine ⟨hres.1, hres.2.1, ?_⟩
      intro v
      have h3 := hres.2.2 v
      rw [List.append_assoc] at h3
      exact h3
    · have hstep : minimalVertexStep (b, vm) v0 = (b, vm) := by
        unfold minimalVertexStep
        rw [if_neg hcomb]
      rw [hstep]
      have horig2 : ∀ v, (∃ s, (v, s) ∈ vm) ↔
          ∃ lab, (v, lab) ∈ vsDone ++ [v0] ∧ isCombined lab = true := by
        intro v
        rw [horig v]
        constructor
        · rintro ⟨lab, hmemD, hc⟩
          exact ⟨lab, List.mem_append_left _ hmemD, hc⟩
        · rintro ⟨lab, hmemD, hc⟩
          rcases List.mem_append.1 hmemD with hm | hm
          · exact ⟨lab, hm, hc⟩
          · have heq := List.mem_singleton.1 hm
            have hlab : lab = v0.2 := congrArg Prod.snd heq
            rw [hlab] at hc
            exact absurd hc hcomb
      have hres := ih (vsDone ++ [v0]) b vm hsplit2 hcore hedge horig2
      refine ⟨hres.1, hres.2.1, ?_⟩
      intro v
      have h3 := hres.2.2 v
      rw [List.append_assoc] at h3
      exact h3

theorem minimalEdgeEndpoint_some (b : Builder) (vm : List (Nat × Nat)) (v s : Nat)
    (h : mapLookup vm v = some s) : minimalEdgeEndpoint (b, vm) v = (b, vm) := by
  simp only [minimalEdgeEndpoint, h]

theorem minimalEdgeEndpoint_none (b : Builder) (vm : List (Nat × Nat)) (v : Nat)
    (h : mapLookup vm v = none) :
    minimalEdgeEndpoint (b, vm) v =
      (addContextVertex b (numVertices b) "*", vm ++ [(v, numVertices b)]) := by
  simp only [minimalEdgeEndpoint, h]

theorem minimalEdgeEndpoint_inv (P : CGraph) (done : List (Nat × Nat × String))
    (st : Builder × List (Nat × Nat)) (v : Nat)
    (hcore : CoreInv P st.1 st.2) (hedge : EdgeInv P done st.1 st.2)
    (horig : ∀ w, (relabeledVertex P w ∨ endpointIn done w) → ∃ s, (w, s) ∈ st.2) :
    CoreInv P (minimalEdgeEndpoint st v).1 (minimalEdgeEndpoint st v).2 ∧
    EdgeInv P done (minimalEdgeEndpoint st v).1 (minimalEdgeEndpoint st v).2 ∧
    (∀ w, (∃ s, (w, s) ∈ (minimalEdgeEndpoint st v).2) ↔
      ((∃ s, (w, s) ∈ st.2) ∨ w = v)) ∧
    (∃ s, (v, s) ∈ (minimalEdgeEndpoint st v).2) ∧
    (∀ p ∈ st.2, p ∈ (minimalEdgeEndpoint st v).2) := by
  obtain ⟨b, vm⟩ := st
  simp only [] at hcore hedge horig ⊢
  cases hlook : mapLookup vm v with
  | some s =>
    rw [minimalEdgeEndpoint_some b vm v s hlook]
    refine ⟨hcore, hedge, ?_, ⟨s, mapLookup_mem hlook⟩, fun p hp => hp⟩
    intro w
    constructor
    · exact fun h => Or.inl h
    · rintro (h | hw)
      · exact h
      · exact ⟨s, by rw [hw]; exact mapLookup_mem hlook⟩
  | none =>
    have hnum : numVertices b = vm.length := numVertices_eq b vm.length hcore.ids
    rw [minimalEdgeEndpoint_none b vm v hlook, hnum]
    have hnotin : ∀ s, (v, s) ∉ vm := mapLookup_none_iff.1 hlook
    have hnrel : ¬ relabeledVertex P v := by
      intro hrel
      obtain ⟨s, hs⟩ := horig v (Or.inl hrel)
      exact hnotin s hs
    have hnk : ¬ vtxKey b vm.length := fun h => absurd ((hcore.ids _).1 h) (lt_irrefl _)
    obtain ⟨hL, hC, hR⟩ := not_vtxKey_components b vm.length hnk
    rw [addContextVertex_fresh b vm.length "*" hL hC hR]
    have hBC : ∀ i, sgHas (b.context ++ [(BElem.vtx vm.length, "*")]) (BElem.vtx i) =
        (if i = vm.length then true else sgHas b.context (BElem.vtx i)) := by
      intro i
      by_cases hi : i = vm.length
      · subst hi
        rw [if_pos rfl, sgHas_append_self]
      · rw [if_neg hi, sgHas_append_ne _ _ _ _
          (by intro h; injection h with h2; exact hi h2.symm)]
    have hBCe : ∀ a c, sgHas (b.context ++ [(BElem.vtx vm.length, "*")]) (BElem.edg a c) =
        sgHas b.context (BElem.edg a c) := by
      intro a c
      rw [sgHas_append_ne _ _ _ _ (by intro h; cases h)]
    refine ⟨?_, ?_, ?_, ?_, ?_⟩
    · constructor
      · simp [hcore.sids, List.range_succ]
      · simp only [List.map_append, List.map_cons, List.map_nil]
        rw [List.nodup_append]
        refine ⟨hcore.keysnd, by simp, ?_⟩
        intro a ha hb
        have hb' : a = v := by simpa using hb
        obtain ⟨p, hmem, hfst⟩ := List.mem_map.1 ha
        have hpm : (v, p.2) ∈ vm := by rw [← hb', ← hfst]; exact hmem
        exact hnotin p.2 hpm
      · intro i
        unfold vtxKey
        simp only [hBC, List.length_append, List.length_cons, List.length_nil]
        by_cases hi : i = vm.length
        · subst hi
          rw [if_pos rfl]
          constructor
          · intro _; omega
          · intro _; exact Or.inr (Or.inl rfl)
        · rw [if_neg hi]
          have hids := hcore.ids i
          unfold vtxKey at hids
          rw [hids]
          omega
      · intro w s lab hmemvm hmemP hlabc
        simp only [hBC]
        rcases List.mem_append.1 hmemvm with hold | hnew
        · have hslt := snd_lt_of_mem_vm hcore.sids hold
          have hsne : ¬ s = vm.length := by omega
          rw [if_neg hsne]
          exact hcore.rside w s lab hold hmemP hlabc
        · have heq := List.mem_singleton.1 hnew
          have hw : w = v := congrArg Prod.fst heq
          exact absurd (show relabeledVertex P w from ⟨lab, hmemP, hlabc⟩)
            (by rw [hw]; exact hnrel)
      · intro w s hmemvm hnrel2
        simp only [hBC]
        rcases List.mem_append.1 hmemvm with hold | hnew
        · have hslt := snd_lt_of_mem_vm hcore.sids hold
          have hsne : ¬ s = vm.length := by omega
          rw [if_neg hsne]
          exact hcore.cside w s hold hnrel2
        · have heq := List.mem_singleton.1 hnew
          have hw : w = v := congrArg Prod.fst heq
          have hs : s = vm.length := congrArg Prod.snd heq
          subst hs
          rw [if_pos rfl]
          exact ⟨rfl, hL, hR⟩
      · intro a c
        simp only [hBCe]
        exact hcore.ectx a c
      · intro p hp
        exact hcore.lstar p hp
      · intro p hp
        exact hcore.rgood p hp
    · constructor
      · intro a c
        refine Iff.trans (hedge.eleft a c) ?_
        constructor
        · rintro ⟨e, he, hc, ht, sa, sb, hsa, hsb, hx⟩
          exact ⟨e, he, hc, ht, sa, sb, List.mem_append_left _ hsa,
            List.mem_append_left _ hsb, hx⟩
        · rintro ⟨e, he, hc, ht, sa, sb, hsa, hsb, hx⟩
          have hea : (e.1, sa) ∈ vm := by
            rcases List.mem_append.1 hsa with h | h
            · exact h
            · have heq := List.mem_singleton.1 h
              have h1 : e.1 = v := congrArg Prod.fst heq
              obtain ⟨s0, hs0⟩ := horig e.1 (Or.inr ⟨e, he, hc, Or.inl rfl⟩)
              rw [h1] at hs0
              exact absurd hs0 (hnotin s0)
          have heb : (e.2.1, sb) ∈ vm := by
            rcases List.mem_append.1 hsb with h | h
            · exact h
            · have heq := List.mem_singleton.1 h
              have h1 : e.2.1 = v := congrArg Prod.fst heq
              obtain ⟨s0, hs0⟩ := horig e.2.1 (Or.inr ⟨e, he, hc, Or.inr rfl⟩)
              rw [h1] at hs0
              exact absurd hs0 (hnotin s0)
          exact ⟨e, he, hc, ht, sa, sb, hea, heb, hx⟩
      · intro a c
        refine Iff.trans (hedge.eright a c) ?_
        constructor
        · rintro ⟨e, he, hc, ht, sa, sb, hsa, hsb, hx⟩
          exact ⟨e, he, hc, ht, sa, sb, List.mem_append_left _ hsa,
            List.mem_append_left _ hsb, hx⟩
        · rintro ⟨e, he, hc, ht, sa, sb, hsa, hsb, hx⟩
          have hea : (e.1, sa) ∈ vm := by
            rcases List.mem_append.1 hsa with h | h
            · exact h
            · have heq := List.mem_singleton.1 h
              have h1 : e.1 = v := congrArg Prod.fst heq
              obtain ⟨s0, hs0⟩ := horig e.1 (Or.inr ⟨e, he, hc, Or.inl rfl⟩)
              rw [h1] at hs0
              exact absurd hs0 (hnotin s0)
          have heb : (e.2.1, sb) ∈ vm := by
            rcases List.mem_append.1 hsb with h | h
            · exact h
            · have heq := List.mem_singleton.1 h
              have h1 : e.2.1 = v := congrArg Prod.fst heq
              obtain ⟨s0, hs0⟩ := horig e.2.1 (Or.inr ⟨e, he, hc, Or.inr rfl⟩)
              rw [h1] at hs0
              exact absurd hs0 (hnotin s0)
          exact ⟨e, he, hc, ht, sa, sb, hea, heb, hx⟩
    · intro w
      constructor
      · rintro ⟨s, hs⟩
        rcases List.mem_append.1 hs with hold | hnew
        · exact Or.inl ⟨s, hold⟩
        · exact Or.inr (congrArg Prod.fst (List.mem_singleton.1 hnew))
      · rintro (⟨s, hs⟩ | hw)
        · exact ⟨s, List.mem_append_left _ hs⟩
        · exact ⟨vm.length, List.mem_append_right _
            (by rw [hw]; exact List.mem_singleton.2 rfl)⟩
    · exact ⟨vm.length, List.mem_append_right _ (List.mem_singleton.2 rfl)⟩
    · exact fun p hp => List.mem_append_left _ hp

theorem mkEdgeTuple_comm (a b : Nat) : mkEdgeTuple a b = mkEdgeTuple b a := by
  simp [mkEdgeTuple, Nat.min_comm, Nat.max_comm]

theorem sgHasIteApp (sg : SideGraph) (x : BElem) (l : String) (c : Bool) (y : BElem) :
    sgHas (if c = true then sg ++ [(x, l)] else sg) y =
      (sgHas sg y || (c && (x == y))) := by
  by_cases hc : c = true
  · rw [if_pos hc, sgHas_append, hc, Bool.true_and]
  · rw [if_neg hc, bool_false_of_not hc, Bool.false_and, Bool.or_false]

theorem addLeftEdge_spec (b : Builder) (sa sb : Nat) (l : String)
    (hcov : ∀ i ∈ edgeVertexIds (mkEdgeTuple sa sb),
      sgHas b.left (BElem.vtx i) = true ∨ sgHas b.context (BElem.vtx i) = true)
    (hfL : sgHas b.left (mkEdgeTuple sa sb) = false)
    (hfC : sgHas b.context (mkEdgeTuple sa sb) = false)
    (ho : (sgHas b.right (mkEdgeTuple sa sb) &&
      (sgLabel b.right (mkEdgeTuple sa sb) == l)) = false) :
    addLeftEdge b sa sb l =
      { left := b.left ++ [(mkEdgeTuple sa sb, l)], context := b.context,
        right := b.right } := by
  simp only [addLeftEdge]
  rw [addEdgeVertices_noop b.left b.context _ hcov]
  simp only [addLeftElement]
  rw [addSideElement_fresh _ _ _ _ _ hfC ho, sgAdd_fresh _ _ _ hfL]

theorem addRightEdge_spec (b : Builder) (sa sb : Nat) (l : String)
    (hcov : ∀ i ∈ edgeVertexIds (mkEdgeTuple sa sb),
      sgHas b.right (BElem.vtx i) = true ∨ sgHas b.context (BElem.vtx i) = true)
    (hfR : sgHas b.right (mkEdgeTuple sa sb) = false)
    (hfC : sgHas b.context (mkEdgeTuple sa sb) = false)
    (ho : (sgHas b.left (mkEdgeTuple sa sb) &&
      (sgLabel b.left (mkEdgeTuple sa sb) == l)) = false) :
    addRightEdge b sa sb l =
      { left := b.left, context := b.context,
        right := b.right ++ [(mkEdgeTuple sa sb, l)] } := by
  simp only [addRightEdge]
  rw [addEdgeVertices_noop b.right b.context _ hcov]
  simp only [addRightElement]
  rw [addSideElement_fresh _ _ _ _ _ hfC ho, sgAdd_fresh _ _ _ hfR]

theorem edgeAdds_spec (b2 : Builder) (sa sb : Nat) (lab : String)
    (hstar0 : (splitLabel lab).2 ≠ some "*")
    (hfL : sgHas b2.left (mkEdgeTuple sa sb) = false)
    (hfC : sgHas b2.context (mkEdgeTuple sa sb) = false)
    (hfR : sgHas b2.right (mkEdgeTuple sa sb) = false)
    (hcovL : truthy (splitLabel lab).1 = true →
      ∀ i ∈ edgeVertexIds (mkEdgeTuple sa sb),
        sgHas b2.left (BElem.vtx i) = true ∨ sgHas b2.context (BElem.vtx i) = true)
    (hcovR : truthy (splitLabel lab).2 = true →
      ∀ i ∈ edgeVertexIds (mkEdgeTuple sa sb),
        sgHas b2.right (BElem.vtx i) = true ∨ sgHas b2.context (BElem.vtx i) = true) :
    (if truthy (splitLabel lab).2 = true then
        addRightEdge
          (if truthy (splitLabel lab).1 = true then addLeftEdge b2 sa sb "*" else b2)
          sa sb (((splitLabel lab).2).getD "")
      else if truthy (splitLabel lab).1 = true then addLeftEdge b2 sa sb "*" else b2) =
      { left := if truthy (splitLabel lab).1 = true then
            b2.left ++ [(mkEdgeTuple sa sb, "*")] else b2.left,
        context := b2.context,
        right := if truthy (splitLabel lab).2 = true then
            b2.right ++ [(mkEdgeTuple sa sb, ((splitLabel lab).2).getD "")]
          else b2.right } := by
  by_cases hl : truthy (splitLabel lab).1 = true <;>
    by_cases hr : truthy (splitLabel lab).2 = true
  · rw [if_pos hr, if_pos hl, addLeftEdge_spec b2 sa sb "*" (hcovL hl) hfL hfC
      (by rw [hfR]; rfl)]
    have hstar2 : (sgLabel (b2.left ++ [(mkEdgeTuple sa sb, "*")]) (mkEdgeTuple sa sb) ==
        ((splitLabel lab).2).getD "") = false := by
      rw [sgLabel_append_self _ _ _ hfL]
      cases hv : (splitLabel lab).2 with
      | none => rw [hv] at hr; cases hr
      | some y =>
        rw [hv] at hstar0
        have hy : ¬ ("*" : String) = y := by
          intro hc
          exact hstar0 (by rw [← hc])
        simpa using hy
    rw [addRightEdge_spec
      { left := b2.left ++ [(mkEdgeTuple sa sb, "*")], context := b2.context,
        right := b2.right } sa sb (((splitLabel lab).2).getD "")
      (hcovR hr) hfR hfC
      (by show (sgHas (b2.left ++ [(mkEdgeTuple sa sb, "*")]) (mkEdgeTuple sa sb) &&
            (sgLabel (b2.left ++ [(mkEdgeTuple sa sb, "*")]) (mkEdgeTuple sa sb) ==
              ((splitLabel lab).2).getD "")) = false
          rw [hstar2]
          exact Bool.and_false _)]
    rw [if_pos hl, if_pos hr]
  · rw [if_neg hr, if_pos hl, addLeftEdge_spec b2 sa sb "*" (hcovL hl) hfL hfC
      (by rw [hfR]; rfl)]
    rw [if_pos hl, if_neg hr]
  · rw [if_pos hr, if_neg hl,
      addRightEdge_spec b2 sa sb _ (hcovR hr) hfR hfC (by rw [hfL]; rfl)]
    rw [if_neg hl, if_pos hr]
  · rw [if_neg hr, if_neg hl]
    rw [if_neg hl, if_neg hr]

theorem minimalEdgeStep_inv (P : CGraph)
    (done es : List (Nat × Nat × String)) (e : Nat × Nat × String)
    (hPsplit : P.edges = done ++ e :: es)
    (hedup : (P.edges.map (fun e2 => mkEdgeTuple e2.1 e2.2.1)).Nodup)
    (hstar : isCombined e.2.2 = true → (splitLabel e.2.2).2 ≠ some "*")
    (hside : ∀ vl ∈ P.vertices, isCombined e.2.2 = true →
      (vl.1 = e.1 ∨ vl.1 = e.2.1) → isCombined vl.2 = true →
      (truthy (splitLabel e.2.2).1 = true → truthy (splitLabel vl.2).1 = true) ∧
      (truthy (splitLabel e.2.2).2 = true → truthy (splitLabel vl.2).2 = true))
    (b : Builder) (vm : List (Nat × Nat))
    (hcore : CoreInv P b vm) (hedge : EdgeInv P done b vm)
    (horig : ∀ w, (∃ s, (w, s) ∈ vm) ↔ (relabeledVertex P w ∨ endpointIn done w)) :
    CoreInv P (minimalEdgeStep (b, vm) e).1 (minimalEdgeStep (b, vm) e).2 ∧
    EdgeInv P (done ++ [e]) (minimalEdgeStep (b, vm) e).1 (minimalEdgeStep (b, vm) e).2 ∧
    (∀ w, (∃ s, (w, s) ∈ (minimalEdgeStep (b, vm) e).2) ↔
      (relabeledVertex P w ∨ endpointIn (done ++ [e]) w)) := by
  by_cases hcomb : isCombined e.2.2 = true
  case neg =>
    have hstep : minimalEdgeStep (b, vm) e = (b, vm) := by
      unfold minimalEdgeStep
      rw [if_neg hcomb]
    rw [hstep]
    refine ⟨hcore, ?_, ?_⟩
    · constructor
      · intro a c
        refine Iff.trans (hedge.eleft a c) ?_
        constructor
        · rintro ⟨e2, he2, hc2, ht2, hm2⟩
          exact ⟨e2, List.mem_append_left _ he2, hc2, ht2, hm2⟩
        · rintro ⟨e2, he2, hc2, ht2, hm2⟩
          rcases List.mem_append.1 he2 with hm | hm
          · exact ⟨e2, hm, hc2, ht2, hm2⟩
          · have hee := List.mem_singleton.1 hm
            rw [hee] at hc2
            exact absurd hc2 hcomb
      · intro a c
        refine Iff.trans (hedge.eright a c) ?_
        constructor
        · rintro ⟨e2, he2, hc2, ht2, hm2⟩
          exact ⟨e2, List.mem_append_left _ he2, hc2, ht2, hm2⟩
        · rintro ⟨e2, he2, hc2, ht2, hm2⟩
          rcases List.mem_append.1 he2 with hm | hm
          · exact ⟨e2, hm, hc2, ht2, hm2⟩
          · have hee := List.mem_singleton.1 hm
            rw [hee] at hc2
            exact absurd hc2 hcomb
    · intro w
      refine Iff.trans (horig w) ?_
      constructor
      · rintro (h | h)
        · exact Or.inl h
        · obtain ⟨e2, he2, hc2, hor⟩ := h
          exact Or.inr ⟨e2, List.mem_append_left _ he2, hc2, hor⟩
      · rintro (h | h)
        · exact Or.inl h
        · obtain ⟨e2, he2, hc2, hor⟩ := h
          rcases List.mem_append.1 he2 with hm | hm
          · exact Or.inr ⟨e2, hm, hc2, hor⟩
          · have hee := List.mem_singleton.1 hm
            rw [hee] at hc2
            exact absurd hc2 hcomb
  case pos =>
    have horigS : ∀ w, (relabeledVertex P w ∨ endpointIn done w) →
        ∃ s, (w, s) ∈ (b, vm).2 := fun w h => (horig w).2 h
    obtain ⟨hcore1, hedge1, horig1, hex1, hsub1⟩ :=
      minimalEdgeEndpoint_inv P done (b, vm) e.1 hcore hedge horigS
    have horigS1 : ∀ w, (relabeledVertex P w ∨ endpointIn done w) →
        ∃ s, (w, s) ∈ (minimalEdgeEndpoint (b, vm) e.1).2 := by
      intro w h
      obtain ⟨s, hs⟩ := (horig w).2 h
      exact ⟨s, hsub1 _ hs⟩
    obtain ⟨hcore2, hedge2, horig2, hex2, hsub2⟩ :=
      minimalEdgeEndpoint_inv P done (minimalEdgeEndpoint (b, vm) e.1) e.2.1
        hcore1 hedge1 horigS1
    obtain ⟨sa, hsa⟩ : ∃ s, (e.1, s) ∈
        (minimalEdgeEndpoint (minimalEdgeEndpoint (b, vm) e.1) e.2.1).2 := by
      obtain ⟨s, hs⟩ := hex1
      exact ⟨s, hsub2 _ hs⟩
    obtain ⟨sb, hsb⟩ := hex2
    have hlooka : mapLookup
        (minimalEdgeEndpoint (minimalEdgeEndpoint (b, vm) e.1) e.2.1).2 e.1 = some sa :=
      mem_mapLookup hcore2.keysnd hsa
    have hlookb : mapLookup
        (minimalEdgeEndpoint (minimalEdgeEndpoint (b, vm) e.1) e.2.1).2 e.2.1 = some sb :=
      mem_mapLookup hcore2.keysnd hsb
    have hnotdone : ∀ e2 ∈ done, mkEdgeTuple e2.1 e2.2.1 ≠ mkEdgeTuple e.1 e.2.1 := by
      intro e2 he2 hceq
      have hnd := hedup
      rw [hPsplit, List.map_append, List.map_cons] at hnd
      exact (List.nodup_append.1 hnd).2.2
        (List.mem_map.2 ⟨e2, he2, rfl⟩) (by rw [hceq]; exact List.mem_cons_self _ _)
    have hmapped_contra : ∀ e2 ∈ done,
        ¬ mappedEdge (minimalEdgeEndpoint (minimalEdgeEndpoint (b, vm) e.1) e.2.1).2 e2
          (BElem.edg (min sa sb) (max sa sb)) := by
      rintro e2 he2 ⟨sa2, sb2, hsa2, hsb2, hx⟩
      simp only [mkEdgeTuple, BElem.edg.injEq] at hx
      have hcases : (sa2 = sa ∧ sb2 = sb) ∨ (sa2 = sb ∧ sb2 = sa) := by omega
      rcases hcases with ⟨h1, h2⟩ | ⟨h1, h2⟩
      · have ha := snd_unique_of_vm hcore2.sids (h1 ▸ hsa2) hsa
        have hb := snd_unique_of_vm hcore2.sids (h2 ▸ hsb2) hsb
        exact hnotdone e2 he2 (by rw [ha, hb])
      · have ha := snd_unique_of_vm hcore2.sids (h1 ▸ hsa2) hsb
        have hb := snd_unique_of_vm hcore2.sids (h2 ▸ hsb2) hsa
        exact hnotdone e2 he2 (by rw [ha, hb, mkEdgeTuple_comm])
    have hfL : sgHas (minimalEdgeEndpoint (minimalEdgeEndpoint (b, vm) e.1) e.2.1).1.left
        (mkEdgeTuple sa sb) = false := by
      apply bool_false_of_not
      intro hhas
      obtain ⟨e2, he2, _, _, hm2⟩ := (hedge2.eleft (min sa sb) (max sa sb)).1 hhas
      exact hmapped_contra e2 he2 hm2
    have hfR : sgHas (minimalEdgeEndpoint (minimalEdgeEndpoint (b, vm) e.1) e.2.1).1.right
        (mkEdgeTuple sa sb) = false := by
      apply bool_false_of_not
      intro hhas
      obtain ⟨e2, he2, _, _, hm2⟩ := (hedge2.eright (min sa sb) (max sa sb)).1 hhas
      exact hmapped_contra e2 he2 hm2
    have hfC : sgHas (minimalEdgeEndpoint (minimalEdgeEndpoint (b, vm) e.1) e.2.1).1.context
        (mkEdgeTuple sa sb) = false := hcore2.ectx (min sa sb) (max sa sb)
    have hcov : ∀ w i, (w, i) ∈
        (minimalEdgeEndpoint (minimalEdgeEndpoint (b, vm) e.1) e.2.1).2 →
        (w = e.1 ∨ w = e.2.1) →
        (truthy (splitLabel e.2.2).1 = true →
          sgHas (minimalEdgeEndpoint (minimalEdgeEndpoint (b, vm) e.1) e.2.1).1.left
              (BElem.vtx i) = true ∨
            sgHas (minimalEdgeEndpoint (minimalEdgeEndpoint (b, vm) e.1) e.2.1).1.context
              (BElem.vtx i) = true) ∧
        (truthy (splitLabel e.2.2).2 = true →
          sgHas (minimalEdgeEndpoint (minimalEdgeEndpoint (b, vm) e.1) e.2.1).1.right
              (BElem.vtx i) = true ∨
            sgHas (minimalEdgeEndpoint (minimalEdgeEndpoint (b, vm) e.1) e.2.1).1.context
              (BElem.vtx i) = true) := by
      intro w i hwi hwe
      by_cases hrel : relabeledVertex P w
      · obtain ⟨lab2, hlmem, hlc⟩ := hrel
        have hr := hcore2.rside w i lab2 hwi hlmem hlc
        have hs := hside (w, lab2) hlmem hcomb (by exact hwe) hlc
        exact ⟨fun hl => by rw [hr.1, hs.1 hl]; exact Or.inl rfl,
          fun hr2 => by rw [hr.2.1, hs.2 hr2]; exact Or.inl rfl⟩
      · have hcs := hcore2.cside w i hwi hrel
        exact ⟨fun _ => Or.inr hcs.1, fun _ => Or.inr hcs.1⟩
    have hior : ∀ i, i ∈ edgeVertexIds (mkEdgeTuple sa sb) → i = sa ∨ i = sb := by
      intro i hi
      simp only [mkEdgeTuple, edgeVertexIds, List.mem_cons, List.mem_singleton,
        List.not_mem_nil, or_false] at hi
      omega
    have hcovL : truthy (splitLabel e.2.2).1 = true →
        ∀ i ∈ edgeVertexIds (mkEdgeTuple sa sb),
          sgHas (minimalEdgeEndpoint (minimalEdgeEndpoint (b, vm) e.1) e.2.1).1.left
              (BElem.vtx i) = true ∨
            sgHas (minimalEdgeEndpoint (minimalEdgeEndpoint (b, vm) e.1) e.2.1).1.context
              (BElem.vtx i) = true := by
      intro hl i hi
      rcases hior i hi with h | h
      · subst h
        exact (hcov e.1 i hsa (Or.inl rfl)).1 hl
      · subst h
        exact (hcov e.2.1 i hsb (Or.inr rfl)).1 hl
    have hcovR : truthy (splitLabel e.2.2).2 = true →
        ∀ i ∈ edgeVertexIds (mkEdgeTuple sa sb),
          sgHas (minimalEdgeEndpoint (minimalEdgeEndpoint (b, vm) e.1) e.2.1).1.right
              (BElem.vtx i) = true ∨
            sgHas (minimalEdgeEndpoint (minimalEdgeEndpoint (b, vm) e.1) e.2.1).1.context
              (BElem.vtx i) = true := by
      intro hr2 i hi
      rcases hior i hi with h | h
      · subst h
        exact (hcov e.1 i hsa (Or.inl rfl)).2 hr2
      · subst h
        exact (hcov e.2.1 i hsb (Or.inr rfl)).2 hr2
    have hstepEq : minimalEdgeStep (b, vm) e =
        (if truthy (splitLabel e.2.2).2 = true then
           addRightEdge
             (if truthy (splitLabel e.2.2).1 = true then
               addLeftEdge
                 (minimalEdgeEndpoint (minimalEdgeEndpoint (b, vm) e.1) e.2.1).1 sa sb "*"
              else (minimalEdgeEndpoint (minimalEdgeEndpoint (b, vm) e.1) e.2.1).1)
             sa sb (((splitLabel e.2.2).2).getD "")
         else if truthy (splitLabel e.2.2).1 = true then
           addLeftEdge
             (minimalEdgeEndpoint (minimalEdgeEndpoint (b, vm) e.1) e.2.1).1 sa sb "*"
         else (minimalEdgeEndpoint (minimalEdgeEndpoint (b, vm) e.1) e.2.1).1,
         (minimalEdgeEndpoint (minimalEdgeEndpoint (b, vm) e.1) e.2.1).2) := by
      unfold minimalEdgeStep
      rw [if_pos hcomb]
      simp only [hlooka, hlookb, Option.getD_some]
    rw [hstepEq, edgeAdds_spec _ sa sb e.2.2 (hstar hcomb) hfL hfC hfR hcovL hcovR]
    have hP1 := sgHasIteApp
      (minimalEdgeEndpoint (minimalEdgeEndpoint (b, vm) e.1) e.2.1).1.left
      (mkEdgeTuple sa sb) "*" (truthy (splitLabel e.2.2).1)
    have hP2 := sgHasIteApp
      (minimalEdgeEndpoint (minimalEdgeEndpoint (b, vm) e.1) e.2.1).1.right
      (mkEdgeTuple sa sb) (((splitLabel e.2.2).2).getD "") (truthy (splitLabel e.2.2).2)
    have hxv : ∀ i, (mkEdgeTuple sa sb == BElem.vtx i) = false := by
      intro i
      simp [mkEdgeTuple]
    refine ⟨?_, ?_, ?_⟩
    · constructor
      · exact hcore2.sids
      · exact hcore2.keysnd
      · intro i
        unfold vtxKey
        simp only [hP1, hP2, hxv, Bool.and_false, Bool.or_false]
        have hids := hcore2.ids i
        unfold vtxKey at hids
        exact hids
      · intro w s lab2 hmemvm hmemP hlabc
        simp only [hP1, hP2, hxv, Bool.and_false, Bool.or_false]
        exact hcore2.rside w s lab2 hmemvm hmemP hlabc
      · intro w s hmemvm hnrel
        simp only [hP1, hP2, hxv, Bool.and_false, Bool.or_false]
        exact hcore2.cside w s hmemvm hnrel
      · intro a c
        exact hcore2.ectx a c
      · intro p hp
        have hp2 : p ∈ (if truthy (splitLabel e.2.2).1 = true then
            (minimalEdgeEndpoint (minimalEdgeEndpoint (b, vm) e.1) e.2.1).1.left ++
              [(mkEdgeTuple sa sb, "*")]
          else (minimalEdgeEndpoint (minimalEdgeEndpoint (b, vm) e.1) e.2.1).1.left) := hp
        by_cases hl : truthy (splitLabel e.2.2).1 = true
        · rw [if_pos hl] at hp2
          rcases List.mem_append.1 hp2 with h | h
          · exact hcore2.lstar p h
          · rw [List.mem_singleton.1 h]
        · rw [if_neg hl] at hp2
          exact hcore2.lstar p hp2
      · intro p hp
        have hp2 : p ∈ (if truthy (splitLabel e.2.2).2 = true then
            (minimalEdgeEndpoint (minimalEdgeEndpoint (b, vm) e.1) e.2.1).1.right ++
              [(mkEdgeTuple sa sb, ((splitLabel e.2.2).2).getD "")]
          else (minimalEdgeEndpoint (minimalEdgeEndpoint (b, vm) e.1) e.2.1).1.right) := hp
        by_cases hr : truthy (splitLabel e.2.2).2 = true
        · rw [if_pos hr] at hp2
          rcases List.mem_append.1 hp2 with h | h
          · exact hcore2.rgood p h
          · rw [List.mem_singleton.1 h]
            exact ⟨getD_ne_star _ (hstar hcomb) hr, getD_data_ne_nil _ hr⟩
        · rw [if_neg hr] at hp2
          exact hcore2.rgood p hp2
    · constructor
      · intro a c
        simp only [hP1, Bool.or_eq_true, Bool.and_eq_true, beq_iff_eq]
        constructor
        · rintro (h | ⟨hcl, hxeq⟩)
          · obtain ⟨e2, he2, hc2, ht2, hm2⟩ := (hedge2.eleft a c).1 h
            exact ⟨e2, List.mem_append_left _ he2, hc2, ht2, hm2⟩
          · exact ⟨e, List.mem_append_right _ (List.mem_singleton.2 rfl), hcomb, hcl,
              sa, sb, hsa, hsb, hxeq.symm⟩
        · rintro ⟨e2, he2, hc2, ht2, sa2, sb2, hsa2, hsb2, hx2⟩
          rcases List.mem_append.1 he2 with hm | hm
          · exact Or.inl ((hedge2.eleft a c).2 ⟨e2, hm, hc2, ht2, sa2, sb2, hsa2, hsb2, hx2⟩)
          · have hee := List.mem_singleton.1 hm
            subst hee
            have h1 := (mem_mapLookup hcore2.keysnd hsa2).symm.trans hlooka
            have h2 := (mem_mapLookup hcore2.keysnd hsb2).symm.trans hlookb
            injection h1 with h1b
            injection h2 with h2b
            refine Or.inr ⟨ht2, ?_⟩
            rw [← h1b, ← h2b]
            exact hx2.symm
      · intro a c
        simp only [hP2, Bool.or_eq_true, Bool.and_eq_true, beq_iff_eq]
        constructor
        · rintro (h | ⟨hcl, hxeq⟩)
          · obtain ⟨e2, he2, hc2, ht2, hm2⟩ := (hedge2.eright a c).1 h
            exact ⟨e2, List.mem_append_left _ he2, hc2, ht2, hm2⟩
          · exact ⟨e, List.mem_append_right _ (List.mem_singleton.2 rfl), hcomb, hcl,
              sa, sb, hsa, hsb, hxeq.symm⟩
        · rintro ⟨e2, he2, hc2, ht2, sa2, sb2, hsa2, hsb2, hx2⟩
          rcases List.mem_append.1 he2 with hm | hm
          · exact Or.inl ((hedge2.eright a c).2 ⟨e2, hm, hc2, ht2, sa2, sb2, hsa2, hsb2, hx2⟩)
          · have hee := List.mem_singleton.1 hm
            subst hee
            have h1 := (mem_mapLookup hcore2.keysnd hsa2).symm.trans hlooka
            have h2 := (mem_mapLookup hcore2.keysnd hsb2).symm.trans hlookb
            injection h1 with h1b
            injection h2 with h2b
            refine Or.inr ⟨ht2, ?_⟩
            rw [← h1b, ← h2b]
            exact hx2.symm
    · intro w
      refine Iff.trans (horig2 w) ?_
      constructor
      · rintro (h1 | h1)
        · rcases (horig1 w).1 h1 with h2 | h2
          · rcases (horig w).1 h2 with h3 | h3
            · exact Or.inl h3
            · obtain ⟨e2, he2, hc2, hor⟩ := h3
              exact Or.inr ⟨e2, List.mem_append_left _ he2, hc2, hor⟩
          · exact Or.inr ⟨e, List.mem_append_right _ (List.mem_singleton.2 rfl),
              hcomb, Or.inl h2.symm⟩
        · exact Or.inr ⟨e, List.mem_append_right _ (List.mem_singleton.2 rfl),
            hcomb, Or.inr h1.symm⟩
      · rintro (h1 | h1)
        · exact Or.inl ((horig1 w).2 (Or.inl ((horig w).2 (Or.inl h1))))
        · obtain ⟨e2, he2, hc2, hor⟩ := h1
          rcases List.mem_append.1 he2 with hm | hm
          · exact Or.inl ((horig1 w).2 (Or.inl ((horig w).2 (Or.inr ⟨e2, hm, hc2, hor⟩))))
          · have hee := List.mem_singleton.1 hm
            subst hee
            rcases hor with h | h
            · exact Or.inl ((horig1 w).2 (Or.inr h.symm))
            · exact Or.inr h.symm

theorem minimalEdgeFold_inv (P : CGraph)
    (hedup : (P.edges.map (fun e2 => mkEdgeTuple e2.1 e2.2.1)).Nodup)
    (hstarE : ∀ e ∈ P.edges, isCombined e.2.2 = true → (splitLabel e.2.2).2 ≠ some "*")
    (hsideE : ∀ e ∈ P.edges, ∀ vl ∈ P.vertices, isCombined e.2.2 = true →
      (vl.1 = e.1 ∨ vl.1 = e.2.1) → isCombined vl.2 = true →
      (truthy (splitLabel e.2.2).1 = true → truthy (splitLabel vl.2).1 = true) ∧
      (truthy (splitLabel e.2.2).2 = true → truthy (splitLabel vl.2).2 = true)) :
    ∀ (es done : List (Nat × Nat × String)) (b : Builder) (vm : List (Nat × Nat)),
      P.edges = done ++ es → CoreInv P b vm → EdgeInv P done b vm →
      (∀ w, (∃ s, (w, s) ∈ vm) ↔ (relabeledVertex P w ∨ endpointIn done w)) →
      CoreInv P (es.foldl minimalEdgeStep (b, vm)).1
          (es.foldl minimalEdgeStep (b, vm)).2 ∧
        EdgeInv P (done ++ es) (es.foldl minimalEdgeStep (b, vm)).1
          (es.foldl minimalEdgeStep (b, vm)).2 ∧
        (∀ w, (∃ s, (w, s) ∈ (es.foldl minimalEdgeStep (b, vm)).2) ↔
          (relabeledVertex P w ∨ endpointIn (done ++ es) w)) := by
  intro es
  induction es with
  | nil =>
    intro done b vm _ hcore hedge horig
    refine ⟨hcore, ?_, ?_⟩
    · rw [List.append_nil]
      exact hedge
    · intro w
      rw [List.append_nil]
      exact horig w
  | cons e0 es ih =>
    intro done b vm hsplit hcore hedge horig
    rw [List.foldl_cons]
    have hmem0 : e0 ∈ P.edges := by
      rw [hsplit]
      exact List.mem_append_right _ (List.mem_cons_self _ _)
    obtain ⟨hcore1, hedge1, horig1⟩ :=
      minimalEdgeStep_inv P done es e0 hsplit hedup (hstarE e0 hmem0) (hsideE e0 hmem0)
        b vm hcore hedge horig
    have hsplit2 : P.edges = (done ++ [e0]) ++ es := by
      rw [hsplit, List.append_assoc]
      rfl
    have hres := ih (done ++ [e0]) (minimalEdgeStep (b, vm) e0).1
      (minimalEdgeStep (b, vm) e0).2 hsplit2 hcore1 hedge1 horig1
    refine ⟨hres.1, ?_, ?_⟩
    · have h2 := hres.2.1
      rw [List.append_assoc] at h2
      exact h2
    · intro w
      have h3 := hres.2.2 w
      rw [List.append_assoc] at h3
      exact h3

theorem minimalBuilder_inv (P : CGraph)
    (hvnd : (P.vertices.map Prod.fst).Nodup)
    (hhalfV : ∀ v ∈ P.vertices, isCombined v.2 = true →
      truthy (splitLabel v.2).1 = true ∨ truthy (splitLabel v.2).2 = true)
    (hstarV : ∀ v ∈ P.vertices, isCombined v.2 = true → (splitLabel v.2).2 ≠ some "*")
    (hedup : (P.edges.map (fun e2 => mkEdgeTuple e2.1 e2.2.1)).Nodup)
    (hstarE : ∀ e ∈ P.edges, isCombined e.2.2 = true → (splitLabel e.2.2).2 ≠ some "*")
    (hsideE : ∀ e ∈ P.edges, ∀ vl ∈ P.vertices, isCombined e.2.2 = true →
      (vl.1 = e.1 ∨ vl.1 = e.2.1) → isCombined vl.2 = true →
      (truthy (splitLabel e.2.2).1 = true → truthy (splitLabel vl.2).1 = true) ∧
      (truthy (splitLabel e.2.2).2 = true → truthy (splitLabel vl.2).2 = true)) :
    CoreInv P (minimalBuilder P).1 (minimalBuilder P).2 ∧
    EdgeInv P P.edges (minimalBuilder P).1 (minimalBuilder P).2 ∧
    (∀ w, (∃ s, (w, s) ∈ (minimalBuilder P).2) ↔
      (relabeledVertex P w ∨ endpointIn P.edges w)) := by
  have hcore0 : CoreInv P { left := [], context := [], right := [] } [] := by
    constructor
    · rfl
    · exact List.nodup_nil
    · intro i
      constructor
      · rintro (h | h | h) <;> cases h
      · intro h
        exact absurd h (Nat.not_lt_zero i)
    · intro v s lab h
      exact absurd h (List.not_mem_nil _)
    · intro v s h
      exact absurd h (List.not_mem_nil _)
    · intro a c
      rfl
    · intro p hp
      exact absurd hp (List.not_mem_nil _)
    · intro p hp
      exact absurd hp (List.not_mem_nil _)
  have hedge0 : EdgeInv P [] { left := [], context := [], right := [] } [] := by
    constructor
    · intro a c
      constructor
      · intro h
        cases h
      · rintro ⟨e, he, _⟩
        exact absurd he (List.not_mem_nil e)
    · intro a c
      constructor
      · intro h
        cases h
      · rintro ⟨e, he, _⟩
        exact absurd he (List.not_mem_nil e)
  have horig0 : ∀ v, (∃ s, (v, s) ∈ ([] : List (Nat × Nat))) ↔
      ∃ lab, (v, lab) ∈ ([] : List (Nat × String)) ∧ isCombined lab = true := by
    intro v
    constructor
    · rintro ⟨s, hs⟩
      exact absurd hs (List.not_mem_nil _)
    · rintro ⟨lab, hm, _⟩
      exact absurd hm (List.not_mem_nil _)
  have hv := minimalVertexFold_inv P hvnd hhalfV hstarV P.vertices []
    { left := [], context := [], right := [] } [] rfl hcore0 hedge0 horig0
  have horigV : ∀ w, (∃ s, (w, s) ∈
      (P.vertices.foldl minimalVertexStep
        ({ left := [], context := [], right := [] }, [])).2) ↔
      (relabeledVertex P w ∨ endpointIn [] w) := by
    intro w
    rw [hv.2.2 w]
    constructor
    · rintro ⟨lab, hm, hc⟩
      exact Or.inl ⟨lab, hm, hc⟩
    · rintro (⟨lab, hm, hc⟩ | h)
      · exact ⟨lab, hm, hc⟩
      · obtain ⟨e2, he2, _⟩ := h
        exact absurd he2 (List.not_mem_nil _)
  have he := minimalEdgeFold_inv P hedup hstarE hsideE P.edges []
    (P.vertices.foldl minimalVertexStep
      ({ left := [], context := [], right := [] }, [])).1
    (P.vertices.foldl minimalVertexStep
      ({ left := [], context := [], right := [] }, [])).2
    rfl hv.1 hv.2.1 horigV
  exact ⟨he.1, he.2.1, he.2.2⟩

theorem mem_dedupF {α : Type} [DecidableEq α] (l : List α) (x : α) :
    x ∈ dedupF l ↔ x ∈ l := by
  induction l with
  | nil => exact Iff.rfl
  | cons a as ih =>
    simp only [dedupF, List.mem_cons, List.mem_filter, ih, decide_eq_true_eq, ne_eq]
    by_cases hxa : x = a
    · simp [hxa]
    · simp [hxa]

theorem mem_builderElems (b : Builder) (x : BElem) :
    x ∈ builderElems b ↔ (sgHas b.left x = true ∨ sgHas b.context x = true ∨
      sgHas b.right x = true) := by
  unfold builderElems
  rw [mem_dedupF]
  unfold sgHas
  simp only [List.map_append, List.mem_append, List.mem_map, List.any_eq_true,
    beq_iff_eq]
  constructor
  · rintro ((h | h) | h)
    · exact Or.inl h
    · exact Or.inr (Or.inl h)
    · exact Or.inr (Or.inr h)
  · rintro (h | h | h)
    · exact Or.inl (Or.inl h)
    · exact Or.inl (Or.inr h)
    · exact Or.inr h

theorem subVertices_iff (b : Builder) (s : Nat) :
    (∃ lab, (s, lab) ∈ (builderToCombined b).vertices) ↔ vtxKey b s := by
  unfold builderToCombined
  simp only [List.mem_filterMap]
  constructor
  · rintro ⟨lab, x, hx, hmatch⟩
    cases x with
    | vtx i =>
      have heq : (i, combineLabels (sideLookup b.left b.context (BElem.vtx i))
          (sideLookup b.right b.context (BElem.vtx i))) = (s, lab) := by
        injection hmatch
      have hi : i = s := congrArg Prod.fst heq
      have hmem := (mem_builderElems b (BElem.vtx i)).1 hx
      rw [hi] at hmem
      exact hmem
    | edg u v => exact Option.noConfusion hmatch
  · intro hkey
    exact ⟨combineLabels (sideLookup b.left b.context (BElem.vtx s))
        (sideLookup b.right b.context (BElem.vtx s)), BElem.vtx s,
      (mem_builderElems b (BElem.vtx s)).2 hkey, rfl⟩

theorem subEdges_elem (b : Builder) (a c : Nat) (lab : String)
    (h : (a, c, lab) ∈ (builderToCombined b).edges) :
    BElem.edg a c ∈ builderElems b := by
  unfold builderToCombined at h
  simp only [List.mem_filterMap] at h
  obtain ⟨x, hx, hmatch⟩ := h
  cases x with
  | vtx i => exact Option.noConfusion hmatch
  | edg u v =>
    have heq : (u, v, combineLabels (sideLookup b.left b.context (BElem.edg u v))
        (sideLookup b.right b.context (BElem.edg u v))) = (a, c, lab) := by
      injection hmatch
    have hu : u = a := congrArg Prod.fst heq
    have hv : v = c := congrArg (fun t => t.2.1) heq
    rw [hu, hv] at hx
    exact hx

theorem subEdges_of_elem (b : Builder) (u v : Nat)
    (h : BElem.edg u v ∈ builderElems b) :
    ∃ lab, (u, v, lab) ∈ (builderToCombined b).edges := by
  refine ⟨combineLabels (sideLookup b.left b.context (BElem.edg u v))
      (sideLookup b.right b.context (BElem.edg u v)), ?_⟩
  unfold builderToCombined
  simp only [List.mem_filterMap]
  exact ⟨BElem.edg u v, h, rfl⟩

theorem subEdges_of_elem_label (b : Builder) (u v : Nat)
    (h : BElem.edg u v ∈ builderElems b) :
    (u, v, combineLabels (sideLookup b.left b.context (BElem.edg u v))
      (sideLookup b.right b.context (BElem.edg u v))) ∈ (builderToCombined b).edges := by
  unfold builderToCombined
  simp only [List.mem_filterMap]
  exact ⟨BElem.edg u v, h, rfl⟩

theorem sgLabel_mem (sg : SideGraph) (x : BElem) (h : sgHas sg x = true) :
    ∃ p ∈ sg, p.1 = x ∧ sgLabel sg x = p.2 := by
  cases hf : sg.find? (fun q => q.1 == x) with
  | none =>
    rw [List.find?_eq_none] at hf
    obtain ⟨p, hp, hbeq⟩ := List.any_eq_true.1 h
    exact absurd hbeq (hf p hp)
  | some q =>
    refine ⟨q, List.mem_of_find?_eq_some hf, ?_, ?_⟩
    · have hq := List.find?_some hf
      simpa using hq
    · unfold sgLabel
      rw [hf]
      rfl

theorem sideLookup_pos (sg ctx : SideGraph) (x : BElem) (h : sgHas sg x = true) :
    sideLookup sg ctx x = some (sgLabel sg x) := by
  unfold sideLookup
  rw [if_pos h]

theorem sideLookup_neg (sg ctx : SideGraph) (x : BElem) (h : sgHas sg x = false)
    (hc : sgHas ctx x = false) : sideLookup sg ctx x = none := by
  unfold sideLookup
  rw [if_neg (by rw [h]; exact Bool.false_ne_true),
    if_neg (by rw [hc]; exact Bool.false_ne_true)]

theorem combined_of_sides (b : Builder)
    (lstar : ∀ p ∈ b.left, p.2 = "*")
    (rgood : ∀ p ∈ b.right, p.2 ≠ "*" ∧ p.2.data ≠ [])
    (x : BElem) (hctx : sgHas b.context x = false)
    (hor : sgHas b.left x = true ∨ sgHas b.right x = true) :
    isCombined (combineLabels (sideLookup b.left b.context x)
      (sideLookup b.right b.context x)) = true := by
  by_cases hL : sgHas b.left x = true <;> by_cases hR : sgHas b.right x = true
  · obtain ⟨p, hp, _, hpl⟩ := sgLabel_mem b.left x hL
    obtain ⟨q, hq, _, hql⟩ := sgLabel_mem b.right x hR
    rw [sideLookup_pos _ _ _ hL, sideLookup_pos _ _ _ hR, hpl, hql, lstar p hp]
    unfold combineLabels
    simp only [Option.getD_some]
    rw [if_pos (Ne.symm (rgood q hq).1)]
    exact isCombined_true _ (by simp)
  · obtain ⟨p, hp, _, hpl⟩ := sgLabel_mem b.left x hL
    rw [sideLookup_pos _ _ _ hL, sideLookup_neg _ _ _ (bool_false_of_not hR) hctx,
      hpl, lstar p hp]
    unfold combineLabels
    simp only [Option.getD_some, Option.getD_none]
    rw [if_pos (by decide)]
    exact isCombined_true _ (by simp)
  · obtain ⟨q, hq, _, hql⟩ := sgLabel_mem b.right x hR
    rw [sideLookup_neg _ _ _ (bool_false_of_not hL) hctx, sideLookup_pos _ _ _ hR, hql]
    unfold combineLabels
    simp only [Option.getD_some, Option.getD_none]
    have hne : ("" : String) ≠ q.2 := by
      intro hc
      exact (rgood q hq).2 (by rw [← hc])
    rw [if_pos hne]
    exact isCombined_true _ (by simp)
  · rcases hor with hh | hh
    · exact absurd hh hL
    · exact absurd hh hR

theorem find_vtx_label (L C R : SideGraph) :
    ∀ (elems : List BElem) (i : Nat), BElem.vtx i ∈ elems →
    ((elems.filterMap (fun x =>
      match x with
      | BElem.vtx k =>
        some (k, combineLabels (sideLookup L C x) (sideLookup R C x))
      | BElem.edg _ _ => none)).find? (fun p => p.1 == i)) =
      some (i, combineLabels (sideLookup L C (BElem.vtx i))
        (sideLookup R C (BElem.vtx i))) := by
  intro elems
  induction elems with
  | nil =>
    intro i h
    exact absurd h (List.not_mem_nil _)
  | cons x xs ih =>
    intro i h
    cases x with
    | vtx j =>
      show (((j, combineLabels (sideLookup L C (BElem.vtx j)) (sideLookup R C (BElem.vtx j))) ::
          xs.filterMap (fun x =>
            match x with
            | BElem.vtx k => some (k, combineLabels (sideLookup L C x) (sideLookup R C x))
            | BElem.edg _ _ => none)).find? (fun p => p.1 == i)) =
        some (i, combineLabels (sideLookup L C (BElem.vtx i)) (sideLookup R C (BElem.vtx i)))
      by_cases hji : j = i
      · subst hji
        rw [List.find?_cons_of_pos _ (by simp)]
      · rw [List.find?_cons_of_neg _ (by simpa using hji)]
        have h2 : BElem.vtx i ∈ xs := by
          rcases List.mem_cons.1 h with hh | hh
          · injection hh with hk
            exact absurd hk.symm hji
          · exact hh
        exact ih i h2
    | edg u v2 =>
      have h2 : BElem.vtx i ∈ xs := by
        rcases List.mem_cons.1 h with hh | hh
        · exact absurd hh (by simp)
        · exact hh
      exact ih i h2

theorem cgVertexLabel_builder (b : Builder) (i : Nat)
    (h : BElem.vtx i ∈ builderElems b) :
    cgVertexLabel (builderToCombined b) i =
      combineLabels (sideLookup b.left b.context (BElem.vtx i))
        (sideLookup b.right b.context (BElem.vtx i)) := by
  unfold cgVertexLabel
  have hv : (builderToCombined b).vertices = (builderElems b).filterMap (fun x =>
      match x with
      | BElem.vtx k =>
        some (k, combineLabels (sideLookup b.left b.context x)
          (sideLookup b.right b.context x))
      | BElem.edg _ _ => none) := rfl
  rw [hv, find_vtx_label b.left b.context b.right (builderElems b) i h]
  rfl

theorem mem_reachStep_self (g : CGraph) (s : List Nat) (x : Nat) (h : x ∈ s) :
    x ∈ reachStep g s := by
  unfold reachStep
  rw [mem_dedupF]
  exact List.mem_append_left _ h

theorem mem_reachIter_self (g : CGraph) : ∀ (n : Nat) (s : List Nat) (x : Nat),
    x ∈ s → x ∈ reachIter g n s := by
  intro n
  induction n with
  | zero =>
    intro s x h
    exact h
  | succ m ih =>
    intro s x h
    exact ih (reachStep g s) x (mem_reachStep_self g s x h)

theorem mem_componentOf_self (g : CGraph) (v : Nat) : v ∈ componentOf g v := by
  unfold componentOf
  rw [mem_sortWith]
  exact mem_reachIter_self g _ [v] v (List.mem_singleton.2 rfl)

theorem principalAugment_fold (g : CGraph) :
    ∀ (comps : List (List Nat)),
      (∀ comp ∈ comps, ∃ v, v ∈ comp ∧ modifiedNode g v = true) →
      ∀ (pr : List Nat) (ne : List (Nat × Nat × String)),
      (∀ x ∈ ne, x.2.2 = "no_edge") →
      ∃ pr2 ne2, comps.foldl (fun acc comp =>
          match acc with
          | none => none
          | some (principal, newEdges) =>
            let fresh := comp.filter (modifiedNode g)
            if fresh.isEmpty then none
            else some (principal ++ fresh,
              newEdges ++ fresh.flatMap (fun m => principal.map (fun p => (p, m, "no_edge"))))
        ) (some (pr, ne)) = some (pr2, ne2) ∧ (∀ x ∈ ne2, x.2.2 = "no_edge") := by
  intro comps
  induction comps with
  | nil =>
    intro _ pr ne hne
    exact ⟨pr, ne, rfl, hne⟩
  | cons comp comps ih =>
    intro hw pr ne hne
    rw [List.foldl_cons]
    obtain ⟨v, hv, hvmod⟩ := hw comp (List.mem_cons_self _ _)
    have hfr : v ∈ comp.filter (modifiedNode g) := List.mem_filter.2 ⟨hv, hvmod⟩
    have hfe : (comp.filter (modifiedNode g)).isEmpty = false := by
      cases hfl : comp.filter (modifiedNode g) with
      | nil =>
        rw [hfl] at hfr
        exact absurd hfr (List.not_mem_nil _)
      | cons a as => rfl
    simp only [hfe, Bool.false_eq_true, if_false]
    refine ih (fun c hc => hw c (List.mem_cons_of_mem _ hc)) _ _ ?_
    intro x hx
    rcases List.mem_append.1 hx with h | h
    · exact hne x h
    · obtain ⟨m, hm, hx2⟩ := List.mem_flatMap.1 h
      obtain ⟨p, hp2, hx3⟩ := List.mem_map.1 hx2
      rw [← hx3]

theorem nxGraphToModGraph_spec (g : CGraph)
    (hmod : ∀ pr ∈ g.vertices, modifiedNode g pr.1 = true) :
    ∃ ne, nxGraphToModGraph g = some { g with edges := g.edges ++ ne } ∧
      ∀ x ∈ ne, x.2.2 = "no_edge" := by
  unfold nxGraphToModGraph
  by_cases h : (componentsC g).length > 1
  · rw [if_pos h]
    have hw : ∀ comp ∈ componentsC g, ∃ v, v ∈ comp ∧ modifiedNode g v = true := by
      intro comp hcomp
      unfold componentsC at hcomp
      rw [mem_dedupF] at hcomp
      obtain ⟨pr, hpr, hceq⟩ := List.mem_map.1 hcomp
      refine ⟨pr.1, ?_, hmod pr hpr⟩
      rw [← hceq]
      exact mem_componentOf_self g pr.1
    obtain ⟨pr2, ne2, hfold, hne2⟩ := principalAugment_fold g (componentsC g) hw [] []
      (fun x hx => absurd hx (List.not_mem_nil x))
    refine ⟨ne2, ?_, hne2⟩
    unfold principalAugment
    rw [hfold]
    rfl
  · rw [if_neg h]
    refine ⟨[], ?_, fun x hx => absurd hx (List.not_mem_nil x)⟩
    rw [List.append_nil]

theorem builder_vertices_modified (P : CGraph)
    (hvnd : (P.vertices.map Prod.fst).Nodup)
    (hhalfV : ∀ v ∈ P.vertices, isCombined v.2 = true →
      truthy (splitLabel v.2).1 = true ∨ truthy (splitLabel v.2).2 = true)
    (hstarV : ∀ v ∈ P.vertices, isCombined v.2 = true → (splitLabel v.2).2 ≠ some "*")
    (hedup : (P.edges.map (fun e2 => mkEdgeTuple e2.1 e2.2.1)).Nodup)
    (hhalfE : ∀ e ∈ P.edges, isCombined e.2.2 = true →
      truthy (splitLabel e.2.2).1 = true ∨ truthy (splitLabel e.2.2).2 = true)
    (hstarE : ∀ e ∈ P.edges, isCombined e.2.2 = true → (splitLabel e.2.2).2 ≠ some "*")
    (hsideE : ∀ e ∈ P.edges, ∀ vl ∈ P.vertices, isCombined e.2.2 = true →
      (vl.1 = e.1 ∨ vl.1 = e.2.1) → isCombined vl.2 = true →
      (truthy (splitLabel e.2.2).1 = true → truthy (splitLabel vl.2).1 = true) ∧
      (truthy (splitLabel e.2.2).2 = true → truthy (splitLabel vl.2).2 = true)) :
    ∀ pr ∈ (builderToCombined (minimalBuilder P).1).vertices,
      modifiedNode (builderToCombined (minimalBuilder P).1) pr.1 = true := by
  obtain ⟨hcoreF, hedgeF, horigF⟩ :=
    minimalBuilder_inv P hvnd hhalfV hstarV hedup hstarE hsideE
  intro pr hpr
  obtain ⟨i, lab⟩ := pr
  show modifiedNode (builderToCombined (minimalBuilder P).1) i = true
  have hkey : vtxKey (minimalBuilder P).1 i := (subVertices_iff _ i).1 ⟨lab, hpr⟩
  have hlt : i < (minimalBuilder P).2.length := (hcoreF.ids i).1 hkey
  have hmemr : i ∈ (minimalBuilder P).2.map Prod.snd := by
    rw [hcoreF.sids]
    exact List.mem_range.2 hlt
  obtain ⟨p, hp, hps⟩ := List.mem_map.1 hmemr
  have hpi : (p.1, i) ∈ (minimalBuilder P).2 := by
    rw [← hps]
    exact hp
  have helem : BElem.vtx i ∈ builderElems (minimalBuilder P).1 :=
    (mem_builderElems _ _).2 hkey
  rcases (horigF p.1).1 ⟨i, hpi⟩ with hrel | hep
  · obtain ⟨labP, hlmem, hlc⟩ := hrel
    have hr := hcoreF.rside p.1 i labP hpi hlmem hlc
    have hor : sgHas (minimalBuilder P).1.left (BElem.vtx i) = true ∨
        sgHas (minimalBuilder P).1.right (BElem.vtx i) = true := by
      rcases hhalfV (p.1, labP) hlmem hlc with h | h
      · exact Or.inl (hr.1.trans h)
      · exact Or.inr (hr.2.1.trans h)
    have hcombv := combined_of_sides (minimalBuilder P).1 hcoreF.lstar hcoreF.rgood
      (BElem.vtx i) hr.2.2 hor
    unfold modifiedNode
    rw [cgVertexLabel_builder _ i helem, hcombv, Bool.true_or]
  · obtain ⟨e0, he0, hc0, hend⟩ := hep
    obtain ⟨sa0, hsa0⟩ := (horigF e0.1).2 (Or.inr ⟨e0, he0, hc0, Or.inl rfl⟩)
    obtain ⟨sb0, hsb0⟩ := (horigF e0.2.1).2 (Or.inr ⟨e0, he0, hc0, Or.inr rfl⟩)
    have hedgegen : ∀ u v : Nat, (e0.1, u) ∈ (minimalBuilder P).2 →
        (e0.2.1, v) ∈ (minimalBuilder P).2 →
        ∃ labE, (min u v, max u v, labE) ∈
            (builderToCombined (minimalBuilder P).1).edges ∧
          isCombined labE = true := by
      intro u v hu hv
      have hor2 : sgHas (minimalBuilder P).1.left (BElem.edg (min u v) (max u v)) = true ∨
          sgHas (minimalBuilder P).1.right (BElem.edg (min u v) (max u v)) = true := by
        rcases hhalfE e0 he0 hc0 with hhl | hhr
        · exact Or.inl ((hedgeF.eleft (min u v) (max u v)).2
            ⟨e0, he0, hc0, hhl, u, v, hu, hv, rfl⟩)
        · exact Or.inr ((hedgeF.eright (min u v) (max u v)).2
            ⟨e0, he0, hc0, hhr, u, v, hu, hv, rfl⟩)
      have helem2 : BElem.edg (min u v) (max u v) ∈
          builderElems (minimalBuilder P).1 := by
        rcases hor2 with h | h
        · exact (mem_builderElems _ _).2 (Or.inl h)
        · exact (mem_builderElems _ _).2 (Or.inr (Or.inr h))
      have hcombE := combined_of_sides (minimalBuilder P).1 hcoreF.lstar hcoreF.rgood
        (BElem.edg (min u v) (max u v)) (hcoreF.ectx _ _) hor2
      exact ⟨_, subEdges_of_elem_label _ _ _ helem2, hcombE⟩
    have hmm2 : ∀ u v : Nat, (u = i ∨ v = i) →
        ((min u v == i) || (max u v == i)) = true := by
      intro u v huv
      rcases Nat.le_total u v with h | h
      · rw [Nat.min_eq_left h, Nat.max_eq_right h]
        rcases huv with h2 | h2 <;> simp [h2]
      · rw [Nat.min_eq_right h, Nat.max_eq_left h]
        rcases huv with h2 | h2 <;> simp [h2]
    rcases hend with hw | hw
    · have hu : (e0.1, i) ∈ (minimalBuilder P).2 := by
        rw [hw]
        exact hpi
      obtain ⟨labE, hmemE, hcombE⟩ := hedgegen i sb0 hu hsb0
      have hany : (builderToCombined (minimalBuilder P).1).edges.any
          (fun e => (e.1 == i || e.2.1 == i) && isCombined e.2.2) = true :=
        List.any_eq_true.2 ⟨(min i sb0, max i sb0, labE), hmemE, by
          show ((min i sb0 == i || max i sb0 == i) && isCombined labE) = true
          rw [hmm2 i sb0 (Or.inl rfl), hcombE]
          rfl⟩
      unfold modifiedNode
      rw [hany, Bool.or_true]
    · have hv2 : (e0.2.1, i) ∈ (minimalBuilder P).2 := by
        rw [hw]
        exact hpi
      obtain ⟨labE, hmemE, hcombE⟩ := hedgegen sa0 i hsa0 hv2
      have hany : (builderToCombined (minimalBuilder P).1).edges.any
          (fun e => (e.1 == i || e.2.1 == i) && isCombined e.2.2) = true :=
        List.any_eq_true.2 ⟨(min sa0 i, max sa0 i, labE), hmemE, by
          show ((min sa0 i == i || max sa0 i == i) && isCombined labE) = true
          rw [hmm2 sa0 i (Or.inr rfl), hcombE]
          rfl⟩
      unfold modifiedNode
      rw [hany, Bool.or_true]

end MinimalSubruleLemmas

/-- Claim C5 counterexample: on the rule graph with plainly-labelled
vertices `0` and `1` and the single relabeled edge `(0, 1, "x;y")`,
`get_minimal_subrule` returns a pattern with two vertices (the wildcard
context endpoints it creates for the relabeled edge) although no vertex
of the input carries a combined label, so the returned pattern's elements
are not exactly the relabeled elements of the input. -/
theorem claim_C5_counterexample :
    ∃ sub mor,
      getMinimalSubrule ⟨[(0, "a"), (1, "b")], [(0, 1, "x;y")]⟩ = some (sub, mor) ∧
      sub.vertices.length = 2 ∧
      (∀ vl ∈ (⟨[(0, "a"), (1, "b")], [(0, 1, "x;y")]⟩ : CGraph).vertices,
        isCombined vl.2 = false) :=
  ⟨⟨[(0, "*"), (1, "*")], [(0, 1, "*;y")]⟩, [(0, 0), (1, 1)],
    by decide, by decide, by decide⟩

/-- Claim C5 amended: for a well-formed rule graph `P` (distinct vertex
ids, distinct undirected edge pairs, combined labels with a truthy half
and no wildcard right half, and combined edge labels whose truthy halves
are matched by their relabeled endpoints' label halves),
`get_minimal_subrule` succeeds and returns a sub-pattern and morphism
such that: the morphism maps the new vertex ids `0, …, n-1` injectively
onto exactly the relabeled vertices of `P` TOGETHER WITH the endpoints of
relabeled edges (not only the relabeled elements, see the
counterexample); the sub-pattern's vertex ids are exactly the morphism's
domain; every edge of the sub-pattern is either a re-indexed relabeled
edge of `P` or a `no_edge` augmentation edge added by the mod-graph
canonicalisation when the extracted pattern is disconnected; and every
relabeled edge of `P` appears re-indexed in the sub-pattern. -/
theorem claim_C5_minimal_subrule (P : CGraph)
    (hvnd : (P.vertices.map Prod.fst).Nodup)
    (hhalfV : ∀ v ∈ P.vertices, isCombined v.2 = true →
      truthy (splitLabel v.2).1 = true ∨ truthy (splitLabel v.2).2 = true)
    (hstarV : ∀ v ∈ P.vertices, isCombined v.2 = true →
      (splitLabel v.2).2 ≠ some "*")
    (hedup : (P.edges.map (fun e2 => mkEdgeTuple e2.1 e2.2.1)).Nodup)
    (hhalfE : ∀ e ∈ P.edges, isCombined e.2.2 = true →
      truthy (splitLabel e.2.2).1 = true ∨ truthy (splitLabel e.2.2).2 = true)
    (hstarE : ∀ e ∈ P.edges, isCombined e.2.2 = true →
      (splitLabel e.2.2).2 ≠ some "*")
    (hsideE : ∀ e ∈ P.edges, ∀ vl ∈ P.vertices, isCombined e.2.2 = true →
      (vl.1 = e.1 ∨ vl.1 = e.2.1) → isCombined vl.2 = true →
      (truthy (splitLabel e.2.2).1 = true → truthy (splitLabel vl.2).1 = true) ∧
      (truthy (splitLabel e.2.2).2 = true → truthy (splitLabel vl.2).2 = true)) :
    ∃ sub mor, getMinimalSubrule P = some (sub, mor) ∧
      (∀ v, (∃ s, (s, v) ∈ mor) ↔ (relabeledVertex P v ∨ endpointIn P.edges v)) ∧
      mor.map Prod.fst = List.range mor.length ∧
      (mor.map Prod.snd).Nodup ∧
      (∀ s, (∃ lab, (s, lab) ∈ sub.vertices) ↔ (∃ v, (s, v) ∈ mor)) ∧
      (∀ a c lab, (a, c, lab) ∈ sub.edges →
        lab = "no_edge" ∨ ∃ e ∈ P.edges, isCombined e.2.2 = true ∧ ∃ sa sb,
          (sa, e.1) ∈ mor ∧ (sb, e.2.1) ∈ mor ∧ BElem.edg a c = mkEdgeTuple sa sb) ∧
      (∀ e ∈ P.edges, isCombined e.2.2 = true →
        (truthy (splitLabel e.2.2).1 = true ∨ truthy (splitLabel e.2.2).2 = true) →
        ∃ sa sb lab, (sa, e.1) ∈ mor ∧ (sb, e.2.1) ∈ mor ∧
          (min sa sb, max sa sb, lab) ∈ sub.edges) := by
  obtain ⟨hcoreF, hedgeF, horigF⟩ :=
    minimalBuilder_inv P hvnd hhalfV hstarV hedup hstarE hsideE
  have hmod := builder_vertices_modified P hvnd hhalfV hstarV hedup hhalfE hstarE hsideE
  obtain ⟨ne, hne, hlabne⟩ :=
    nxGraphToModGraph_spec (builderToCombined (minimalBuilder P).1) hmod
  have hmor : ∀ s v, (s, v) ∈ (minimalBuilder P).2.map (fun p => (p.2, p.1)) ↔
      (v, s) ∈ (minimalBuilder P).2 := by
    intro s v
    rw [List.mem_map]
    constructor
    · rintro ⟨p, hp, heq⟩
      have h1 : p.2 = s := congrArg Prod.fst heq
      have h2 : p.1 = v := congrArg Prod.snd heq
      rw [← h1, ← h2]
      exact hp
    · intro h
      exact ⟨(v, s), h, rfl⟩
  refine ⟨{ builderToCombined (minimalBuilder P).1 with
      edges := (builderToCombined (minimalBuilder P).1).edges ++ ne },
    (minimalBuilder P).2.map (fun p => (p.2, p.1)), ?_, ?_, ?_, ?_, ?_, ?_, ?_⟩
  · simp only [getMinimalSubrule]
    rw [hne]
    rfl
  · intro v
    constructor
    · rintro ⟨s, hs⟩
      exact (horigF v).1 ⟨s, (hmor s v).1 hs⟩
    · intro h
      obtain ⟨s, hs⟩ := (horigF v).2 h
      exact ⟨s, (hmor s v).2 hs⟩
  · rw [List.map_map, List.length_map]
    have hcomp : (Prod.fst ∘ fun p : Nat × Nat => (p.2, p.1)) = Prod.snd := by
      funext p
      rfl
    rw [hcomp, hcoreF.sids]
  · rw [List.map_map]
    have hcomp : (Prod.snd ∘ fun p : Nat × Nat => (p.2, p.1)) = Prod.fst := by
      funext p
      rfl
    rw [hcomp]
    exact hcoreF.keysnd
  · intro s
    show (∃ lab, (s, lab) ∈ (builderToCombined (minimalBuilder P).1).vertices) ↔
      ∃ v, (s, v) ∈ (minimalBuilder P).2.map (fun p => (p.2, p.1))
    rw [subVertices_iff, hcoreF.ids s]
    constructor
    · intro hlt
      have hmemr : s ∈ (minimalBuilder P).2.map Prod.snd := by
        rw [hcoreF.sids]
        exact List.mem_range.2 hlt
      obtain ⟨p, hp, hps⟩ := List.mem_map.1 hmemr
      refine ⟨p.1, (hmor s p.1).2 ?_⟩
      rw [← hps]
      exact hp
    · rintro ⟨v, hv⟩
      exact snd_lt_of_mem_vm hcoreF.sids ((hmor s v).1 hv)
  · intro a c lab hmem
    have hmem2 : (a, c, lab) ∈
        (builderToCombined (minimalBuilder P).1).edges ++ ne := hmem
    rcases List.mem_append.1 hmem2 with hm | hm
    · refine Or.inr ?_
      have hx := subEdges_elem (minimalBuilder P).1 a c lab hm
      rcases (mem_builderElems _ _).1 hx with h | h | h
      · obtain ⟨e2, he2, hc2, _, sa2, sb2, hsa2, hsb2, hxeq⟩ := (hedgeF.eleft a c).1 h
        exact ⟨e2, he2, hc2, sa2, sb2, (hmor _ _).2 hsa2, (hmor _ _).2 hsb2, hxeq⟩
      · rw [hcoreF.ectx a c] at h
        cases h
      · obtain ⟨e2, he2, hc2, _, sa2, sb2, hsa2, hsb2, hxeq⟩ := (hedgeF.eright a c).1 h
        exact ⟨e2, he2, hc2, sa2, sb2, (hmor _ _).2 hsa2, (hmor _ _).2 hsb2, hxeq⟩
    · exact Or.inl (hlabne _ hm)
  · intro e he hc hhalf
    obtain ⟨sa, hsa⟩ := (horigF e.1).2 (Or.inr ⟨e, he, hc, Or.inl rfl⟩)
    obtain ⟨sb, hsb⟩ := (horigF e.2.1).2 (Or.inr ⟨e, he, hc, Or.inr rfl⟩)
    have hkey : BElem.edg (min sa sb) (max sa sb) ∈
        builderElems (minimalBuilder P).1 := by
      rcases hhalf with hl | hr
      · exact (mem_builderElems _ _).2 (Or.inl
          ((hedgeF.eleft (min sa sb) (max sa sb)).2
            ⟨e, he, hc, hl, sa, sb, hsa, hsb, rfl⟩))
      · exact (mem_builderElems _ _).2 (Or.inr (Or.inr
          ((hedgeF.eright (min sa sb) (max sa sb)).2
            ⟨e, he, hc, hr, sa, sb, hsa, hsb, rfl⟩)))
    obtain ⟨lab, hlab⟩ :=
      subEdges_of_elem (minimalBuilder P).1 (min sa sb) (max sa sb) hkey
    exact ⟨sa, sb, lab, (hmor _ _).2 hsa, (hmor _ _).2 hsb,
      List.mem_append_left _ hlab⟩

/-- Claim C5 amended witness: the amended theorem applied to a
disconnected rule graph (two relabeled vertices, no edges), whose
well-formedness hypotheses all hold and whose extracted pattern receives
a `no_edge` augmentation edge. -/
theorem claim_C5_witness :
    ∃ sub mor, getMinimalSubrule ⟨[(0, "a;b"), (1, "c;d")], []⟩ =
        some (sub, mor) ∧
      (∀ v, (∃ s, (s, v) ∈ mor) ↔
        (relabeledVertex ⟨[(0, "a;b"), (1, "c;d")], []⟩ v ∨
          endpointIn (⟨[(0, "a;b"), (1, "c;d")], []⟩ : CGraph).edges v)) ∧
      mor.map Prod.fst = List.range mor.length ∧
      (mor.map Prod.snd).Nodup ∧
      (∀ s, (∃ lab, (s, lab) ∈ sub.vertices) ↔ (∃ v, (s, v) ∈ mor)) ∧
      (∀ a c lab, (a, c, lab) ∈ sub.edges →
        lab = "no_edge" ∨
          ∃ e ∈ (⟨[(0, "a;b"), (1, "c;d")], []⟩ : CGraph).edges,
            isCombined e.2.2 = true ∧ ∃ sa sb,
            (sa, e.1) ∈ mor ∧ (sb, e.2.1) ∈ mor ∧ BElem.edg a c = mkEdgeTuple sa sb) ∧
      (∀ e ∈ (⟨[(0, "a;b"), (1, "c;d")], []⟩ : CGraph).edges,
        isCombined e.2.2 = true →
        (truthy (splitLabel e.2.2).1 = true ∨ truthy (splitLabel e.2.2).2 = true) →
        ∃ sa sb lab, (sa, e.1) ∈ mor ∧ (sb, e.2.1) ∈ mor ∧
          (min sa sb, max sa sb, lab) ∈ sub.edges) :=
  claim_C5_minimal_subrule ⟨[(0, "a;b"), (1, "c;d")], []⟩
    (by decide) (by decide) (by decide) (by decide) (by decide) (by decide) (by decide)

end GTRI
